import Mathlib

/-!
# Streaming LOAD DATA ingestion (`go/vt/vtgate/load_data.go`)

A shallow embedding of the line framer (`getValidData`, `getLine`), the record
splitter (`GetRowFromLine`, `escapeCols`, `escape`), the statement builder
(`MakeInsert`, `isNumericType`) and the batcher (`InsertData`,
`insertDataWithCommit`), followed by theorems about them.

Modelling conventions.

* A Go byte is a natural number (no arithmetic is ever performed on bytes, only
  comparisons); a Go `string` is a list of bytes; a Go `[]byte` is a `Slice`,
  an optional list of bytes in which `none` is the `nil` slice.  The tests
  `x == nil` of the source are tests against `none`, and `len(x)` is
  `Slice.len`.
* Every index and slice expression of the source carries its run-time bounds
  check: a computation is a `Run`, which either returns, panics, or (for the two
  loops, which are driven by fuel) runs out of fuel.
* `strings.Index` returns `Option Nat`, `none` standing for `-1`.
* `append` is modelled by value: the buffers handed in by the caller are taken
  not to overlap, so writing into spare capacity is not observable.
* The pointers `l.LinesInfo`, `l.FieldsInfo`, `l.Table`, `tb` and the elements
  of `fields` are taken to be non-nil.
-/

namespace LoadData

/-! ## Data model -/

abbrev Byte := Nat

abbrev Bytes := List Byte

/-- A Go `[]byte`: `none` is the `nil` slice, `some b` a non-nil slice holding `b`. -/
abbrev Slice := Option Bytes

/-- A row: Go `[]string`. -/
abbrev Row := List Bytes

/-- Result of running a piece of Go code. -/
inductive Run (α : Type) where
  | ret (a : α) : Run α
  | panic : Run α
  | timeout : Run α
  deriving Repr, DecidableEq

/-- Sequencing of runs. -/
def Run.bind {α β : Type} (x : Run α) (f : α → Run β) : Run β :=
  match x with
  | .ret a => f a
  | .panic => .panic
  | .timeout => .timeout

/-- Go `len(s)`. -/
def Slice.len (s : Slice) : Nat :=
  match s with
  | none => 0
  | some b => b.length

/-- The bytes held by a slice (Go `string(s)`). -/
def Slice.bytes (s : Slice) : Bytes :=
  match s with
  | none => []
  | some b => b

/-- Go `s[lo:hi]`; slicing the nil slice gives the nil slice. -/
def Slice.slice (s : Slice) (lo hi : Nat) : Run Slice :=
  if lo ≤ hi ∧ hi ≤ s.len then .ret (s.map fun b => (b.take hi).drop lo) else .panic

/-- Go `s[lo:]`. -/
def Slice.sliceFrom (s : Slice) (lo : Nat) : Run Slice :=
  if lo ≤ s.len then .ret (s.map fun b => b.drop lo) else .panic

/-- Go `s[:hi]`. -/
def Slice.sliceTo (s : Slice) (hi : Nat) : Run Slice :=
  if hi ≤ s.len then .ret (s.map fun b => b.take hi) else .panic

/-- Go `append(a, b...)`. -/
def Slice.append (a b : Slice) : Slice :=
  match a with
  | none => if b.len = 0 then none else some b.bytes
  | some x => some (x ++ b.bytes)

/-- Go `strings.Index(s, sep)`: offset of the first occurrence of `sep` in `s`,
`none` (Go `-1`) when there is none. -/
def Index : Bytes → Bytes → Option Nat
  | [], sep => if sep.isPrefixOf [] then some 0 else none
  | c :: s, sep =>
    if sep.isPrefixOf (c :: s) then some 0 else (Index s sep).map (· + 1)

/-- Record framing rules: `sqlparser.LinesClause`. -/
structure LinesClause where
  Starting : Bytes
  Terminated : Bytes
  deriving Repr, DecidableEq

/-- Field format rules: `sqlparser.FieldsClause`. -/
structure FieldsClause where
  Terminated : Bytes
  Enclosed : Byte
  deriving Repr, DecidableEq

/-- The configuration `LoadDataInfo`; `Table` is `l.Table.Name.String()` and
`Columns` the strings of the declared load columns. -/
structure LoadDataInfo where
  maxRowsInBatch : Int
  LinesInfo : LinesClause
  FieldsInfo : FieldsClause
  Columns : List Bytes
  Table : Bytes
  deriving Repr, DecidableEq

/-- Errors returned by the code: the one built by `GetRowFromLine`
(`vterrors.Errorf` naming the line and the enclosure byte) and those produced by
the insert callback. -/
inductive LoadError where
  | malformed (line : Bytes) (enclosed : Byte) : LoadError
  | sink (code : Nat) : LoadError
  deriving Repr, DecidableEq

deriving instance DecidableEq for Except

/-! ## LineFramer -/

/-- The tail of `getValidData` (lines 96-106): look for the starting symbol in
`curData` alone. -/
def getValidDataCur (l : LoadDataInfo) (curData : Slice) : Run (Slice × Slice) :=
  let startingLen := l.LinesInfo.Starting.length
  match Index curData.bytes l.LinesInfo.Starting with
  | some idx => (curData.sliceFrom idx).bind fun c => .ret (none, c)
  | none =>
    if curData.len ≥ startingLen then
      (curData.sliceFrom (curData.len - startingLen + 1)).bind fun c => .ret (none, c)
    else .ret (none, curData)

/-- Source `getValidData` (lines 70-107). -/
def getValidData (l : LoadDataInfo) (prevData curData : Slice) : Run (Slice × Slice) :=
  let startingLen := l.LinesInfo.Starting.length
  if startingLen = 0 then .ret (prevData, curData)
  else
    let prevLen := prevData.len
    if prevLen > 0 then
      match Index prevData.bytes l.LinesInfo.Starting with
      | some idx => (prevData.sliceFrom idx).bind fun p => .ret (p, curData)
      | none =>
        (if curData.len ≥ startingLen then curData.sliceTo (startingLen - 1)
          else .ret curData).bind fun restStart =>
        let prevData1 := prevData.append restStart
        match Index prevData1.bytes l.LinesInfo.Starting with
        | some idx => (prevData1.slice idx prevLen).bind fun p => .ret (p, curData)
        | none => getValidDataCur l curData
    else getValidDataCur l curData

/-- The part of `getLine` run when no terminator was found in `curData`
(lines 127-142). -/
def getLineNoEnd (l : LoadDataInfo) (prevData curData : Slice) : Run (Slice × Slice × Bool) :=
  let startingLen := l.LinesInfo.Starting.length
  let terminatedLen := l.LinesInfo.Terminated.length
  if prevData.len = 0 then .ret (none, curData, true)
  else
    let curData1 := prevData.append curData
    (curData1.sliceFrom startingLen).bind fun tail =>
    match Index tail.bytes l.LinesInfo.Terminated with
    | some endIdx =>
      let nextDataIdx := startingLen + endIdx + terminatedLen
      (curData1.slice startingLen (startingLen + endIdx)).bind fun line =>
      (curData1.sliceFrom nextDataIdx).bind fun rest =>
      .ret (line, rest, true)
    | none => .ret (none, curData1, true)

/-- The part of `getLine` run when a terminator was found in `curData` at
`endIdx` past `curStartIdx` (lines 144-159). -/
def getLineEnd (l : LoadDataInfo) (prevData curData : Slice) (curStartIdx endIdx : Nat) :
    Run (Slice × Slice × Bool) :=
  let startingLen := l.LinesInfo.Starting.length
  let terminatedLen := l.LinesInfo.Terminated.length
  let prevLen := prevData.len
  let nextDataIdx := curStartIdx + endIdx + terminatedLen
  if prevData.len = 0 then
    (curData.slice curStartIdx (curStartIdx + endIdx)).bind fun line =>
    (curData.sliceFrom nextDataIdx).bind fun rest =>
    .ret (line, rest, true)
  else
    (curData.sliceTo nextDataIdx).bind fun head =>
    let prevData1 := prevData.append head
    (prevData1.sliceFrom startingLen).bind fun tail =>
    match Index tail.bytes l.LinesInfo.Terminated with
    | none => .panic -- `endIdx = -1`: `prevData[startingLen : startingLen+endIdx]` is out of range
    | some endIdx1 =>
      if endIdx1 ≥ prevLen then
        (prevData1.slice startingLen (startingLen + endIdx1)).bind fun line =>
        (curData.sliceFrom nextDataIdx).bind fun rest =>
        .ret (line, rest, true)
      else
        let lineLen := startingLen + endIdx1 + terminatedLen
        (prevData1.slice startingLen (startingLen + endIdx1)).bind fun line =>
        (if lineLen < prevLen then .panic else curData.sliceFrom (lineLen - prevLen)).bind
          fun rest =>
        .ret (line, rest, true)

/-- The body of `getLine` after the call of `getValidData` (lines 114-126),
on the pair that call returned. -/
def getLineBody (l : LoadDataInfo) (prevData curData : Slice) : Run (Slice × Slice × Bool) :=
  let startingLen := l.LinesInfo.Starting.length
  if prevData = none ∧ curData.len < startingLen then .ret (none, curData, false)
  else
    let prevLen := prevData.len
    let curStartIdx := if prevLen < startingLen then startingLen - prevLen else 0
    (if curData.len ≥ curStartIdx then
        (curData.sliceFrom curStartIdx).bind fun tail =>
          .ret (Index tail.bytes l.LinesInfo.Terminated)
      else .ret none).bind fun endIdx =>
    match endIdx with
    | none => getLineNoEnd l prevData curData
    | some endIdx => getLineEnd l prevData curData curStartIdx endIdx

/-- Source `getLine` (lines 111-160): the line, the remaining data and whether
the starting symbol was found. -/
def getLine (l : LoadDataInfo) (prevData curData : Slice) : Run (Slice × Slice × Bool) :=
  (getValidData l prevData curData).bind fun (prevData, curData) =>
  getLineBody l prevData curData

/-! ## Escaper and RecordSplitter -/

/-- Modelled from the spec: `sqlparser.EscapeChar`, which is not among the
sources.  The spec gives the table `0`→NUL, `b`→backspace, `n`→newline,
`r`→carriage return, `t`→tab, `Z`→0x1A, with an identity default for every
other byte (backslash, apostrophe, double quote and space included). -/
def EscapeChar (c : Byte) : Byte :=
  if c = 48 then 0
  else if c = 98 then 8
  else if c = 110 then 10
  else if c = 114 then 13
  else if c = 116 then 9
  else if c = 90 then 26
  else c

/-- Source `escape` (lines 467-487).  The output buffer `desc` has room for
`2 * len(str)` bytes and every step writes at most two bytes per byte read, so
the writes are in range; the result `desc[:pos]` is the list of bytes written. -/
def escape : Bytes → Bytes
  | [] => []
  | [c] => if c = 34 ∨ c = 39 then [92, c] else [c]
  | c :: d :: rest =>
    if c = 92 then EscapeChar d :: escape rest
    else if c = 34 ∨ c = 39 then 92 :: c :: escape (d :: rest)
    else c :: escape (d :: rest)

/-- Source `escapeCols` (lines 454-461). -/
def escapeCols (strs : List Bytes) : Row := strs.map escape

/-- Size reported by Go `utf8.DecodeRune` for the first UTF-8 sequence of a
non-empty `p`: its length when well formed, `1` otherwise. -/
def runeSize (p : Bytes) : Nat :=
  match p with
  | [] => 0
  | p0 :: t =>
    if p0 < 0xC2 ∨ 0xF4 < p0 then 1
    else
      let sz := if p0 < 0xE0 then 2 else if p0 < 0xF0 then 3 else 4
      let lo := if p0 = 0xE0 then 0xA0 else if p0 = 0xF0 then 0x90 else 0x80
      let hi := if p0 = 0xED then 0x9F else if p0 = 0xF4 then 0x8F else 0xBF
      if t.length + 1 < sz then 1
      else
        match t with
        | [] => 1
        | b1 :: t1 =>
          if b1 < lo ∨ hi < b1 then 1
          else if sz ≤ 2 then 2
          else
            match t1 with
            | [] => 1
            | b2 :: t2 =>
              if b2 < 0x80 ∨ 0xBF < b2 then 1
              else if sz ≤ 3 then 3
              else
                match t2 with
                | [] => 1
                | b3 :: _ => if b3 < 0x80 ∨ 0xBF < b3 then 1 else 4

/-- Loop of Go `bytes.explode(s, n)` with `na` pieces already cut. -/
def explodeLoop (n : Nat) : Nat → Nat → Bytes → List Bytes
  | _, _, [] => []
  | 0, _, s => [s]
  | fuel + 1, na, s =>
    if na + 1 ≥ n then [s]
    else s.take (runeSize s) :: explodeLoop n fuel (na + 1) (s.drop (runeSize s))

/-- Loop of Go `bytes.genSplit` for a non-empty separator: cut at the first
occurrence of `sep`, then go on after it.  The loop of the source runs
`Count(s, sep)` times; each round consumes at least one byte, so `len(s)`
rounds of fuel are never used up. -/
def splitLoop (sep : Bytes) : Nat → Bytes → List Bytes
  | 0, s => [s]
  | fuel + 1, s =>
    match Index s sep with
    | none => [s]
    | some m => s.take m :: splitLoop sep fuel (s.drop (m + sep.length))

/-- Go `bytes.Split(s, sep)`: with an empty separator the input is exploded
into its UTF-8 sequences. -/
def bytesSplit (s sep : Bytes) : List Bytes :=
  if sep = [] then explodeLoop s.length s.length 0 s else splitLoop sep s.length s

/-- Source `GetRowFromLine` (lines 288-305). -/
def GetRowFromLine (l : LoadDataInfo) (line : Slice) : Run (Except LoadError Row) :=
  if l.FieldsInfo.Enclosed ≠ 0 then
    match line.bytes.head?, line.bytes.getLast? with
    | some first, some last =>
      if first ≠ l.FieldsInfo.Enclosed ∨ last ≠ l.FieldsInfo.Enclosed then
        .ret (.error (.malformed line.bytes l.FieldsInfo.Enclosed))
      else
        (line.slice 1 (line.len - 1)).bind fun line1 =>
        let sep := [l.FieldsInfo.Enclosed] ++ l.FieldsInfo.Terminated ++ [l.FieldsInfo.Enclosed]
        .ret (.ok (escapeCols (bytesSplit line1.bytes sep)))
    | _, _ => .panic -- `line[0]` on an empty line
  else
    .ret (.ok (escapeCols (bytesSplit line.bytes l.FieldsInfo.Terminated)))

/-! ## StatementBuilder -/

/-- The values of `querypb.Type`. -/
inductive QType where
  | NULL_TYPE | INT8 | UINT8 | INT16 | UINT16 | INT24 | UINT24 | INT32 | UINT32
  | INT64 | UINT64 | FLOAT32 | FLOAT64 | TIMESTAMP | DATE | TIME | DATETIME | YEAR
  | DECIMAL | TEXT | BLOB | VARCHAR | VARBINARY | CHAR | BINARY | BIT | ENUM | SET
  | TUPLE | GEOMETRY | JSON | EXPRESSION
  deriving Repr, DecidableEq

/-- A `querypb.Field`, as far as `MakeInsert` reads it. -/
structure Field where
  Name : Bytes
  Typ : QType
  deriving Repr, DecidableEq

/-- A `vindexes.Table`, as far as `MakeInsert` reads it: `tb.Keyspace.Sharded`
and, for each column vindex, the strings of its `Columns`. -/
structure Table where
  Sharded : Bool
  ColumnVindexes : List (List Bytes)
  deriving Repr, DecidableEq

/-- Source `isNumericType` (lines 489-506). -/
def isNumericType (t : QType) : Bool :=
  if t = .INT8 ∨ t = .INT16 ∨ t = .INT24 ∨ t = .INT32 ∨ t = .INT64 ∨
      t = .UINT8 ∨ t = .UINT16 ∨ t = .UINT24 ∨ t = .UINT32 ∨ t = .UINT64 ∨
      t = .FLOAT32 ∨ t = .FLOAT64 ∨ t = .DECIMAL then true
  else false

/-- An ASCII string literal as bytes. -/
def lit (s : String) : Bytes := s.toList.map Char.toNat

/-- The expression `tb.ColumnVindexes[0].Columns[0].String()`. -/
def firstVindexColumn (tb : Table) : Run Bytes :=
  match tb.ColumnVindexes with
  | [] => .panic
  | [] :: _ => .panic
  | (c :: _) :: _ => .ret c

/-- The inner loop over `fields` (lines 233-238): the type of the first field
whose name folds to `value`, the type found so far when there is none. -/
def resolveFieldType (EqualFold : Bytes → Bytes → Bool) (value : Bytes) :
    List Field → QType → QType
  | [], cur => cur
  | field :: rest, cur =>
    if EqualFold field.Name value then field.Typ
    else resolveFieldType EqualFold value rest cur

/-- The loop over the declared columns (lines 230-244); the state is
`(vindexIdx, vindexFiledType, buffer)`, `vindexIdx = -1` being `none`. -/
def columnLoop (EqualFold : Bytes → Bytes → Bool) (tb : Table) (fields : List Field)
    (columnsSize : Nat) :
    List Bytes → Nat → Option Nat × QType × Bytes → Run (Option Nat × QType × Bytes)
  | [], _, st => .ret st
  | value :: rest, key, (vindexIdx, ty, buf) =>
    (if tb.Sharded then (firstVindexColumn tb).bind fun vc => .ret (EqualFold value vc)
      else .ret false).bind fun hit =>
    let vindexIdx1 := if hit then some key else vindexIdx
    let ty1 := if hit then resolveFieldType EqualFold value fields ty else ty
    let buf1 := buf ++ value ++ (if key ≠ columnsSize - 1 then lit "," else [])
    columnLoop EqualFold tb fields columnsSize rest (key + 1) (vindexIdx1, ty1, buf1)

/-- One value of a tuple (lines 252-275), at column position `j`. -/
def renderValue (needResolveVindexType : Bool) (vindexIdx : Option Nat) (ty : QType)
    (columnsSize : Nat) (record : Row) (j : Nat) : Bytes :=
  let column := if j ≥ record.length then [] else record.getD j []
  let quote :=
    if needResolveVindexType ∧ some j = vindexIdx ∧ isNumericType ty then lit " " else lit "'"
  quote ++ column ++ quote ++ (if j ≠ columnsSize - 1 then lit "," else [])

/-- The loop over the rows (lines 248-283), `k` being the index of the first
row of the list and `total` the number of all rows. -/
def rowLoop (needResolveVindexType : Bool) (vindexIdx : Option Nat) (ty : QType)
    (columnsSize total : Nat) : List Row → Nat → Bytes
  | [], _ => []
  | record :: rest, k =>
    lit "(" ++
      ((List.range columnsSize).map
        (renderValue needResolveVindexType vindexIdx ty columnsSize record)).flatten ++
      (if k = total - 1 then lit ")" else lit "),") ++
      rowLoop needResolveVindexType vindexIdx ty columnsSize total rest (k + 1)

/-- Source `MakeInsert` (lines 211-285).  `strings.EqualFold` is a parameter.
The error result is always `nil`. -/
def MakeInsert (EqualFold : Bytes → Bytes → Bool) (l : LoadDataInfo) (rows : List Row)
    (tb : Table) (fields : List Field) : Run (Bytes × Option LoadError) :=
  if rows.length = 0 then .ret ([], none)
  else
    let buf := lit "INSERT  IGNORE  INTO " ++ l.Table
    let needResolveVindexType := tb.Sharded
    let columnsSize := l.Columns.length
    (if columnsSize > 0 then
        (columnLoop EqualFold tb fields columnsSize l.Columns 0
          (none, QType.NULL_TYPE, buf ++ lit "(")).bind fun (vi, ty, b) =>
        .ret (vi, ty, b ++ lit ") ")
      else .ret (none, QType.NULL_TYPE, buf)).bind fun (vindexIdx, ty, buf1) =>
    .ret (buf1 ++ lit " values " ++
      rowLoop needResolveVindexType vindexIdx ty columnsSize rows.length rows 0, none)

/-! ## Batcher -/

/-- The insert callback `InsertFunc`: `none` is a `nil` error. -/
abbrev InsertFunc := Bytes → Option LoadError

/-- What a call of `InsertData` leaves behind: its three results, the rows
`*rows` on return, and the statements it handed to the callback, in order. -/
structure InsertResult where
  remainder : Slice
  reachLimit : Bool
  err : Option LoadError
  rows : List Row
  calls : List Bytes
  deriving Repr, DecidableEq

/-- The loop of `InsertData` (lines 320-358), one unit of fuel per round. -/
def InsertDataLoop (EqualFold : Bytes → Bytes → Bool) (l : LoadDataInfo) (tb : Table)
    (fields : List Field) (callback : InsertFunc) (isEOF : Bool) :
    Nat → Slice → Slice → List Row → Run InsertResult
  | fuel, prevData, curData, rows =>
    if curData.len = 0 then
      .ret { remainder := curData, reachLimit := false, err := none, rows := rows, calls := [] }
    else
      match fuel with
      | 0 => .timeout
      | fuel + 1 =>
        (getLine l prevData curData).bind fun (line, curData, hasStarting) =>
        if line = none ∧ ¬ isEOF then
          .ret { remainder := curData, reachLimit := false, err := none, rows := rows,
                 calls := [] }
        else if ¬ hasStarting then
          .ret { remainder := if isEOF then none else curData, reachLimit := false,
                 err := none, rows := rows, calls := [] }
        else
          (if line = none ∧ isEOF then
              (curData.sliceFrom l.LinesInfo.Starting.length).bind fun ln => .ret (ln, none)
            else .ret (line, curData)).bind fun (line, curData) =>
          (GetRowFromLine l line).bind fun r =>
          match r with
          | .error e =>
            .ret { remainder := none, reachLimit := false, err := some e, rows := rows,
                   calls := [] }
          | .ok cols =>
            let rows1 := rows ++ [cols]
            if l.maxRowsInBatch ≠ 0 ∧ (rows1.length : Int) = l.maxRowsInBatch then
              (MakeInsert EqualFold l rows1 tb fields).bind fun (inserts, err) =>
              match err with
              | some e =>
                .ret { remainder := none, reachLimit := false, err := some e, rows := rows1,
                       calls := [] }
              | none =>
                match callback inserts with
                | some e =>
                  .ret { remainder := none, reachLimit := false, err := some e, rows := [],
                         calls := [inserts] }
                | none =>
                  .ret { remainder := curData, reachLimit := true, err := none, rows := [],
                         calls := [inserts] }
            else
              InsertDataLoop EqualFold l tb fields callback isEOF fuel none curData rows1

/-- Source `InsertData` (lines 309-359), with `fuel` rounds allowed to its loop. -/
def InsertData (EqualFold : Bytes → Bytes → Bool) (l : LoadDataInfo) (fuel : Nat)
    (prevData curData : Slice) (rows : List Row) (tb : Table) (fields : List Field)
    (callback : InsertFunc) : Run InsertResult :=
  if prevData.len = 0 ∧ curData.len = 0 then
    .ret { remainder := none, reachLimit := false, err := none, rows := rows, calls := [] }
  else if prevData.len > 0 ∧ curData.len = 0 then
    InsertDataLoop EqualFold l tb fields callback true fuel curData prevData rows
  else
    InsertDataLoop EqualFold l tb fields callback false fuel prevData curData rows

/-- What a call of `insertDataWithCommit` leaves behind: its two results, the
rows on return, the statements handed to the callback in order, and the number
of times `InsertData` was invoked. -/
structure CommitResult where
  remainder : Slice
  err : Option LoadError
  rows : List Row
  calls : List Bytes
  passes : Nat
  deriving Repr, DecidableEq

/-- Source `insertDataWithCommit` (lines 361-376), one unit of fuel per round;
every call of `InsertData` is allowed `inner` rounds. -/
def insertDataWithCommit (EqualFold : Bytes → Bytes → Bool) (l : LoadDataInfo) (inner : Nat)
    (tb : Table) (fields : List Field) (callback : InsertFunc) :
    Nat → Slice → Slice → List Row → Run CommitResult
  | 0, _, _, _ => .timeout
  | fuel + 1, prevData, curData, rows =>
    (InsertData EqualFold l inner prevData curData rows tb fields callback).bind fun r =>
    match r.err with
    | some e =>
      .ret { remainder := none, err := some e, rows := r.rows, calls := r.calls, passes := 1 }
    | none =>
      if ¬ r.reachLimit then
        .ret { remainder := r.remainder, err := none, rows := r.rows, calls := r.calls,
               passes := 1 }
      else
        (insertDataWithCommit EqualFold l inner tb fields callback fuel none r.remainder
          r.rows).bind fun r1 =>
        .ret { r1 with calls := r.calls ++ r1.calls, passes := r1.passes + 1 }

/-! ## Definitions used to state the properties -/

/-- The configuration used by `TestGetRowFromLine`. -/
def testInfo : LoadDataInfo :=
  { maxRowsInBatch := 0, LinesInfo := ⟨[], []⟩, FieldsInfo := ⟨lit ",", 34⟩, Columns := [],
    Table := [] }

/-- The re-escaping the spec describes for a field without backslashes: one
backslash put before each apostrophe and each double quote, every other byte
kept. -/
def reescapeQuotes (s : Bytes) : Bytes :=
  s.flatMap fun c => if c = 39 ∨ c = 34 then [92, c] else [c]

/-- Reading of the body of a SQL string literal, left to right, a backslash
escaping the byte after it: no apostrophe or double quote stands unescaped and
no backslash is left without a byte to escape. -/
def literalBodySafe : Bytes → Bool
  | [] => true
  | [c] => decide (c ≠ 92 ∧ c ≠ 39 ∧ c ≠ 34)
  | c :: d :: rest =>
    if c = 92 then literalBodySafe rest
    else decide (c ≠ 39 ∧ c ≠ 34) && literalBodySafe (d :: rest)

/-- Reading of an input field as `escape` reads it, left to right, a backslash
pairing with the byte after it: every backslash is followed by a byte other
than backslash, apostrophe and double quote. -/
def backslashesBenign : Bytes → Bool
  | [] => true
  | [c] => decide (c ≠ 92)
  | c :: d :: rest =>
    if c = 92 then decide (d ≠ 92 ∧ d ≠ 39 ∧ d ≠ 34) && backslashesBenign rest
    else backslashesBenign (d :: rest)

/-- A configuration whose start marker `x\n` holds the line terminator `\n`. -/
def demoLines : LoadDataInfo :=
  { maxRowsInBatch := 0, LinesInfo := ⟨lit "x\n", lit "\n"⟩, FieldsInfo := ⟨lit ",", 0⟩,
    Columns := [lit "a", lit "b"], Table := lit "t" }


/-- What `getValidData` keeps of a chunk `c` in which no starting symbol was
found: its last `startingLen - 1` bytes, or all of it when it is shorter than
the starting symbol. -/
def keptTail (l : LoadDataInfo) (c : Bytes) : Bytes :=
  if c.length ≥ l.LinesInfo.Starting.length then
    c.drop (c.length - l.LinesInfo.Starting.length + 1)
  else c

/-- The calling protocol for a stream cut into chunks: `InsertData` is called
once per chunk, each call receiving the remainder and the rows left by the call
before; the statements handed to the callback are collected in order.  Feeding
stops at the first error. -/
def feedChunks (EqualFold : Bytes → Bytes → Bool) (l : LoadDataInfo) (fuel : Nat) (tb : Table)
    (fields : List Field) (callback : InsertFunc) :
    List Bytes → Slice → List Row → Run InsertResult
  | [], prevData, rows =>
    .ret { remainder := prevData, reachLimit := false, err := none, rows := rows, calls := [] }
  | chunk :: rest, prevData, rows =>
    (InsertData EqualFold l fuel prevData (some chunk) rows tb fields callback).bind fun r =>
    match r.err with
    | some _ => .ret r
    | none =>
      (feedChunks EqualFold l fuel tb fields callback rest r.remainder r.rows).bind fun r1 =>
      .ret { r1 with calls := r.calls ++ r1.calls }

/-- A stand-in for `strings.EqualFold` on names written in one case. -/
def sameName (a b : Bytes) : Bool := a == b

/-- An unsharded table. -/
def plainTable : Table := { Sharded := false, ColumnVindexes := [] }

/-- A configuration with the start marker `abc`, lines ended by a newline,
fields separated by a comma, no enclosure and batching disabled. -/
def markerInfo : LoadDataInfo :=
  { maxRowsInBatch := 0, LinesInfo := ⟨lit "abc", lit "\n"⟩, FieldsInfo := ⟨lit ",", 0⟩,
    Columns := [lit "a", lit "b"], Table := lit "t" }

/-- A chunk made of complete records: each body between the starting symbol
and the terminator, one after another. -/
def recordsChunk (l : LoadDataInfo) (bodies : List Bytes) : Bytes :=
  (bodies.map fun b => l.LinesInfo.Starting ++ b ++ l.LinesInfo.Terminated).flatten

/-- A record body together with the row it splits into: the terminator first
occurs in `body ++ Terminated` at the end of the body, and `GetRowFromLine`
returns the row. -/
def IsRecord (l : LoadDataInfo) (r : Bytes × Row) : Prop :=
  Index (r.1 ++ l.LinesInfo.Terminated) l.LinesInfo.Terminated = some r.1.length ∧
    GetRowFromLine l (some r.1) = .ret (.ok r.2)

instance (l : LoadDataInfo) (r : Bytes × Row) : Decidable (IsRecord l r) := by
  unfold IsRecord
  infer_instance

/-- The configuration `markerInfo` with a batch of two rows. -/
def batchInfo : LoadDataInfo := { markerInfo with maxRowsInBatch := 2 }

/-! ## Further source functions and definitions used to state the properties -/

/-- Go `string(b)` for a byte `b`: the UTF-8 encoding of the code point `b`,
one byte below `0x80`, two bytes from there on. -/
def byteString (b : Byte) : Bytes :=
  if b < 0x80 then [b] else [0xC0 + b / 64, 0x80 + b % 64]

/-- Source `parseFieldString` (lines 56-65); the receiver is not read.  The
error result is always `nil`. -/
def parseFieldString (column : Bytes) (enclosed : Byte) : Run (Bytes × Option LoadError) :=
  if enclosed = 32 ∨ column = [] then .ret (column, none)
  else if (byteString enclosed).isPrefixOf column ∧ (byteString enclosed).isSuffixOf column then
    let start := (byteString enclosed).length - 1
    let stop := column.length - (byteString enclosed).length + 1
    (Slice.slice (some column) start stop).bind fun s => .ret (s.bytes, none)
  else .ret (column, none)

/-- The record `e v1 e t e v2 e ... t e vn e`: every value between two
enclosure bytes, the field terminator between consecutive fields. -/
def encloseFields (e : Byte) (t : Bytes) : List Bytes → Bytes
  | [] => []
  | [v] => [e] ++ v ++ [e]
  | v :: w :: rest => [e] ++ v ++ [e] ++ t ++ encloseFields e t (w :: rest)

/-- The type of the field whose name folds to `name`: that of the first such
field, `none` when no field does. -/
def fieldTypeOf (EqualFold : Bytes → Bytes → Bool) (fields : List Field) (name : Bytes) :
    Option QType :=
  (fields.find? fun f => EqualFold f.Name name).map fun f => f.Typ

/-- A value as the statement shows it: between two spaces when it is left
unquoted, between two single quotes otherwise. -/
def wrapValue (unquoted : Bool) (v : Bytes) : Bytes :=
  if unquoted then lit " " ++ v ++ lit " " else lit "'" ++ v ++ lit "'"

/-- The tuple of a row over `n` declared columns: the `n` values, a missing one
taken as the empty string, separated by commas and put in brackets. -/
def tupleText (unquoted : Nat → Bool) (n : Nat) (r : Row) : Bytes :=
  lit "(" ++
    List.intercalate (lit ",")
      ((List.range n).map fun j => wrapValue (unquoted j) (r.getD j [])) ++
    lit ")"

/-- The tuples of the rows, separated by commas. -/
def rowsText (unquoted : Nat → Bool) (n : Nat) (rows : List Row) : Bytes :=
  List.intercalate (lit ",") (rows.map (tupleText unquoted n))

/-- The text `MakeInsert` writes before the tuples: the insert keywords, the
table name, the bracketed column list when columns are declared, and the
keyword `values`. -/
def statementHead (l : LoadDataInfo) : Bytes :=
  lit "INSERT  IGNORE  INTO " ++ l.Table ++
    (if l.Columns.length > 0 then
      lit "(" ++ List.intercalate (lit ",") l.Columns ++ lit ") "
    else []) ++
    lit " values "

/-- A remainder that is an unfinished record: it begins with the starting
symbol and holds no terminator after it. -/
def IsUnfinishedRecord (l : LoadDataInfo) (rem : Bytes) : Prop :=
  l.LinesInfo.Starting <+: rem ∧
    Index (rem.drop l.LinesInfo.Starting.length) l.LinesInfo.Terminated = none

/-- A configuration whose enclosure byte is the space. -/
def spaceInfo : LoadDataInfo :=
  { maxRowsInBatch := 0, LinesInfo := ⟨[], lit "\n"⟩, FieldsInfo := ⟨lit ",", 32⟩,
    Columns := [], Table := [] }

/-- A load into the columns `id`, `name` of the table `t`. -/
def shardedInfo : LoadDataInfo :=
  { maxRowsInBatch := 0, LinesInfo := ⟨[], lit "\n"⟩, FieldsInfo := ⟨lit ",", 0⟩,
    Columns := [lit "id", lit "name"], Table := lit "t" }

/-- A sharded table whose first sharding column is `id`. -/
def shardedTable : Table := { Sharded := true, ColumnVindexes := [[lit "id"]] }

/-- Field types of the table `t`: `id` is `INT32`, `name` is `VARCHAR`. -/
def shardedFields : List Field := [⟨lit "id", .INT32⟩, ⟨lit "name", .VARCHAR⟩]

/-- A configuration with the empty start marker, lines ended by a newline and
batching disabled. -/
def plainLines : LoadDataInfo :=
  { maxRowsInBatch := 0, LinesInfo := ⟨[], lit "\n"⟩, FieldsInfo := ⟨lit ",", 0⟩,
    Columns := [lit "a", lit "b"], Table := lit "t" }

/-- The sharding position and type the loop over the declared columns of
`MakeInsert` resolves (lines 230-239), `sc` being the first sharding column:
the state `(vindexIdx, vindexFiledType)` after the columns from position `key`
on. -/
def resolveVindex (EqualFold : Bytes → Bytes → Bool) (sc : Bytes) (fields : List Field) :
    List Bytes → Nat → Option Nat × QType → Option Nat × QType
  | [], _, st => st
  | value :: rest, key, (vindexIdx, ty) =>
    if EqualFold value sc then
      resolveVindex EqualFold sc fields rest (key + 1)
        (some key, resolveFieldType EqualFold value fields ty)
    else resolveVindex EqualFold sc fields rest (key + 1) (vindexIdx, ty)

/-- The record `"` alone on the test configuration's lines ended by a newline. -/
def quotedLines : LoadDataInfo := { testInfo with LinesInfo := ⟨[], lit "\n"⟩ }

/-- The load of `shardedInfo` with the column `id` declared twice. -/
def repeatedInfo : LoadDataInfo := { shardedInfo with Columns := [lit "id", lit "id"] }

/-- The load of `shardedInfo` with the sharding column declared last. -/
def swappedInfo : LoadDataInfo := { shardedInfo with Columns := [lit "name", lit "id"] }

/-- The configuration `plainLines` with a batch of one row. -/
def oneRowBatch : LoadDataInfo := { plainLines with maxRowsInBatch := 1 }

/-- The buffer `p` holds no terminator after its first starting symbol: when
the starting symbol occurs in `p`, the terminator does not occur in what
follows the first occurrence. -/
def NoTerminatorAfterStart (l : LoadDataInfo) (p : Bytes) : Prop :=
  ∀ i, Index p l.LinesInfo.Starting = some i →
    Index (p.drop (i + l.LinesInfo.Starting.length)) l.LinesInfo.Terminated = none
/-! ## `strings.Index` -/

theorem Index_eq_some_iff (sep : Bytes) : ∀ (s : Bytes) (i : Nat),
    Index s sep = some i ↔
      i ≤ s.length ∧ sep <+: s.drop i ∧ ∀ j, j < i → ¬ sep <+: s.drop j := by
  intro s
  induction s with
  | nil =>
    intro i
    simp only [Index, List.isPrefixOf_iff_prefix, List.length_nil, Nat.le_zero, List.drop_nil]
    constructor
    · intro h
      split at h
      · rename_i hp
        have : i = 0 := by simpa using h.symm
        subst this
        exact ⟨rfl, hp, fun j hj => absurd hj (Nat.not_lt_zero _)⟩
      · exact absurd h (by simp)
    · rintro ⟨rfl, hp, _⟩
      simp [hp]
  | cons c s ih =>
    intro i
    simp only [Index, List.isPrefixOf_iff_prefix]
    by_cases hp : sep <+: c :: s
    · simp only [hp, if_true]
      constructor
      · intro h
        have : i = 0 := by simpa using h.symm
        subst this
        exact ⟨Nat.zero_le _, by simpa using hp, fun j hj => absurd hj (Nat.not_lt_zero _)⟩
      · rintro ⟨_, _, hmin⟩
        cases i with
        | zero => rfl
        | succ k => exact absurd (by simpa using hp) (hmin 0 (Nat.succ_pos _))
    · simp only [hp, if_false]
      cases i with
      | zero =>
        constructor
        · intro h
          cases hI : Index s sep <;> simp [hI] at h
        · rintro ⟨_, h0, _⟩
          exact absurd (by simpa using h0) hp
      | succ k =>
        have := ih k
        constructor
        · intro h
          have hk : Index s sep = some k := by
            cases hI : Index s sep with
            | none => simp [hI] at h
            | some m => simp [hI] at h; simp [h]
          obtain ⟨h1, h2, h3⟩ := this.mp hk
          refine ⟨by simpa using h1, by simpa using h2, fun j hj => ?_⟩
          cases j with
          | zero => simpa using hp
          | succ m => simpa using h3 m (by omega)
        · rintro ⟨h1, h2, h3⟩
          have hk : Index s sep = some k :=
            this.mpr ⟨by simpa using h1, by simpa using h2,
              fun j hj => by simpa using h3 (j + 1) (by omega)⟩
          simp [hk]

theorem Index_eq_none_iff (sep : Bytes) : ∀ (s : Bytes),
    Index s sep = none ↔ ∀ j, j ≤ s.length → ¬ sep <+: s.drop j := by
  intro s
  induction s with
  | nil =>
    simp only [Index, List.isPrefixOf_iff_prefix, List.length_nil, Nat.le_zero, List.drop_nil]
    constructor
    · intro h j _
      split at h
      · exact absurd h (by simp)
      · assumption
    · intro h
      have := h 0 rfl
      simp [this]
  | cons c s ih =>
    simp only [Index, List.isPrefixOf_iff_prefix]
    by_cases hp : sep <+: c :: s
    · simp only [hp, if_true]
      constructor
      · intro h; exact absurd h (by simp)
      · intro h; exact absurd (by simpa using hp) (h 0 (Nat.zero_le _))
    · simp only [hp, if_false, Option.map_eq_none', ih]
      constructor
      · intro h j hj
        cases j with
        | zero => simpa using hp
        | succ m => simpa using h m (by simpa using hj)
      · intro h j hj
        simpa using h (j + 1) (by simpa using hj)
theorem Index_prefix (sep x : Bytes) : Index (sep ++ x) sep = some 0 := by
  rw [Index_eq_some_iff]
  exact ⟨Nat.zero_le _, by simp, fun j hj => absurd hj (Nat.not_lt_zero _)⟩

theorem Index_length_bound {s sep : Bytes} {i : Nat} (h : Index s sep = some i) :
    i + sep.length ≤ s.length := by
  obtain ⟨h1, h2, _⟩ := (Index_eq_some_iff sep s i).mp h
  have := h2.length_le
  simp at this
  omega

theorem prefix_drop_append {sep s rest : Bytes} {j : Nat} (hj : j + sep.length ≤ s.length) :
    sep <+: (s ++ rest).drop j ↔ sep <+: s.drop j := by
  rw [List.drop_append_of_le_length (by omega)]
  constructor
  · intro h
    exact List.prefix_of_prefix_length_le h (List.prefix_append _ _) (by simp; omega)
  · intro h
    exact h.trans (List.prefix_append _ _)

theorem Index_append_right {s sep : Bytes} {i : Nat} (rest : Bytes)
    (h : Index s sep = some i) : Index (s ++ rest) sep = some i := by
  have hb := Index_length_bound h
  obtain ⟨h1, h2, h3⟩ := (Index_eq_some_iff sep s i).mp h
  rw [Index_eq_some_iff]
  refine ⟨by simp; omega, (prefix_drop_append hb).mpr h2, fun j hj => ?_⟩
  rw [prefix_drop_append (by omega)]
  exact h3 j hj

theorem Index_none_of_length_lt {s sep : Bytes} (h : s.length < sep.length) :
    Index s sep = none := by
  rw [Index_eq_none_iff]
  intro j _ hp
  have := hp.length_le
  simp at this
  omega

theorem Index_take_none {s sep : Bytes} {i n : Nat} (h : Index s sep = some i)
    (hn : n < i + sep.length) : Index (s.take n) sep = none := by
  obtain ⟨h1, h2, h3⟩ := (Index_eq_some_iff sep s i).mp h
  rw [Index_eq_none_iff]
  intro j hj hp
  have hl := hp.length_le
  simp only [List.length_drop, List.length_take] at hl hj
  have hji : j < i := by omega
  apply h3 j hji
  rw [List.drop_take] at hp
  exact hp.trans (List.take_prefix _ _)

theorem Index_drop {s sep : Bytes} {i n : Nat} (h : Index s sep = some i) (hn : n ≤ i) :
    Index (s.drop n) sep = some (i - n) := by
  obtain ⟨h1, h2, h3⟩ := (Index_eq_some_iff sep s i).mp h
  rw [Index_eq_some_iff]
  refine ⟨by simp; omega, ?_, fun j hj => ?_⟩
  · rw [List.drop_drop]
    have : n + (i - n) = i := by omega
    rw [this]; exact h2
  · rw [List.drop_drop]
    exact h3 _ (by omega)

theorem Index_none_of_infix {s t sep : Bytes} (h : Index s sep = none) (ht : t <:+: s) :
    Index t sep = none := by
  rw [Index_eq_none_iff] at h ⊢
  obtain ⟨u, v, rfl⟩ := ht
  intro j hj hp
  apply h (u.length + j) (by simp; omega)
  have e : (u ++ t ++ v).drop (u.length + j) = t.drop j ++ v := by
    rw [List.append_assoc, ← List.drop_drop, List.drop_left, List.drop_append_of_le_length hj]
  rw [e]
  exact hp.trans (List.prefix_append _ _)
/-! ## Escaper -/

theorem escape_cons_of_ne (c : Byte) (t : Bytes) (h : c ≠ 92) :
    escape (c :: t) = (if c = 39 ∨ c = 34 then [92, c] else [c]) ++ escape t := by
  cases t with
  | nil => by_cases hq : c = 34 ∨ c = 39 <;> simp [escape, hq, or_comm]
  | cons d rest =>
    by_cases hq : c = 34 ∨ c = 39 <;> simp [escape, h, hq, or_comm]

theorem escape_pairs (cs : Bytes) :
    escape (cs.flatMap fun c => [92, c]) = cs.map EscapeChar := by
  induction cs with
  | nil => simp [escape]
  | cons c t ih =>
    rw [List.flatMap_cons]
    show escape (92 :: c :: (t.flatMap fun c => [92, c])) = _
    simp only [escape, if_true, List.map_cons, ih]

/-- C8. Escape decode table: `escape` maps the two bytes backslash, `c` to the
single byte `EscapeChar c`, which is NUL, backspace, newline, carriage return,
tab and 0x1A for `0`, `b`, `n`, `r`, `t`, `Z` and `c` itself for every other
byte; a sequence of such pairs decodes to the sequence of mapped bytes; and the
enclosed test field of `TestGetRowFromLine` decodes to the bytes the test
expects. -/
theorem escape_decode_table :
    (∀ c : Byte, escape [92, c] = [EscapeChar c]) ∧
    (EscapeChar 48 = 0 ∧ EscapeChar 98 = 8 ∧ EscapeChar 110 = 10 ∧ EscapeChar 114 = 13 ∧
      EscapeChar 116 = 9 ∧ EscapeChar 90 = 26) ∧
    (∀ c : Byte, c = 48 ∨ c = 98 ∨ c = 110 ∨ c = 114 ∨ c = 116 ∨ c = 90 ∨ EscapeChar c = c) ∧
    (∀ cs : Bytes, escape (cs.flatMap fun c => [92, c]) = cs.map EscapeChar) ∧
    GetRowFromLine testInfo (some (lit "\"\\0\\b\\n\\r\\t\\Z\\\\\\  \\c\\'\\\"\"")) =
      .ret (.ok [[0, 8, 10, 13, 9, 26, 92, 32, 32, 99, 39, 34]]) := by
  refine ⟨fun c => by simp [escape], by decide, fun c => ?_, escape_pairs, rfl⟩
  unfold EscapeChar
  by_cases h1 : c = 48 <;> by_cases h2 : c = 98 <;> by_cases h3 : c = 110 <;>
    by_cases h4 : c = 114 <;> by_cases h5 : c = 116 <;> by_cases h6 : c = 90 <;> simp [*]

/-- C9. Raw quotes are re-escaped: on a byte string without backslash, `escape`
puts one backslash before each apostrophe and each double quote and keeps every
other byte in place; a string that has none of the three is returned unchanged. -/
theorem escape_reescapes_raw_quotes (s : Bytes) (h : 92 ∉ s) :
    escape s = reescapeQuotes s ∧ (39 ∉ s → 34 ∉ s → escape s = s) := by
  induction s with
  | nil => simp [escape, reescapeQuotes]
  | cons c t ih =>
    have hc : c ≠ 92 := fun e => h (by simp [e])
    have ht : 92 ∉ t := fun e => h (by simp [e])
    obtain ⟨ih1, ih2⟩ := ih ht
    rw [escape_cons_of_ne c t hc]
    refine ⟨by simp [reescapeQuotes, List.flatMap_cons, ih1], fun h39 h34 => ?_⟩
    have e1 : c ≠ 39 := fun e => h39 (by simp [e])
    have e2 : c ≠ 34 := fun e => h34 (by simp [e])
    have := ih2 (fun e => h39 (by simp [e])) (fun e => h34 (by simp [e]))
    simp [e1, e2, this]

/-- C9 at the field `it's "x"`. -/
theorem escape_reescapes_raw_quotes_witness :
    92 ∉ lit "it's \"x\"" ∧ escape (lit "it's \"x\"") = lit "it\\'s \\\"x\\\"" := by
  have h : 92 ∉ lit "it's \"x\"" := by decide
  refine ⟨h, ?_⟩
  rw [(escape_reescapes_raw_quotes _ h).1]
  decide

theorem literalBodySafe_cons (e : Byte) (x : Bytes) (h1 : e ≠ 92) (h2 : e ≠ 39) (h3 : e ≠ 34) :
    literalBodySafe (e :: x) = literalBodySafe x := by
  cases x with
  | nil => simp [literalBodySafe, h1, h2, h3]
  | cons d rest => simp [literalBodySafe, h1, h2, h3]

theorem EscapeChar_benign (d : Byte) (h1 : d ≠ 92) (h2 : d ≠ 39) (h3 : d ≠ 34) :
    EscapeChar d ≠ 92 ∧ EscapeChar d ≠ 39 ∧ EscapeChar d ≠ 34 := by
  unfold EscapeChar
  split_ifs <;> simp [*]

theorem escape_benign_induction (n : Nat) : ∀ s : Bytes, s.length ≤ n →
    backslashesBenign s = true → literalBodySafe (escape s) = true := by
  induction n with
  | zero =>
    intro s hs _
    have : s = [] := List.length_eq_zero.mp (by omega)
    subst this
    rfl
  | succ n ih =>
    intro s hs hb
    match s, hs, hb with
    | [], _, _ => rfl
    | [c], _, hb =>
      have hc : c ≠ 92 := by simpa [backslashesBenign] using hb
      by_cases hq : c = 34 ∨ c = 39
      · simp [escape, hq, literalBodySafe]
      · have h34 : c ≠ 34 := fun e => hq (Or.inl e)
        have h39 : c ≠ 39 := fun e => hq (Or.inr e)
        simp [escape, hq, literalBodySafe, hc, h34, h39]
    | c :: d :: rest, hs, hb =>
      have hlen1 : rest.length ≤ n := by simp at hs; omega
      have hlen2 : (d :: rest).length ≤ n := by simp at hs ⊢; omega
      by_cases hc : c = 92
      · simp only [backslashesBenign, hc, if_true, Bool.and_eq_true, decide_eq_true_eq] at hb
        obtain ⟨⟨h1, h2, h3⟩, hr⟩ := hb
        obtain ⟨e1, e2, e3⟩ := EscapeChar_benign d h1 h2 h3
        simp only [escape, hc, if_true]
        rw [literalBodySafe_cons _ _ e1 e2 e3]
        exact ih rest hlen1 hr
      · simp only [backslashesBenign, hc, if_false] at hb
        have hrec := ih (d :: rest) hlen2 hb
        by_cases hq : c = 34 ∨ c = 39
        · simp only [escape, hc, if_false, hq, if_true, literalBodySafe]
          exact hrec
        · have h34 : c ≠ 34 := fun e => hq (Or.inl e)
          have h39 : c ≠ 39 := fun e => hq (Or.inr e)
          simp only [escape, hc, if_false, hq]
          rw [literalBodySafe_cons _ _ hc h39 h34]
          exact hrec

/-- C10 as stated fails: a backslash-escaped apostrophe or double quote is decoded
to the bare quote, and a lone final backslash is copied as it is. -/
theorem escape_not_always_safe :
    literalBodySafe (escape [92, 39]) = false ∧ literalBodySafe (escape [92, 34]) = false ∧
      literalBodySafe (escape [92]) = false := by
  decide

/-- C10, amended. When every backslash of the field is followed by a byte other
than backslash, apostrophe and double quote, the output of `escape` holds no
unescaped apostrophe or double quote and does not end in an unpaired backslash. -/
theorem escape_safe_of_benign (s : Bytes) (h : backslashesBenign s = true) :
    literalBodySafe (escape s) = true :=
  escape_benign_induction s.length s (Nat.le_refl _) h

/-- C10, amended, at the field `a\n'b"`. -/
theorem escape_safe_of_benign_witness :
    backslashesBenign (lit "a\\n'b\"") = true ∧
      literalBodySafe (escape (lit "a\\n'b\"")) = true :=
  ⟨by decide, escape_safe_of_benign _ (by decide)⟩
/-! ## LineFramer -/

@[simp] theorem Run.ret_bind {α β : Type} (a : α) (f : α → Run β) : (Run.ret a).bind f = f a := rfl
@[simp] theorem Run.panic_bind {α β : Type} (f : α → Run β) : (Run.panic : Run α).bind f = .panic := rfl
@[simp] theorem Run.timeout_bind {α β : Type} (f : α → Run β) :
    (Run.timeout : Run α).bind f = .timeout := rfl
@[simp] theorem Slice.len_some (b : Bytes) : Slice.len (some b) = b.length := rfl
@[simp] theorem Slice.len_none : Slice.len none = 0 := rfl
@[simp] theorem Slice.bytes_some (b : Bytes) : Slice.bytes (some b) = b := rfl
@[simp] theorem Slice.bytes_none : Slice.bytes none = [] := rfl

theorem Slice.sliceFrom_some {b : Bytes} {n : Nat} (h : n ≤ b.length) :
    Slice.sliceFrom (some b) n = .ret (some (b.drop n)) := by
  simp [Slice.sliceFrom, h]

theorem Slice.sliceTo_some {b : Bytes} {n : Nat} (h : n ≤ b.length) :
    Slice.sliceTo (some b) n = .ret (some (b.take n)) := by
  simp [Slice.sliceTo, h]

theorem Slice.slice_some {b : Bytes} {lo hi : Nat} (h1 : lo ≤ hi) (h2 : hi ≤ b.length) :
    Slice.slice (some b) lo hi = .ret (some ((b.take hi).drop lo)) := by
  simp [Slice.slice, h1, h2]

theorem Slice.bytes_eq_nil_of_len {p : Slice} (h : p.len = 0) : p.bytes = [] := by
  cases p with
  | none => rfl
  | some b => simpa using h

/-- Fresh buffer, start marker present. -/
theorem getValidData_fresh (l : LoadDataInfo) (p : Slice) (noise x : Bytes) (hp : p.len = 0)
    (hS : Index (noise ++ l.LinesInfo.Starting) l.LinesInfo.Starting = some noise.length) :
    ∃ q : Slice, q.len = 0 ∧
      getValidData l p (some (noise ++ l.LinesInfo.Starting ++ x)) =
        .ret (q, some (l.LinesInfo.Starting ++ x)) := by
  by_cases h0 : l.LinesInfo.Starting.length = 0
  · have hnil : l.LinesInfo.Starting = [] := List.length_eq_zero.mp h0
    have hb := Index_length_bound hS
    have hn : noise = [] := by
      rw [hnil] at hS
      have := Index_prefix [] noise
      simp at this hS
      rw [this] at hS
      exact List.length_eq_zero.mp (by simpa using hS.symm)
    refine ⟨p, hp, ?_⟩
    simp [getValidData, h0, hn]
  · refine ⟨none, rfl, ?_⟩
    have hI : Index (noise ++ (l.LinesInfo.Starting ++ x)) l.LinesInfo.Starting =
        some noise.length := by
      rw [← List.append_assoc]; exact Index_append_right x hS
    simp [getValidData, h0, hp, getValidDataCur, hI, Slice.sliceFrom]
theorem curStart_fresh (n : Nat) : (if 0 < n then n - 0 else 0) = n := by
  split <;> omega

/-- Fresh buffer holding a complete record after its start marker. -/
theorem getLineBody_fresh_found (l : LoadDataInfo) (p : Slice) (body rest : Bytes)
    (hp : p.len = 0)
    (hE : Index (body ++ l.LinesInfo.Terminated ++ rest) l.LinesInfo.Terminated =
      some body.length) :
    getLineBody l p (some (l.LinesInfo.Starting ++ body ++ l.LinesInfo.Terminated ++ rest)) =
      .ret (some body, some rest, true) := by
  obtain ⟨m, ⟨S, T⟩, F, C, Tb⟩ := l
  simp only at hE ⊢
  have hE1 : Index (body ++ (T ++ rest)) T = some body.length := by
    rw [← List.append_assoc]; exact hE
  have hlen : ¬ (S ++ body ++ T ++ rest).length < S.length := by simp
  simp only [getLineBody, Slice.len_some, hlen, and_false, if_false, hp, curStart_fresh]
  have hge : (S ++ body ++ T ++ rest).length ≥ S.length := by simp
  rw [if_pos hge, Slice.sliceFrom_some hge]
  simp only [Run.ret_bind, Slice.bytes_some, List.append_assoc, List.drop_left, hE1, getLineEnd,
    hp, if_true]
  rw [Slice.slice_some (by omega) (by simp), Slice.sliceFrom_some (by simp; omega)]
  simp only [Run.ret_bind]
  congr 3
  · rw [← List.append_assoc, List.take_left' (by simp), List.drop_left]
  · have e : S ++ (body ++ (T ++ rest)) = (S ++ body ++ T) ++ rest := by simp
    rw [e, List.drop_left' (by simp; omega)]

/-- Fresh buffer holding a start marker and the beginning of a record. -/
theorem getLineBody_fresh_pending (l : LoadDataInfo) (p : Slice) (body : Bytes)
    (hp : p.len = 0) (hE : Index body l.LinesInfo.Terminated = none) :
    getLineBody l p (some (l.LinesInfo.Starting ++ body)) =
      .ret (none, some (l.LinesInfo.Starting ++ body), true) := by
  obtain ⟨m, ⟨S, T⟩, F, C, Tb⟩ := l
  simp only at hE ⊢
  have hlen : ¬ (S ++ body).length < S.length := by simp
  simp only [getLineBody, Slice.len_some, hlen, and_false, if_false, hp, curStart_fresh]
  have hge : (S ++ body).length ≥ S.length := by simp
  rw [if_pos hge, Slice.sliceFrom_some hge]
  simp only [Run.ret_bind, Slice.bytes_some, List.drop_left, hE, getLineNoEnd, hp, if_true]

/-- No start marker and too little data to hold one. -/
theorem getLineBody_short (l : LoadDataInfo) (c : Slice)
    (hc : c.len < l.LinesInfo.Starting.length) :
    getLineBody l none c = .ret (none, c, false) := by
  simp [getLineBody, hc]

theorem getLine_fresh_pending (l : LoadDataInfo) (p : Slice) (body : Bytes) (hp : p.len = 0)
    (hE : Index body l.LinesInfo.Terminated = none) :
    getLine l p (some (l.LinesInfo.Starting ++ body)) =
      .ret (none, some (l.LinesInfo.Starting ++ body), true) := by
  obtain ⟨q, hq, hv⟩ := getValidData_fresh l p [] body hp
    (by simpa using Index_prefix l.LinesInfo.Starting [])
  simp only [List.nil_append] at hv
  rw [getLine, hv, Run.ret_bind]
  exact getLineBody_fresh_pending l q body hq hE

theorem getLine_fresh_found (l : LoadDataInfo) (p : Slice) (body rest : Bytes) (hp : p.len = 0)
    (hE : Index (body ++ l.LinesInfo.Terminated) l.LinesInfo.Terminated = some body.length) :
    getLine l p (some (l.LinesInfo.Starting ++ body ++ l.LinesInfo.Terminated ++ rest)) =
      .ret (some body, some rest, true) := by
  obtain ⟨q, hq, hv⟩ := getValidData_fresh l p [] (body ++ l.LinesInfo.Terminated ++ rest) hp
    (by simpa using Index_prefix l.LinesInfo.Starting [])
  simp only [List.nil_append] at hv
  have e2 : l.LinesInfo.Starting ++ (body ++ l.LinesInfo.Terminated ++ rest) =
      l.LinesInfo.Starting ++ body ++ l.LinesInfo.Terminated ++ rest := by simp
  rw [e2] at hv
  rw [getLine, hv, Run.ret_bind]
  exact getLineBody_fresh_found l q body rest hq (Index_append_right rest hE)

section Stitched
variable (l : LoadDataInfo) (pp c body : Bytes)

theorem getLineNoEnd_stitched (hpp : pp ≠ [])
    (hD : pp ++ c = l.LinesInfo.Starting ++ body ++ l.LinesInfo.Terminated)
    (hE : Index (body ++ l.LinesInfo.Terminated) l.LinesInfo.Terminated = some body.length) :
    getLineNoEnd l (some pp) (some c) = .ret (some body, some [], true) := by
  obtain ⟨m, ⟨S, T⟩, F, C, Tb⟩ := l
  simp only at hD hE ⊢
  have hp0 : ¬ pp.length = 0 := fun h => hpp (List.length_eq_zero.mp h)
  simp only [getLineNoEnd, Slice.len_some, hp0, if_false, Slice.append, Slice.bytes_some, hD]
  rw [Slice.sliceFrom_some (by simp only [List.length_append]; omega)]
  simp only [Run.ret_bind, Slice.bytes_some, List.append_assoc, List.drop_left, hE]
  rw [Slice.slice_some (by omega) (by simp), Slice.sliceFrom_some (by simp only [List.length_append]; omega)]
  simp only [Run.ret_bind]
  congr 3
  · rw [← List.append_assoc, List.take_left' (by simp), List.drop_left]
  · rw [List.drop_eq_nil_of_le (by simp only [List.length_append]; omega)]

theorem getLineEnd_stitched (cs e : Nat) (hpp : pp ≠ [])
    (hD : pp ++ c = l.LinesInfo.Starting ++ body ++ l.LinesInfo.Terminated)
    (hE : Index (body ++ l.LinesInfo.Terminated) l.LinesInfo.Terminated = some body.length)
    (hnext : cs + e + l.LinesInfo.Terminated.length = c.length)
    (hc : c ≠ []) :
    getLineEnd l (some pp) (some c) cs e = .ret (some body, some [], true) := by
  obtain ⟨m, ⟨S, T⟩, F, C, Tb⟩ := l
  simp only at hD hE hnext ⊢
  have hp0 : ¬ pp.length = 0 := fun h => hpp (List.length_eq_zero.mp h)
  have hc0 : 0 < c.length := List.length_pos.mpr hc
  have hlen : pp.length + c.length = S.length + body.length + T.length := by
    have := congrArg List.length hD
    simp only [List.length_append] at this
    omega
  simp only [getLineEnd, Slice.len_some, hp0, if_false, hnext]
  rw [Slice.sliceTo_some (Nat.le_refl _)]
  simp only [Run.ret_bind, Slice.append, Slice.bytes_some, List.take_length, hD]
  rw [Slice.sliceFrom_some (by simp only [List.length_append]; omega)]
  simp only [Run.ret_bind, Slice.bytes_some, List.append_assoc, List.drop_left, hE]
  have hline : List.drop S.length (List.take (S.length + body.length) (S ++ (body ++ T))) =
      body := by
    rw [← List.append_assoc, List.take_left' (by simp), List.drop_left]
  by_cases hge : body.length ≥ pp.length
  · rw [if_pos hge, Slice.slice_some (by omega) (by simp), Slice.sliceFrom_some (Nat.le_refl _)]
    simp only [Run.ret_bind, hline, List.drop_length]
  · have hlt : ¬ S.length + body.length + T.length < pp.length := by omega
    rw [if_neg hge, Slice.slice_some (by omega) (by simp), if_neg hlt,
      Slice.sliceFrom_some (by omega)]
    have : S.length + body.length + T.length - pp.length = c.length := by omega
    simp only [Run.ret_bind, hline, this, List.drop_length]

theorem getLineBody_stitched (hpp : pp ≠ []) (hc : c ≠ [])
    (hD : pp ++ c = l.LinesInfo.Starting ++ body ++ l.LinesInfo.Terminated)
    (hE : Index (body ++ l.LinesInfo.Terminated) l.LinesInfo.Terminated = some body.length) :
    getLineBody l (some pp) (some c) = .ret (some body, some [], true) := by
  have hlen : pp.length + c.length =
      l.LinesInfo.Starting.length + body.length + l.LinesInfo.Terminated.length := by
    have := congrArg List.length hD
    simp only [List.length_append] at this
    omega
  have hc0 : 0 < c.length := List.length_pos.mpr hc
  have hp0 : 0 < pp.length := List.length_pos.mpr hpp
  generalize hcs : (if pp.length < l.LinesInfo.Starting.length then
    l.LinesInfo.Starting.length - pp.length else 0) = cs
  have hcs1 : l.LinesInfo.Starting.length ≤ pp.length + cs ∧
      (pp.length + cs = l.LinesInfo.Starting.length ∨ cs = 0) := by
    subst hcs; split <;> omega
  have hcsle : cs ≤ c.length := by omega
  -- the data searched for the terminator
  have htail : c.drop cs =
      (body ++ l.LinesInfo.Terminated).drop (pp.length + cs - l.LinesInfo.Starting.length) := by
    have h1 : c.drop cs = (pp ++ c).drop (pp.length + cs) := by
      rw [← List.drop_drop, List.drop_left]
    have h2 : pp.length + cs = l.LinesInfo.Starting.length +
        (pp.length + cs - l.LinesInfo.Starting.length) := by omega
    rw [h1, hD, List.append_assoc, h2, ← List.drop_drop, List.drop_left]
    congr 1
    omega
  simp only [getLineBody, reduceCtorEq, false_and, if_false, Slice.len_some, hcs]
  rw [if_pos hcsle, Slice.sliceFrom_some hcsle]
  simp only [Run.ret_bind, Slice.bytes_some]
  cases hI : Index (c.drop cs) l.LinesInfo.Terminated with
  | none => exact getLineNoEnd_stitched l pp c body hpp hD hE
  | some e =>
    simp only
    apply getLineEnd_stitched l pp c body cs e hpp hD hE _ hc
    by_cases hd : pp.length + cs - l.LinesInfo.Starting.length ≤ body.length
    · have := Index_drop hE hd
      rw [← htail, hI] at this
      have he : e = body.length - (pp.length + cs - l.LinesInfo.Starting.length) := by
        simpa using this
      omega
    · have hn : Index (c.drop cs) l.LinesInfo.Terminated = none := by
        apply Index_none_of_length_lt
        simp only [List.length_drop]
        omega
      rw [hn] at hI
      exact absurd hI (by simp)

end Stitched
theorem Index_zero_of_prefix {s sep : Bytes} (h : sep <+: s) : Index s sep = some 0 := by
  obtain ⟨t, rfl⟩ := h
  exact Index_prefix sep t

/-- A kept prefix that begins a start marker completed by the new chunk, or that
begins with a whole start marker, is handed back unchanged. -/
theorem getValidData_resume (l : LoadDataInfo) (pp c x : Bytes) (hpp : pp ≠ [])
    (hD : pp ++ c = l.LinesInfo.Starting ++ x) :
    getValidData l (some pp) (some c) = .ret (some pp, some c) := by
  obtain ⟨m, ⟨S, T⟩, F, C, Tb⟩ := l
  simp only at hD ⊢
  have hp0 : 0 < pp.length := List.length_pos.mpr hpp
  have hlen : pp.length + c.length = S.length + x.length := by
    have := congrArg List.length hD
    simp only [List.length_append] at this
    omega
  have hppre : pp <+: S ++ x := ⟨c, hD⟩
  by_cases h0 : S.length = 0
  · simp [getValidData, h0]
  by_cases hk : S.length ≤ pp.length
  · have hI : Index pp S = some 0 :=
      Index_zero_of_prefix (List.prefix_of_prefix_length_le (List.prefix_append S x) hppre hk)
    simp only [getValidData, h0, if_false, Slice.len_some, gt_iff_lt, hp0, if_true,
      Slice.bytes_some, hI]
    rw [Slice.sliceFrom_some (Nat.zero_le _)]
    simp
  · have hI : Index pp S = none := Index_none_of_length_lt (by omega)
    simp only [getValidData, h0, if_false, Slice.len_some, gt_iff_lt, hp0, if_true,
      Slice.bytes_some, hI]
    have key : ∀ r : Bytes, r <+: c → S.length ≤ pp.length + r.length →
        (match Index (Slice.append (some pp) (some r)).bytes S with
          | some idx =>
            ((Slice.append (some pp) (some r)).slice idx pp.length).bind fun p =>
              Run.ret (p, some c)
          | none => getValidDataCur
              { maxRowsInBatch := m, LinesInfo := { Starting := S, Terminated := T },
                FieldsInfo := F, Columns := C, Table := Tb } (some c)) =
          Run.ret (some pp, some c) := by
      intro r hr hle
      have hb : pp ++ r <+: S ++ x := by
        rw [← hD]; exact (List.prefix_append_right_inj pp).mpr hr
      have hI2 : Index (pp ++ r) S = some 0 :=
        Index_zero_of_prefix (List.prefix_of_prefix_length_le (List.prefix_append S x) hb
          (by simp only [List.length_append]; omega))
      simp only [Slice.append, Slice.bytes_some, hI2]
      rw [Slice.slice_some (Nat.zero_le _) (by simp only [List.length_append]; omega)]
      simp
    by_cases hcl : c.length ≥ S.length
    · rw [if_pos hcl, Slice.sliceTo_some (by omega)]
      simp only [Run.ret_bind]
      exact key _ (List.take_prefix _ _) (by simp only [List.length_take]; omega)
    · rw [if_neg hcl]
      simp only [Run.ret_bind]
      exact key c (List.prefix_refl _) (by omega)

/-- A first chunk that stops inside the record is kept whole for the next call. -/
theorem getLine_first_part (l : LoadDataInfo) (pp c body : Bytes) (hc : c ≠ [])
    (hD : pp ++ c = l.LinesInfo.Starting ++ body ++ l.LinesInfo.Terminated)
    (hE : Index (body ++ l.LinesInfo.Terminated) l.LinesInfo.Terminated = some body.length) :
    ∃ hs : Bool, getLine l none (some pp) = .ret (none, some pp, hs) := by
  have hc0 : 0 < c.length := List.length_pos.mpr hc
  have hlen : pp.length + c.length =
      l.LinesInfo.Starting.length + body.length + l.LinesInfo.Terminated.length := by
    have := congrArg List.length hD
    simp only [List.length_append] at this
    omega
  by_cases hk : l.LinesInfo.Starting.length ≤ pp.length
  · have hppre : pp <+: l.LinesInfo.Starting ++ (body ++ l.LinesInfo.Terminated) :=
      ⟨c, by rw [hD, List.append_assoc]⟩
    obtain ⟨b, hb⟩ : l.LinesInfo.Starting <+: pp :=
      List.prefix_of_prefix_length_le (List.prefix_append _ _) hppre hk
    subst hb
    have hbpre : b <+: body ++ l.LinesInfo.Terminated :=
      (List.prefix_append_right_inj _).mp hppre
    have hbt : b = (body ++ l.LinesInfo.Terminated).take b.length :=
      (List.prefix_iff_eq_take.mp hbpre)
    have hI : Index b l.LinesInfo.Terminated = none := by
      rw [hbt]
      apply Index_take_none hE
      simp only [List.length_append] at hlen
      omega
    exact ⟨true, getLine_fresh_pending l none b rfl hI⟩
  · refine ⟨false, ?_⟩
    have h0 : ¬ l.LinesInfo.Starting.length = 0 := by omega
    have hI : Index pp l.LinesInfo.Starting = none := Index_none_of_length_lt (by omega)
    have hv : getValidData l none (some pp) = .ret (none, some pp) := by
      simp [getValidData, h0, getValidDataCur, hI, hk]
    rw [getLine, hv, Run.ret_bind]
    exact getLineBody_short l (some pp) (by simpa using hk)

/-! ## One buffer -/

/-- C2. Single-buffer framing: when the start marker first occurs in
`noise ++ Starting` after the noise and the terminator first occurs in
`body ++ Terminated ++ rest` after the body, `getLine` on the one buffer
`noise ++ Starting ++ body ++ Terminated ++ rest` returns the body as the line,
`rest` as the remaining data, and reports the start marker found. -/
theorem getLine_single_buffer (l : LoadDataInfo) (noise body rest : Bytes)
    (hS : Index (noise ++ l.LinesInfo.Starting) l.LinesInfo.Starting = some noise.length)
    (hE : Index (body ++ l.LinesInfo.Terminated ++ rest) l.LinesInfo.Terminated =
      some body.length) :
    getLine l none
        (some (noise ++ l.LinesInfo.Starting ++ body ++ l.LinesInfo.Terminated ++ rest)) =
      .ret (some body, some rest, true) := by
  obtain ⟨q, hq, hv⟩ := getValidData_fresh l none noise
    (body ++ l.LinesInfo.Terminated ++ rest) rfl hS
  have e1 : noise ++ l.LinesInfo.Starting ++ body ++ l.LinesInfo.Terminated ++ rest =
      noise ++ l.LinesInfo.Starting ++ (body ++ l.LinesInfo.Terminated ++ rest) := by simp
  have e2 : l.LinesInfo.Starting ++ (body ++ l.LinesInfo.Terminated ++ rest) =
      l.LinesInfo.Starting ++ body ++ l.LinesInfo.Terminated ++ rest := by simp
  rw [getLine, e1, hv, Run.ret_bind]
  simp only [e2]
  exact getLineBody_fresh_found l q body rest hq hE

/-- C2 on a buffer whose start marker `x\n` holds the terminator. -/
theorem getLine_single_buffer_witness :
    Index (lit "zz" ++ lit "x\n") (lit "x\n") = some 2 ∧
      Index (lit "1,2" ++ lit "\n" ++ lit "x\n3") (lit "\n") = some 3 ∧
      getLine demoLines none (some (lit "zzx\n1,2\nx\n3")) =
        .ret (some (lit "1,2"), some (lit "x\n3"), true) :=
  ⟨by decide, by decide,
    getLine_single_buffer demoLines (lit "zz") (lit "1,2") (lit "x\n3") (by decide)
      (by decide)⟩

/-! ## Batcher: one round of the loop -/

section Loop
variable (EqualFold : Bytes → Bytes → Bool) (l : LoadDataInfo) (tb : Table)
  (fields : List Field) (callback : InsertFunc)

theorem InsertDataLoop_done (isEOF : Bool) (fuel : Nat) (p c : Slice) (rows : List Row)
    (hc : c.len = 0) :
    InsertDataLoop EqualFold l tb fields callback isEOF fuel p c rows =
      .ret { remainder := c, reachLimit := false, err := none, rows := rows, calls := [] } := by
  unfold InsertDataLoop
  simp [hc]

theorem InsertDataLoop_step_pending (fuel : Nat) (p c rest : Slice) (hs : Bool)
    (rows : List Row) (hc : c.len ≠ 0) (hg : getLine l p c = .ret (none, rest, hs)) :
    InsertDataLoop EqualFold l tb fields callback false (fuel + 1) p c rows =
      .ret { remainder := rest, reachLimit := false, err := none, rows := rows, calls := [] } := by
  rw [InsertDataLoop]
  simp [hc, hg]

theorem InsertDataLoop_step_row (isEOF : Bool) (fuel : Nat) (p c rest : Slice) (body : Bytes)
    (rows : List Row) (row : Row) (hc : c.len ≠ 0)
    (hg : getLine l p c = .ret (some body, rest, true))
    (hr : GetRowFromLine l (some body) = .ret (.ok row))
    (hb : ¬ (l.maxRowsInBatch ≠ 0 ∧ ((rows ++ [row]).length : Int) = l.maxRowsInBatch)) :
    InsertDataLoop EqualFold l tb fields callback isEOF (fuel + 1) p c rows =
      InsertDataLoop EqualFold l tb fields callback isEOF fuel none rest (rows ++ [row]) := by
  rw [InsertDataLoop]
  simp only [hc, if_false, hg, Run.ret_bind]
  simp only [reduceCtorEq, false_and, if_false, not_true_eq_false, hr, Run.ret_bind, hb]

theorem InsertDataLoop_step_flush (isEOF : Bool) (fuel : Nat) (p c rest : Slice) (body : Bytes)
    (rows : List Row) (row : Row) (stmt : Bytes) (hc : c.len ≠ 0)
    (hg : getLine l p c = .ret (some body, rest, true))
    (hr : GetRowFromLine l (some body) = .ret (.ok row))
    (hb : l.maxRowsInBatch ≠ 0 ∧ ((rows ++ [row]).length : Int) = l.maxRowsInBatch)
    (hm : MakeInsert EqualFold l (rows ++ [row]) tb fields = .ret (stmt, none))
    (hcb : callback stmt = none) :
    InsertDataLoop EqualFold l tb fields callback isEOF (fuel + 1) p c rows =
      .ret { remainder := rest, reachLimit := true, err := none, rows := [],
             calls := [stmt] } := by
  rw [InsertDataLoop]
  simp only [hc, if_false, hg, Run.ret_bind]
  simp only [reduceCtorEq, false_and, if_false, not_true_eq_false, hr, Run.ret_bind,
    if_pos hb, hm, hcb]

theorem InsertDataLoop_step_eof (fuel : Nat) (p c : Slice) (x : Bytes)
    (rows : List Row) (row : Row) (hc : c.len ≠ 0)
    (hg : getLine l p c = .ret (none, some x, true))
    (hx : l.LinesInfo.Starting.length ≤ x.length)
    (hr : GetRowFromLine l (some (x.drop l.LinesInfo.Starting.length)) = .ret (.ok row))
    (hb : ¬ (l.maxRowsInBatch ≠ 0 ∧ ((rows ++ [row]).length : Int) = l.maxRowsInBatch)) :
    InsertDataLoop EqualFold l tb fields callback true (fuel + 1) p c rows =
      .ret { remainder := none, reachLimit := false, err := none, rows := rows ++ [row],
             calls := [] } := by
  rw [InsertDataLoop]
  simp only [hc, if_false, hg, Run.ret_bind]
  simp only [not_true_eq_false, and_false, if_false, and_self, if_true,
    Slice.sliceFrom_some hx, Run.ret_bind, hr, hb]
  exact InsertDataLoop_done EqualFold l tb fields callback true fuel none none _ rfl

theorem InsertDataLoop_step_nostart (isEOF : Bool) (fuel : Nat) (p c rest : Slice)
    (rows : List Row) (hc : c.len ≠ 0) (hg : getLine l p c = .ret (none, rest, false)) :
    InsertDataLoop EqualFold l tb fields callback isEOF (fuel + 1) p c rows =
      .ret { remainder := if isEOF then none else rest, reachLimit := false, err := none,
             rows := rows, calls := [] } := by
  rw [InsertDataLoop]
  cases isEOF <;> simp [hc, hg]

end Loop

/-! ## End of stream -/

/-- C7. End-of-stream final record: with batching disabled, a call with an empty
chunk and the non-empty leftover `Starting ++ body`, whose body holds no
terminator and splits into `row`, appends exactly that row, returns a nil
remainder and no error, and hands nothing to the callback. -/
theorem InsertData_final_record (EqualFold : Bytes → Bytes → Bool) (l : LoadDataInfo)
    (tb : Table) (fields : List Field) (callback : InsertFunc) (body : Bytes) (cur : Slice)
    (rows : List Row) (row : Row) (fuel : Nat)
    (hcur : cur.len = 0)
    (hE : Index body l.LinesInfo.Terminated = none)
    (hne : l.LinesInfo.Starting ++ body ≠ [])
    (hr : GetRowFromLine l (some body) = .ret (.ok row))
    (hb : l.maxRowsInBatch = 0)
    (hfuel : 0 < fuel) :
    InsertData EqualFold l fuel (some (l.LinesInfo.Starting ++ body)) cur rows tb fields
        callback =
      .ret { remainder := none, reachLimit := false, err := none, rows := rows ++ [row],
             calls := [] } := by
  obtain ⟨f, rfl⟩ : ∃ f, fuel = f + 1 := ⟨fuel - 1, by omega⟩
  have hlen : Slice.len (some (l.LinesInfo.Starting ++ body)) ≠ 0 := by
    simpa using hne
  have hpos : Slice.len (some (l.LinesInfo.Starting ++ body)) > 0 := Nat.pos_of_ne_zero hlen
  rw [InsertData, if_neg (fun h => hlen h.1), if_pos ⟨hpos, hcur⟩]
  exact InsertDataLoop_step_eof EqualFold l tb fields callback f cur _ _ rows row hlen
    (getLine_fresh_pending l cur body hcur hE) (by simp) (by simpa using hr) (by simp [hb])

/-- C7 on the leftover `abcx,y`. -/
theorem InsertData_final_record_witness :
    InsertData sameName markerInfo 1 (some (lit "abcx,y")) none [] plainTable []
        (fun _ => none) =
      .ret { remainder := none, reachLimit := false, err := none,
             rows := [[lit "x", lit "y"]], calls := [] } :=
  InsertData_final_record sameName markerInfo plainTable [] (fun _ => none) (lit "x,y") none []
    [lit "x", lit "y"] 1 rfl (by decide) (by decide) rfl rfl (by decide)

/-! ## Two chunks -/

section TwoChunks
variable (EqualFold : Bytes → Bytes → Bool) (l : LoadDataInfo) (tb : Table)
  (fields : List Field) (callback : InsertFunc)

/-- One whole record in one chunk, batching disabled. -/
theorem InsertData_whole_record (body : Bytes) (p : Slice) (rows : List Row) (row : Row)
    (fuel : Nat) (hp : p.len = 0) (hT : l.LinesInfo.Terminated ≠ [])
    (hE : Index (body ++ l.LinesInfo.Terminated) l.LinesInfo.Terminated = some body.length)
    (hr : GetRowFromLine l (some body) = .ret (.ok row))
    (hb : l.maxRowsInBatch = 0) (hfuel : 0 < fuel) :
    InsertData EqualFold l fuel p
        (some (l.LinesInfo.Starting ++ body ++ l.LinesInfo.Terminated)) rows tb fields
        callback =
      .ret { remainder := some [], reachLimit := false, err := none, rows := rows ++ [row],
             calls := [] } := by
  obtain ⟨f, rfl⟩ : ∃ f, fuel = f + 1 := ⟨fuel - 1, by omega⟩
  have ht : 0 < l.LinesInfo.Terminated.length := List.length_pos.mpr hT
  have hlen : Slice.len (some (l.LinesInfo.Starting ++ body ++ l.LinesInfo.Terminated)) ≠ 0 := by
    simp only [Slice.len_some, List.length_append]; omega
  have hg := getLine_fresh_found l p body [] hp hE
  rw [List.append_nil] at hg
  rw [InsertData, if_neg (fun h => hlen h.2), if_neg (fun h => hlen h.2),
    InsertDataLoop_step_row EqualFold l tb fields callback false f p _ (some []) body rows row
      hlen hg hr (by simp [hb])]
  exact InsertDataLoop_done EqualFold l tb fields callback false f none (some []) _ rfl

/-- The second of two chunks, fed with the first chunk as remainder. -/
theorem InsertData_second_part (pp c body : Bytes) (rows : List Row) (row : Row)
    (fuel : Nat) (hpp : pp ≠ []) (hc : c ≠ [])
    (hD : pp ++ c = l.LinesInfo.Starting ++ body ++ l.LinesInfo.Terminated)
    (hE : Index (body ++ l.LinesInfo.Terminated) l.LinesInfo.Terminated = some body.length)
    (hr : GetRowFromLine l (some body) = .ret (.ok row))
    (hb : l.maxRowsInBatch = 0) (hfuel : 0 < fuel) :
    InsertData EqualFold l fuel (some pp) (some c) rows tb fields callback =
      .ret { remainder := some [], reachLimit := false, err := none, rows := rows ++ [row],
             calls := [] } := by
  obtain ⟨f, rfl⟩ : ∃ f, fuel = f + 1 := ⟨fuel - 1, by omega⟩
  have hlen : Slice.len (some c) ≠ 0 := by
    simpa using hc
  have hv := getValidData_resume l pp c (body ++ l.LinesInfo.Terminated) hpp
    (by rw [hD, List.append_assoc])
  have hg : getLine l (some pp) (some c) = .ret (some body, some [], true) := by
    rw [getLine, hv, Run.ret_bind]
    exact getLineBody_stitched l pp c body hpp hc hD hE
  rw [InsertData, if_neg (fun h => hlen h.2), if_neg (fun h => hlen h.2),
    InsertDataLoop_step_row EqualFold l tb fields callback false f _ _ (some []) body rows row
      hlen hg hr (by simp [hb])]
  exact InsertDataLoop_done EqualFold l tb fields callback false f none (some []) _ rfl

/-- The first of two chunks, stopping inside the record. -/
theorem InsertData_first_part (pp c body : Bytes) (rows : List Row)
    (fuel : Nat) (hpp : pp ≠ []) (hc : c ≠ [])
    (hD : pp ++ c = l.LinesInfo.Starting ++ body ++ l.LinesInfo.Terminated)
    (hE : Index (body ++ l.LinesInfo.Terminated) l.LinesInfo.Terminated = some body.length)
    (hfuel : 0 < fuel) :
    InsertData EqualFold l fuel none (some pp) rows tb fields callback =
      .ret { remainder := some pp, reachLimit := false, err := none, rows := rows,
             calls := [] } := by
  obtain ⟨f, rfl⟩ : ∃ f, fuel = f + 1 := ⟨fuel - 1, by omega⟩
  have hlen : Slice.len (some pp) ≠ 0 := by
    simpa using hpp
  obtain ⟨hs, hg⟩ := getLine_first_part l pp c body hc hD hE
  rw [InsertData, if_neg (fun h => hlen h.2), if_neg (fun h => hlen h.2)]
  exact InsertDataLoop_step_pending EqualFold l tb fields callback f none _ _ hs rows hlen hg

end TwoChunks

/-- C1. Chunk-boundary invariance for two chunks: let `D = Starting ++ body ++
Terminated` with a non-empty terminator that first occurs in `body ++
Terminated` after the body, let the body split into `row`, and let batching be
disabled.  For every offset `k ≤ len(D)`, calling `InsertData` on `D[:k]` and
then, with the remainder and rows of that call, on `D[k:]` leaves the same
pending rows as the single call on `D`: the initial rows followed by `row`.
No call returns an error or reaches the callback. -/
theorem chunk_boundary_invariance (EqualFold : Bytes → Bytes → Bool) (l : LoadDataInfo)
    (tb : Table) (fields : List Field) (callback : InsertFunc)
    (body : Bytes) (rows : List Row) (row : Row) (k fuel : Nat)
    (hT : l.LinesInfo.Terminated ≠ [])
    (hE : Index (body ++ l.LinesInfo.Terminated) l.LinesInfo.Terminated = some body.length)
    (hr : GetRowFromLine l (some body) = .ret (.ok row))
    (hb : l.maxRowsInBatch = 0)
    (hk : k ≤ (l.LinesInfo.Starting ++ body ++ l.LinesInfo.Terminated).length)
    (hfuel : 0 < fuel) :
    ∃ r1 r2 r : InsertResult,
      InsertData EqualFold l fuel none
          (some ((l.LinesInfo.Starting ++ body ++ l.LinesInfo.Terminated).take k)) rows tb
          fields callback = .ret r1 ∧
      InsertData EqualFold l fuel r1.remainder
          (some ((l.LinesInfo.Starting ++ body ++ l.LinesInfo.Terminated).drop k)) r1.rows tb
          fields callback = .ret r2 ∧
      InsertData EqualFold l fuel none
          (some (l.LinesInfo.Starting ++ body ++ l.LinesInfo.Terminated)) rows tb fields
          callback = .ret r ∧
      r1.err = none ∧ r2.err = none ∧ r.err = none ∧
      r1.calls = [] ∧ r2.calls = [] ∧ r.calls = [] ∧
      r2.rows = rows ++ [row] ∧ r.rows = rows ++ [row] := by
  have hwhole := InsertData_whole_record EqualFold l tb fields callback body none rows row fuel
    rfl hT hE hr hb hfuel
  generalize hDd : l.LinesInfo.Starting ++ body ++ l.LinesInfo.Terminated = D at *
  have hD0 : D ≠ [] := by
    rw [← hDd]; simp [hT]
  by_cases h0 : k = 0
  · subst h0
    refine ⟨⟨none, false, none, rows, []⟩, ⟨some [], false, none, rows ++ [row], []⟩,
      ⟨some [], false, none, rows ++ [row], []⟩, ?_, ?_, hwhole, rfl, rfl, rfl, rfl, rfl, rfl,
      rfl, rfl⟩
    · simp [InsertData]
    · simpa using hwhole
  by_cases hlast : k = D.length
  · subst hlast
    refine ⟨⟨some [], false, none, rows ++ [row], []⟩, ⟨none, false, none, rows ++ [row], []⟩,
      ⟨some [], false, none, rows ++ [row], []⟩, ?_, ?_, hwhole, rfl, rfl, rfl, rfl, rfl, rfl,
      rfl, rfl⟩
    · simpa using hwhole
    · simp [InsertData]
  · have hpp : D.take k ≠ [] := by
      intro h
      have := congrArg List.length h
      simp only [List.length_take, List.length_nil] at this
      omega
    have hc : D.drop k ≠ [] := by
      intro h
      have := congrArg List.length h
      simp only [List.length_drop, List.length_nil] at this
      omega
    have hD : D.take k ++ D.drop k =
        l.LinesInfo.Starting ++ body ++ l.LinesInfo.Terminated := by
      rw [List.take_append_drop, hDd]
    exact ⟨⟨some (D.take k), false, none, rows, []⟩, ⟨some [], false, none, rows ++ [row], []⟩,
      ⟨some [], false, none, rows ++ [row], []⟩,
      InsertData_first_part EqualFold l tb fields callback _ _ body rows fuel hpp hc hD hE hfuel,
      InsertData_second_part EqualFold l tb fields callback _ _ body rows row fuel hpp hc hD hE
        hr hb hfuel,
      hwhole, rfl, rfl, rfl, rfl, rfl, rfl, rfl, rfl⟩

/-- C1 on the record `abcx,y\n` cut after its second byte. -/
theorem chunk_boundary_invariance_witness :
    ∃ r1 r2 r : InsertResult,
      InsertData sameName markerInfo 1 none
          (some ((markerInfo.LinesInfo.Starting ++ lit "x,y" ++
            markerInfo.LinesInfo.Terminated).take 2)) [] plainTable [] (fun _ => none) =
          .ret r1 ∧
      InsertData sameName markerInfo 1 r1.remainder
          (some ((markerInfo.LinesInfo.Starting ++ lit "x,y" ++
            markerInfo.LinesInfo.Terminated).drop 2)) r1.rows plainTable []
          (fun _ => none) = .ret r2 ∧
      InsertData sameName markerInfo 1 none
          (some (markerInfo.LinesInfo.Starting ++ lit "x,y" ++
            markerInfo.LinesInfo.Terminated)) [] plainTable [] (fun _ => none) = .ret r ∧
      r1.err = none ∧ r2.err = none ∧ r.err = none ∧
      r1.calls = [] ∧ r2.calls = [] ∧ r.calls = [] ∧
      r2.rows = [] ++ [[lit "x", lit "y"]] ∧ r.rows = [] ++ [[lit "x", lit "y"]] :=
  chunk_boundary_invariance sameName markerInfo plainTable [] (fun _ => none) (lit "x,y") []
    [lit "x", lit "y"] 2 1 (by decide) (by decide) rfl rfl (by decide) (by decide)

/-! ## Data without a start marker -/

section NoStart
variable (EqualFold : Bytes → Bytes → Bool) (l : LoadDataInfo) (tb : Table)
  (fields : List Field) (callback : InsertFunc)

theorem keptTail_length (c : Bytes) (hS : l.LinesInfo.Starting ≠ []) :
    (keptTail l c).length < l.LinesInfo.Starting.length := by
  have : 0 < l.LinesInfo.Starting.length := List.length_pos.mpr hS
  unfold keptTail
  split
  · simp only [List.length_drop]; omega
  · omega

theorem keptTail_suffix (c : Bytes) : keptTail l c <:+ c := by
  unfold keptTail
  split
  · exact List.drop_suffix _ _
  · exact List.suffix_refl _

theorem getValidDataCur_no_start (c : Bytes) (hS : l.LinesInfo.Starting ≠ [])
    (hI : Index c l.LinesInfo.Starting = none) :
    getValidDataCur l (some c) = .ret (none, some (keptTail l c)) := by
  have h0 : 0 < l.LinesInfo.Starting.length := List.length_pos.mpr hS
  simp only [getValidDataCur, Slice.bytes_some, hI, Slice.len_some, keptTail]
  split
  · rw [Slice.sliceFrom_some (by omega)]
    simp
  · rfl

theorem getValidData_no_start (p : Slice) (c : Bytes) (hS : l.LinesInfo.Starting ≠ [])
    (hI : Index (p.bytes ++ c) l.LinesInfo.Starting = none) :
    getValidData l p (some c) = .ret (none, some (keptTail l c)) := by
  have h0 : ¬ l.LinesInfo.Starting.length = 0 := fun h => hS (List.length_eq_zero.mp h)
  have hc : Index c l.LinesInfo.Starting = none :=
    Index_none_of_infix hI (List.suffix_append _ _).isInfix
  have hcur := getValidDataCur_no_start l c hS hc
  simp only [getValidData, h0, if_false]
  split
  · cases p with
    | none => rename_i h; simp at h
    | some pb =>
      have hp : Index pb l.LinesInfo.Starting = none :=
        Index_none_of_infix hI (List.prefix_append _ _).isInfix
      have key : ∀ r : Bytes, r <+: c →
          Index (Slice.append (some pb) (some r)).bytes l.LinesInfo.Starting = none := by
        intro r hr
        refine Index_none_of_infix hI (List.IsPrefix.isInfix ?_)
        simpa [Slice.append] using hr
      simp only [Slice.bytes_some, hp, Slice.len_some]
      split
      · rw [Slice.sliceTo_some (by omega)]
        simp only [Run.ret_bind, key _ (List.take_prefix _ _), hcur]
      · simp only [Run.ret_bind, key c (List.prefix_refl _), hcur]
  · exact hcur

theorem getLine_no_start (p : Slice) (c : Bytes) (hS : l.LinesInfo.Starting ≠ [])
    (hI : Index (p.bytes ++ c) l.LinesInfo.Starting = none) :
    getLine l p (some c) = .ret (none, some (keptTail l c), false) := by
  rw [getLine, getValidData_no_start l p c hS hI, Run.ret_bind]
  exact getLineBody_short l _ (by simpa using keptTail_length l c hS)

/-- One call on data holding no start marker: nothing happens, and what is
kept is a suffix of what was given. -/
theorem InsertData_no_start (p cur : Slice) (rows : List Row) (fuel : Nat)
    (hS : l.LinesInfo.Starting ≠ [])
    (hI : Index (p.bytes ++ cur.bytes) l.LinesInfo.Starting = none) (hfuel : 0 < fuel) :
    ∃ rem : Slice, rem.bytes <:+ p.bytes ++ cur.bytes ∧
      InsertData EqualFold l fuel p cur rows tb fields callback =
        .ret { remainder := rem, reachLimit := false, err := none, rows := rows,
               calls := [] } := by
  obtain ⟨f, rfl⟩ : ∃ f, fuel = f + 1 := ⟨fuel - 1, by omega⟩
  by_cases h1 : p.len = 0 ∧ cur.len = 0
  · exact ⟨none, List.nil_suffix, by simp [InsertData, h1]⟩
  by_cases h2 : p.len > 0 ∧ cur.len = 0
  · obtain ⟨pb, rfl⟩ : ∃ pb, p = some pb := by
      cases p with
      | none => simp at h2
      | some pb => exact ⟨pb, rfl⟩
    have hcb : cur.bytes = [] := Slice.bytes_eq_nil_of_len h2.2
    refine ⟨none, List.nil_suffix, ?_⟩
    rw [InsertData, if_neg h1, if_pos h2]
    have hg := getLine_no_start l cur pb hS (by simpa [hcb] using hI)
    rw [InsertDataLoop_step_nostart EqualFold l tb fields callback true f cur (some pb) _ rows
      (by simpa using Nat.pos_iff_ne_zero.mp h2.1) hg]
    rfl
  · have hc0 : cur.len ≠ 0 := by
      intro h
      rcases Nat.eq_zero_or_pos p.len with hp | hp
      · exact h1 ⟨hp, h⟩
      · exact h2 ⟨hp, h⟩
    obtain ⟨c, rfl⟩ : ∃ c, cur = some c := by
      cases cur with
      | none => simp at hc0
      | some c => exact ⟨c, rfl⟩
    refine ⟨some (keptTail l c), ?_, ?_⟩
    · exact (keptTail_suffix l c).trans (List.suffix_append _ _)
    · rw [InsertData, if_neg h1, if_neg h2]
      exact InsertDataLoop_step_pending EqualFold l tb fields callback f p (some c) _ false rows
        hc0 (getLine_no_start l p c hS hI)

theorem feedChunks_no_start (fuel : Nat) (hS : l.LinesInfo.Starting ≠ []) (hfuel : 0 < fuel) :
    ∀ (chunks : List Bytes) (p : Slice) (rows : List Row),
      Index (p.bytes ++ chunks.flatten) l.LinesInfo.Starting = none →
      ∃ rem : Slice, Index rem.bytes l.LinesInfo.Starting = none ∧
        feedChunks EqualFold l fuel tb fields callback chunks p rows =
          .ret { remainder := rem, reachLimit := false, err := none, rows := rows,
                 calls := [] } := by
  intro chunks
  induction chunks with
  | nil =>
    intro p rows hI
    exact ⟨p, by simpa using hI, rfl⟩
  | cons c rest ih =>
    intro p rows hI
    have hI1 : Index (p.bytes ++ Slice.bytes (some c)) l.LinesInfo.Starting = none := by
      refine Index_none_of_infix hI (List.IsPrefix.isInfix ?_)
      simp
    obtain ⟨rem, hsuf, hcall⟩ :=
      InsertData_no_start EqualFold l tb fields callback p (some c) rows fuel hS hI1 hfuel
    have hI2 : Index (rem.bytes ++ rest.flatten) l.LinesInfo.Starting = none := by
      refine Index_none_of_infix hI (List.IsSuffix.isInfix ?_)
      obtain ⟨u, hu⟩ := hsuf
      refine ⟨u, ?_⟩
      simp only [Slice.bytes_some] at hu
      simp only [List.flatten_cons, ← List.append_assoc, hu]
    obtain ⟨rem2, hrem2, hfeed⟩ := ih rem rows hI2
    refine ⟨rem2, hrem2, ?_⟩
    simp only [feedChunks, hcall, Run.ret_bind, hfeed, List.append_nil]

end NoStart
/-- C4. No start marker, no rows: with a non-empty start marker, feeding chunks
whose concatenation holds no occurrence of it, each call receiving the remainder
of the call before, and then making the end-of-stream call on the last
remainder, returns every time without error, leaves the pending rows as they
were and hands nothing to the callback. -/
theorem no_start_marker_no_rows (EqualFold : Bytes → Bytes → Bool) (l : LoadDataInfo)
    (tb : Table) (fields : List Field) (callback : InsertFunc) (chunks : List Bytes)
    (rows : List Row) (eof : Slice) (fuel : Nat)
    (hS : l.LinesInfo.Starting ≠ [])
    (hI : Index chunks.flatten l.LinesInfo.Starting = none)
    (heof : eof.len = 0) (hfuel : 0 < fuel) :
    ∃ rem rem1 : Slice,
      feedChunks EqualFold l fuel tb fields callback chunks none rows =
        .ret { remainder := rem, reachLimit := false, err := none, rows := rows,
               calls := [] } ∧
      InsertData EqualFold l fuel rem eof rows tb fields callback =
        .ret { remainder := rem1, reachLimit := false, err := none, rows := rows,
               calls := [] } := by
  obtain ⟨rem, hrem, hfeed⟩ :=
    feedChunks_no_start EqualFold l tb fields callback fuel hS hfuel chunks none rows
      (by simpa using hI)
  obtain ⟨rem1, _, hcall⟩ :=
    InsertData_no_start EqualFold l tb fields callback rem eof rows fuel hS
      (by simpa [Slice.bytes_eq_nil_of_len heof] using hrem) hfuel
  exact ⟨rem, rem1, hfeed, hcall⟩

/-- C4 on four chunks, one of them empty. -/
theorem no_start_marker_no_rows_witness :
    ∃ rem rem1 : Slice,
      feedChunks sameName markerInfo 1 plainTable [] (fun _ => none)
          [lit "ab", lit "", lit "x\nab", lit "b,c\n"] none [] =
        .ret { remainder := rem, reachLimit := false, err := none, rows := [],
               calls := [] } ∧
      InsertData sameName markerInfo 1 rem none [] plainTable [] (fun _ => none) =
        .ret { remainder := rem1, reachLimit := false, err := none, rows := [],
               calls := [] } :=
  no_start_marker_no_rows sameName markerInfo plainTable [] (fun _ => none)
    [lit "ab", lit "", lit "x\nab", lit "b,c\n"] [] none 1 (by decide) (by decide) rfl
    (by decide)

/-- C3 fails on the code: the record `abcx,y\n` fed whole gives the row `x`, `y`;
fed as the chunks `a`, `b`, `cx,y\n`, its start marker spread over three chunks,
it gives no row at all, and the bytes `y\n` are what is kept. -/
theorem start_marker_over_three_chunks_is_lost :
    InsertData sameName markerInfo 8 none (some (lit "abcx,y\n")) [] plainTable []
        (fun _ => none) =
      .ret { remainder := some [], reachLimit := false, err := none,
             rows := [[lit "x", lit "y"]], calls := [] } ∧
    feedChunks sameName markerInfo 8 plainTable [] (fun _ => none)
        [lit "a", lit "b", lit "cx,y\n"] none [] =
      .ret { remainder := some (lit "y\n"), reachLimit := false, err := none, rows := [],
             calls := [] } := by
  decide

/-! ## Batches -/

section Batches
variable (EqualFold : Bytes → Bytes → Bool) (l : LoadDataInfo) (tb : Table)
  (fields : List Field) (callback : InsertFunc)

theorem recordsChunk_cons (b : Bytes) (bs : List Bytes) :
    recordsChunk l (b :: bs) =
      l.LinesInfo.Starting ++ b ++ l.LinesInfo.Terminated ++ recordsChunk l bs := by
  simp [recordsChunk]

theorem recordsChunk_length_pos (b : Bytes) (bs : List Bytes)
    (hT : l.LinesInfo.Terminated ≠ []) : (recordsChunk l (b :: bs)).length ≠ 0 := by
  have : 0 < l.LinesInfo.Terminated.length := List.length_pos.mpr hT
  rw [recordsChunk_cons]
  simp only [List.length_append]
  omega

/-- Records that do not fill the batch are all appended to the pending rows. -/
theorem InsertDataLoop_records_pending (hT : l.LinesInfo.Terminated ≠ []) :
    ∀ (recs : List (Bytes × Row)) (rows : List Row) (p : Slice) (fuel : Nat),
      p.len = 0 → (∀ r ∈ recs, IsRecord l r) → recs.length ≤ fuel →
      (∀ j, 1 ≤ j → j ≤ recs.length →
        ¬ (l.maxRowsInBatch ≠ 0 ∧ ((rows.length + j : Nat) : Int) = l.maxRowsInBatch)) →
      InsertDataLoop EqualFold l tb fields callback false fuel p
          (some (recordsChunk l (recs.map Prod.fst))) rows =
        .ret { remainder := some [], reachLimit := false, err := none,
               rows := rows ++ recs.map Prod.snd, calls := [] } := by
  intro recs
  induction recs with
  | nil =>
    intro rows p fuel _ _ _ _
    simp only [List.map_nil, List.append_nil]
    exact InsertDataLoop_done EqualFold l tb fields callback false fuel p
      (some (recordsChunk l [])) rows rfl
  | cons r rs ih =>
    intro rows p fuel hp hrec hfuel hno
    obtain ⟨f, rfl⟩ : ∃ f, fuel = f + 1 := ⟨fuel - 1, by simp at hfuel; omega⟩
    obtain ⟨hE, hr⟩ := hrec r (List.mem_cons_self _ _)
    simp only [List.map_cons, recordsChunk_cons]
    have hg := getLine_fresh_found l p r.1 (recordsChunk l (rs.map Prod.fst)) hp hE
    have hlen : Slice.len (some (l.LinesInfo.Starting ++ r.1 ++ l.LinesInfo.Terminated ++
        recordsChunk l (rs.map Prod.fst))) ≠ 0 := by
      have : 0 < l.LinesInfo.Terminated.length := List.length_pos.mpr hT
      simp only [Slice.len_some, List.length_append]
      omega
    rw [InsertDataLoop_step_row EqualFold l tb fields callback false f p _ _ r.1 rows r.2
      hlen hg hr (by simpa using hno 1 (Nat.le_refl _) (by simp))]
    rw [ih (rows ++ [r.2]) none f rfl (fun x hx => hrec x (List.mem_cons_of_mem _ hx))
      (by simpa using hfuel)
      (fun j hj1 hj2 => by
        have := hno (j + 1) (by omega) (by simpa using hj2)
        simpa [Nat.add_assoc, Nat.add_comm 1 j] using this)]
    simp

/-- Records that fill the batch: the batch is rendered and handed to the
callback, and what follows the last of its records is returned. -/
theorem InsertDataLoop_records_flush (hT : l.LinesInfo.Terminated ≠ []) (post : List Bytes)
    (stmt : Bytes) (hcb : callback stmt = none) :
    ∀ (pre : List (Bytes × Row)) (rows : List Row) (p : Slice) (fuel : Nat),
      pre ≠ [] → p.len = 0 → (∀ r ∈ pre, IsRecord l r) → pre.length ≤ fuel →
      ((rows.length + pre.length : Nat) : Int) = l.maxRowsInBatch →
      MakeInsert EqualFold l (rows ++ pre.map Prod.snd) tb fields = .ret (stmt, none) →
      InsertDataLoop EqualFold l tb fields callback false fuel p
          (some (recordsChunk l (pre.map Prod.fst ++ post))) rows =
        .ret { remainder := some (recordsChunk l post), reachLimit := true, err := none,
               rows := [], calls := [stmt] } := by
  intro pre
  induction pre with
  | nil => intro rows p fuel h; exact absurd rfl h
  | cons r rs ih =>
    intro rows p fuel _ hp hrec hfuel hmax hmk
    obtain ⟨f, rfl⟩ : ∃ f, fuel = f + 1 := ⟨fuel - 1, by simp at hfuel; omega⟩
    obtain ⟨hE, hr⟩ := hrec r (List.mem_cons_self _ _)
    simp only [List.map_cons, List.cons_append, recordsChunk_cons]
    have hg := getLine_fresh_found l p r.1 (recordsChunk l (rs.map Prod.fst ++ post)) hp hE
    have hlen : Slice.len (some (l.LinesInfo.Starting ++ r.1 ++ l.LinesInfo.Terminated ++
        recordsChunk l (rs.map Prod.fst ++ post))) ≠ 0 := by
      have : 0 < l.LinesInfo.Terminated.length := List.length_pos.mpr hT
      simp only [Slice.len_some, List.length_append]
      omega
    by_cases hrs : rs = []
    · subst hrs
      simp only [List.map_nil, List.nil_append] at hg hlen ⊢
      simp only [List.map_cons, List.map_nil] at hmk
      have hne : l.maxRowsInBatch ≠ 0 := by
        rw [← hmax]; simp only [List.length_cons, List.length_nil]; omega
      exact InsertDataLoop_step_flush EqualFold l tb fields callback false f p _ _ r.1 rows r.2
        stmt hlen hg hr ⟨hne, by simpa using hmax⟩ hmk hcb
    · have hrs0 : 0 < rs.length := List.length_pos.mpr hrs
      rw [InsertDataLoop_step_row EqualFold l tb fields callback false f p _ _ r.1 rows r.2
        hlen hg hr (by
          intro h
          have h2 := h.2
          rw [← hmax] at h2
          simp only [List.length_append, List.length_cons, List.length_nil] at h2
          omega)]
      exact ih (rows ++ [r.2]) none f hrs rfl (fun x hx => hrec x (List.mem_cons_of_mem _ hx))
        (by simpa using hfuel)
        (by rw [← hmax]; simp only [List.length_append, List.length_cons, List.length_nil]
            congr 1; omega)
        (by simpa using hmk)

end Batches
/-- C5. Flush at the threshold: with `maxRowsInBatch = n ≥ 1`, no pending rows and
a chunk of exactly `n` complete records, `InsertData` hands the callback one
statement, the one `MakeInsert` renders for the `n` rows in stream order, and,
the callback succeeding, returns `reachLimit = true`, no error, an empty
remainder and empty pending rows. -/
theorem flush_at_threshold (EqualFold : Bytes → Bytes → Bool) (l : LoadDataInfo)
    (tb : Table) (fields : List Field) (callback : InsertFunc) (recs : List (Bytes × Row))
    (stmt : Bytes) (fuel : Nat)
    (hT : l.LinesInfo.Terminated ≠ [])
    (hn : 1 ≤ recs.length)
    (hmax : l.maxRowsInBatch = recs.length)
    (hrec : ∀ r ∈ recs, IsRecord l r)
    (hmk : MakeInsert EqualFold l (recs.map Prod.snd) tb fields = .ret (stmt, none))
    (hcb : callback stmt = none)
    (hfuel : recs.length ≤ fuel) :
    InsertData EqualFold l fuel none (some (recordsChunk l (recs.map Prod.fst))) [] tb fields
        callback =
      .ret { remainder := some [], reachLimit := true, err := none, rows := [],
             calls := [stmt] } := by
  have hne : recs ≠ [] := fun h => by simp [h] at hn
  obtain ⟨r, rs, rfl⟩ := List.exists_cons_of_ne_nil hne
  have hlen : Slice.len (some (recordsChunk l ((r :: rs).map Prod.fst))) ≠ 0 := by
    simpa using recordsChunk_length_pos l r.1 (rs.map Prod.fst) hT
  rw [InsertData, if_neg (fun h => hlen h.2), if_neg (fun h => hlen h.2)]
  have := InsertDataLoop_records_flush EqualFold l tb fields callback hT [] stmt hcb (r :: rs)
    [] none fuel hne rfl hrec hfuel (by simpa using hmax.symm) (by simpa using hmk)
  simpa [recordsChunk] using this

/-- C5 on two records with a batch of two rows. -/
theorem flush_at_threshold_witness :
    InsertData sameName batchInfo 2 none (some (lit "abc1,2\nabc3,4\n")) [] plainTable []
        (fun _ => none) =
      .ret { remainder := some [], reachLimit := true, err := none, rows := [],
             calls := [lit "INSERT  IGNORE  INTO t(a,b)  values ('1','2'),('3','4')"] } :=
  flush_at_threshold sameName batchInfo plainTable [] (fun _ => none)
    [(lit "1,2", [lit "1", lit "2"]), (lit "3,4", [lit "3", lit "4"])]
    (lit "INSERT  IGNORE  INTO t(a,b)  values ('1','2'),('3','4')") 2
    (by decide) (by decide) rfl
    (by decide)
    rfl rfl (by decide)
section Wrapper
variable (EqualFold : Bytes → Bytes → Bool) (l : LoadDataInfo) (tb : Table)
  (fields : List Field) (callback : InsertFunc)

theorem columnLoop_returns (columnsSize : Nat)
    (hwf : tb.Sharded = true → ∃ c, firstVindexColumn tb = .ret c) :
    ∀ (cols : List Bytes) (key : Nat) (st : Option Nat × QType × Bytes),
      ∃ st1, columnLoop EqualFold tb fields columnsSize cols key st = .ret st1 := by
  intro cols
  induction cols with
  | nil => intro key st; exact ⟨st, rfl⟩
  | cons v rest ih =>
    intro key st
    obtain ⟨vi, ty, buf⟩ := st
    by_cases hs : tb.Sharded = true
    · obtain ⟨c, hc⟩ := hwf hs
      simp only [columnLoop, hs, if_true, hc, Run.ret_bind]
      exact ih _ _
    · simp only [columnLoop, hs, Bool.false_eq_true, if_false, Run.ret_bind]
      exact ih _ _

/-- `MakeInsert` returns a statement whenever a sharded table has a first
sharding column. -/
theorem MakeInsert_returns (hwf : tb.Sharded = true → ∃ c, firstVindexColumn tb = .ret c)
    (rows : List Row) :
    ∃ stmt, MakeInsert EqualFold l rows tb fields = .ret (stmt, none) := by
  unfold MakeInsert
  by_cases h0 : rows.length = 0
  · exact ⟨[], by simp [h0]⟩
  · simp only [h0, if_false]
    by_cases hc : l.Columns.length > 0
    · obtain ⟨⟨vi, ty, b⟩, hst⟩ := columnLoop_returns EqualFold tb fields l.Columns.length hwf
        l.Columns 0 (none, QType.NULL_TYPE, lit "INSERT  IGNORE  INTO " ++ l.Table ++ lit "(")
      simp only [hc, if_true, hst, Run.ret_bind]
      exact ⟨_, rfl⟩
    · simp only [hc, if_false, Run.ret_bind]
      exact ⟨_, rfl⟩

theorem InsertData_records_pending (hT : l.LinesInfo.Terminated ≠ [])
    (recs : List (Bytes × Row)) (rows : List Row) (fuel : Nat)
    (hrec : ∀ r ∈ recs, IsRecord l r) (hfuel : recs.length ≤ fuel)
    (hno : ∀ j, 1 ≤ j → j ≤ recs.length →
        ¬ (l.maxRowsInBatch ≠ 0 ∧ ((rows.length + j : Nat) : Int) = l.maxRowsInBatch)) :
    ∃ rem : Slice, rem.len = 0 ∧
      InsertData EqualFold l fuel none (some (recordsChunk l (recs.map Prod.fst))) rows tb
          fields callback =
        .ret { remainder := rem, reachLimit := false, err := none,
               rows := rows ++ recs.map Prod.snd, calls := [] } := by
  cases recs with
  | nil => exact ⟨none, rfl, by simp [InsertData, recordsChunk]⟩
  | cons r rs =>
    have hlen : Slice.len (some (recordsChunk l ((r :: rs).map Prod.fst))) ≠ 0 := by
      simpa using recordsChunk_length_pos l r.1 (rs.map Prod.fst) hT
    refine ⟨some [], rfl, ?_⟩
    rw [InsertData, if_neg (fun h => hlen h.2), if_neg (fun h => hlen h.2)]
    exact InsertDataLoop_records_pending EqualFold l tb fields callback hT (r :: rs) rows none
      fuel rfl hrec hfuel hno

theorem InsertData_records_flush (hT : l.LinesInfo.Terminated ≠ [])
    (pre post : List (Bytes × Row)) (rows : List Row) (stmt : Bytes) (fuel : Nat)
    (hpre : pre ≠ []) (hrec : ∀ r ∈ pre, IsRecord l r) (hfuel : pre.length ≤ fuel)
    (hmax : ((rows.length + pre.length : Nat) : Int) = l.maxRowsInBatch)
    (hmk : MakeInsert EqualFold l (rows ++ pre.map Prod.snd) tb fields = .ret (stmt, none))
    (hcb : callback stmt = none) :
    InsertData EqualFold l fuel none (some (recordsChunk l ((pre ++ post).map Prod.fst))) rows
        tb fields callback =
      .ret { remainder := some (recordsChunk l (post.map Prod.fst)), reachLimit := true,
             err := none, rows := [], calls := [stmt] } := by
  obtain ⟨r, rs, rfl⟩ := List.exists_cons_of_ne_nil hpre
  have hlen : Slice.len (some (recordsChunk l (((r :: rs) ++ post).map Prod.fst))) ≠ 0 := by
    simpa using recordsChunk_length_pos l r.1 ((rs ++ post).map Prod.fst) hT
  rw [InsertData, if_neg (fun h => hlen h.2), if_neg (fun h => hlen h.2), List.map_append]
  exact InsertDataLoop_records_flush EqualFold l tb fields callback hT (post.map Prod.fst) stmt
    hcb (r :: rs) rows none fuel hpre rfl hrec hfuel hmax hmk

end Wrapper
section Drain
variable (EqualFold : Bytes → Bytes → Bool) (l : LoadDataInfo) (tb : Table)
  (fields : List Field) (callback : InsertFunc)

theorem drain_batches_induction (m inner : Nat) (hm : 1 ≤ m)
    (hmax : l.maxRowsInBatch = (m : Int)) (hT : l.LinesInfo.Terminated ≠ [])
    (hcb : ∀ s, callback s = none)
    (hmk : ∀ rows, ∃ stmt, MakeInsert EqualFold l rows tb fields = .ret (stmt, none)) :
    ∀ (n : Nat) (recs : List (Bytes × Row)) (r0 : List Row) (outer : Nat),
      recs.length ≤ n → r0.length < m → (r0.length + recs.length) / m < outer →
      recs.length ≤ inner → (∀ r ∈ recs, IsRecord l r) →
      ∃ res : CommitResult,
        insertDataWithCommit EqualFold l inner tb fields callback outer none
            (some (recordsChunk l (recs.map Prod.fst))) r0 = .ret res ∧
        res.err = none ∧ res.remainder.len = 0 ∧
        res.rows = (r0 ++ recs.map Prod.snd).drop (m * ((r0.length + recs.length) / m)) ∧
        res.passes = (r0.length + recs.length) / m + 1 ∧
        res.calls.length = (r0.length + recs.length) / m ∧
        ∀ k, k < (r0.length + recs.length) / m →
          ∃ stmt, res.calls[k]? = some stmt ∧
            MakeInsert EqualFold l (((r0 ++ recs.map Prod.snd).drop (k * m)).take m) tb
              fields = .ret (stmt, none) := by
  intro n
  induction n using Nat.strong_induction_on with
  | _ n ih =>
    intro recs r0 outer hn hr0 houter hinner hrec
    have hpos : 0 < outer := Nat.lt_of_le_of_lt (Nat.zero_le _) houter
    obtain ⟨o, rfl⟩ : ∃ o, outer = o + 1 := ⟨outer - 1, by omega⟩
    by_cases hlt : r0.length + recs.length < m
    · -- a partial batch: one pass
      have hq : (r0.length + recs.length) / m = 0 := Nat.div_eq_of_lt hlt
      obtain ⟨rem, hrem, hcall⟩ := InsertData_records_pending EqualFold l tb fields callback hT
        recs r0 inner hrec hinner (fun j _ hj2 h => by
          have h2 := h.2
          rw [hmax] at h2
          omega)
      refine ⟨⟨rem, none, r0 ++ recs.map Prod.snd, [], 1⟩, ?_, rfl, hrem, ?_, ?_, ?_, ?_⟩
      · simp [insertDataWithCommit, hcall]
      · simp [hq]
      · simp [hq]
      · simp [hq]
      · intro k hk
        rw [hq] at hk
        exact absurd hk (Nat.not_lt_zero _)
    · -- a full batch is flushed, then the rest is drained
      have hj : m - r0.length ≤ recs.length := by omega
      have hpre_len : (recs.take (m - r0.length)).length = m - r0.length := by
        simp only [List.length_take]; omega
      have hpost_len : (recs.drop (m - r0.length)).length = recs.length - (m - r0.length) := by
        simp only [List.length_drop]
      have hpre_ne : recs.take (m - r0.length) ≠ [] := by
        intro h
        have := congrArg List.length h
        rw [hpre_len] at this
        simp only [List.length_nil] at this
        omega
      obtain ⟨stmt, hstmt⟩ := hmk (r0 ++ (recs.take (m - r0.length)).map Prod.snd)
      have hcall := InsertData_records_flush EqualFold l tb fields callback hT
        (recs.take (m - r0.length)) (recs.drop (m - r0.length)) r0 stmt inner hpre_ne
        (fun r hr => hrec r (List.mem_of_mem_take hr)) (by rw [hpre_len]; omega)
        (by rw [hpre_len, hmax]; congr 1; omega) hstmt (hcb stmt)
      rw [List.take_append_drop] at hcall
      have hsum : r0.length + recs.length = (recs.drop (m - r0.length)).length + m := by
        rw [hpost_len]; omega
      have hq : (r0.length + recs.length) / m =
          (recs.drop (m - r0.length)).length / m + 1 := by
        rw [hsum, Nat.add_div_right _ (by omega)]
      obtain ⟨res1, hrun, herr, hremlen, hrows, hpasses, hcalls, hblocks⟩ :=
        ih (recs.drop (m - r0.length)).length (by rw [hpost_len]; omega)
          (recs.drop (m - r0.length)) [] o (Nat.le_refl _) (by simpa using hm)
          (by simp only [List.length_nil, Nat.zero_add]; omega)
          (by rw [hpost_len]; omega) (fun r hr => hrec r (List.mem_of_mem_drop hr))
      simp only [List.length_nil, Nat.zero_add, List.nil_append] at hrows hpasses hcalls hblocks
      have hB : (r0 ++ (recs.take (m - r0.length)).map Prod.snd).length = m := by
        simp only [List.length_append, List.length_map, hpre_len]; omega
      have hall : r0 ++ recs.map Prod.snd =
          (r0 ++ (recs.take (m - r0.length)).map Prod.snd) ++
            (recs.drop (m - r0.length)).map Prod.snd := by
        rw [List.append_assoc, ← List.map_append, List.take_append_drop]
      have hdrop : ∀ i, (r0 ++ recs.map Prod.snd).drop (m + i) =
          ((recs.drop (m - r0.length)).map Prod.snd).drop i := by
        intro i
        have h := @List.drop_append _ (r0 ++ (recs.take (m - r0.length)).map Prod.snd)
          ((recs.drop (m - r0.length)).map Prod.snd) i
        rw [hB] at h
        rw [hall]
        exact h
      refine ⟨{ res1 with calls := [stmt] ++ res1.calls, passes := res1.passes + 1 },
        ?_, herr, hremlen, ?_, ?_, ?_, ?_⟩
      · simp only [insertDataWithCommit, hcall, Run.ret_bind, hrun, not_true_eq_false,
          if_false]
      · show res1.rows = _
        rw [hrows, hq, Nat.mul_add, Nat.mul_one, Nat.add_comm (m * _) m, hdrop]
      · show res1.passes + 1 = _
        rw [hpasses, hq]
      · show ([stmt] ++ res1.calls).length = _
        rw [hq]; simp [hcalls]
      · intro k hk
        rw [hq] at hk
        show ∃ s, ([stmt] ++ res1.calls)[k]? = some s ∧ _
        cases k with
        | zero =>
          refine ⟨stmt, by simp, ?_⟩
          rw [Nat.zero_mul, List.drop_zero, hall, List.take_left' hB]
          exact hstmt
        | succ k1 =>
          obtain ⟨s, hs1, hs2⟩ := hblocks k1 (by omega)
          refine ⟨s, by simpa using hs1, ?_⟩
          rw [Nat.succ_mul, Nat.add_comm (k1 * m) m, hdrop]
          exact hs2

end Drain

/-- C6. The wrapper drains every full batch in stream order: with
`maxRowsInBatch = m ≥ 1`, fewer than `m` pending rows `r0`, a callback that
always succeeds, a table on which `MakeInsert` can run (a sharded table has a
first sharding column) and a chunk of `n` complete records,
`insertDataWithCommit` hands the callback `(len(r0) + n) / m` statements, the
`k`-th being what `MakeInsert` renders for the `k`-th block of `m` rows of
`r0` followed by the rows of the chunk; it returns no error and an empty
leftover, the pending rows are the last `(len(r0) + n) mod m` rows, and
`InsertData` was invoked once per flush and once more, so exactly once when the
rows do not reach `m`. -/
theorem insertDataWithCommit_drains (EqualFold : Bytes → Bytes → Bool) (l : LoadDataInfo)
    (tb : Table) (fields : List Field) (callback : InsertFunc) (m inner outer : Nat)
    (recs : List (Bytes × Row)) (r0 : List Row)
    (hT : l.LinesInfo.Terminated ≠ [])
    (hm : 1 ≤ m) (hmax : l.maxRowsInBatch = (m : Int)) (hr0 : r0.length < m)
    (hrec : ∀ r ∈ recs, IsRecord l r)
    (hcb : ∀ s, callback s = none)
    (hwf : tb.Sharded = true → ∃ c, firstVindexColumn tb = .ret c)
    (hinner : recs.length ≤ inner) (houter : (r0.length + recs.length) / m < outer) :
    ∃ res : CommitResult,
      insertDataWithCommit EqualFold l inner tb fields callback outer none
          (some (recordsChunk l (recs.map Prod.fst))) r0 = .ret res ∧
      res.err = none ∧ res.remainder.len = 0 ∧
      res.calls.length = (r0.length + recs.length) / m ∧
      (∀ k, k < (r0.length + recs.length) / m →
        ∃ stmt, res.calls[k]? = some stmt ∧
          MakeInsert EqualFold l (((r0 ++ recs.map Prod.snd).drop (k * m)).take m) tb
            fields = .ret (stmt, none)) ∧
      res.rows = (r0 ++ recs.map Prod.snd).drop (m * ((r0.length + recs.length) / m)) ∧
      res.rows.length = (r0.length + recs.length) % m ∧
      res.passes = (r0.length + recs.length) / m + 1 ∧
      (r0.length + recs.length < m → res.passes = 1) := by
  obtain ⟨res, hrun, herr, hrem, hrows, hpasses, hcalls, hblocks⟩ :=
    drain_batches_induction EqualFold l tb fields callback m inner hm hmax hT hcb
      (MakeInsert_returns EqualFold l tb fields hwf) recs.length recs r0 outer (Nat.le_refl _) hr0 houter hinner hrec
  refine ⟨res, hrun, herr, hrem, hcalls, hblocks, hrows, ?_, hpasses, fun hlt => ?_⟩
  · rw [hrows]
    have := Nat.div_add_mod (r0.length + recs.length) m
    simp only [List.length_drop, List.length_append, List.length_map]
    omega
  · rw [hpasses, Nat.div_eq_of_lt hlt]

/-- C6 on one pending row and four records with a batch of two rows. -/
theorem insertDataWithCommit_drains_witness :
    ∃ res : CommitResult,
      insertDataWithCommit sameName batchInfo 4 plainTable [] (fun _ => none) 3 none
          (some (recordsChunk batchInfo
            ([(lit "1,2", [lit "1", lit "2"]), (lit "3,4", [lit "3", lit "4"]),
              (lit "5,6", [lit "5", lit "6"]), (lit "7,8", [lit "7", lit "8"])].map Prod.fst)))
          [[lit "0", lit "0"]] = .ret res ∧
      res.err = none ∧ res.remainder.len = 0 ∧
      res.calls.length = (1 + 4) / 2 ∧
      (∀ k, k < (1 + 4) / 2 →
        ∃ stmt, res.calls[k]? = some stmt ∧
          MakeInsert sameName batchInfo
            ((([[lit "0", lit "0"]] ++
              [(lit "1,2", [lit "1", lit "2"]), (lit "3,4", [lit "3", lit "4"]),
                (lit "5,6", [lit "5", lit "6"]), (lit "7,8", [lit "7", lit "8"])].map
                  Prod.snd).drop (k * 2)).take 2) plainTable [] = .ret (stmt, none)) ∧
      res.rows = ([[lit "0", lit "0"]] ++
          [(lit "1,2", [lit "1", lit "2"]), (lit "3,4", [lit "3", lit "4"]),
            (lit "5,6", [lit "5", lit "6"]), (lit "7,8", [lit "7", lit "8"])].map
              Prod.snd).drop (2 * ((1 + 4) / 2)) ∧
      res.rows.length = (1 + 4) % 2 ∧
      res.passes = (1 + 4) / 2 + 1 ∧
      (1 + 4 < 2 → res.passes = 1) :=
  insertDataWithCommit_drains sameName batchInfo plainTable [] (fun _ => none) 2 4 3
    [(lit "1,2", [lit "1", lit "2"]), (lit "3,4", [lit "3", lit "4"]),
      (lit "5,6", [lit "5", lit "6"]), (lit "7,8", [lit "7", lit "8"])]
    [[lit "0", lit "0"]] (by decide) (by decide) rfl (by decide)
    (by decide)
    (fun _ => rfl)
    (fun h => absurd h (by decide))
    (by decide) (by decide)
/-! ## StatementBuilder -/

theorem intercalate_nil (sep : Bytes) : List.intercalate sep ([] : List Bytes) = [] := by
  simp [List.intercalate]

theorem intercalate_singleton (sep x : Bytes) : List.intercalate sep [x] = x := by
  simp [List.intercalate]

theorem intercalate_cons_cons (sep x y : Bytes) (zs : List Bytes) :
    List.intercalate sep (x :: y :: zs) = x ++ sep ++ List.intercalate sep (y :: zs) := by
  simp [List.intercalate, List.intersperse]

theorem intercalate_append_singleton (sep x : Bytes) (xs : List Bytes) :
    List.intercalate sep (xs ++ [x]) = (xs.map fun y => y ++ sep).flatten ++ x := by
  induction xs with
  | nil => simp [intercalate_singleton]
  | cons y ys ih =>
    cases ys with
    | nil => simp [intercalate_cons_cons, intercalate_singleton]
    | cons z zs =>
      have : (y :: z :: zs) ++ [x] = y :: z :: (zs ++ [x]) := rfl
      rw [this, intercalate_cons_cons]
      have h2 : z :: (zs ++ [x]) = (z :: zs) ++ [x] := rfl
      rw [h2, ih]
      simp

/-- A loop that writes `f j` for `j` below `n` and a separator after each but
the last writes the values separated by the separator. -/
theorem flatten_range_separated (sep : Bytes) (f : Nat → Bytes) (n : Nat) :
    ((List.range n).map fun j => f j ++ (if j ≠ n - 1 then sep else [])).flatten =
      List.intercalate sep ((List.range n).map f) := by
  cases n with
  | zero => simp [intercalate_nil]
  | succ n =>
    rw [List.range_succ, List.map_append, List.map_append, List.map_singleton,
      List.map_singleton, intercalate_append_singleton, List.flatten_append]
    congr 1
    · congr 1
      rw [List.map_map]
      apply List.map_congr_left
      intro j hj
      have : j ≠ n := by
        have := List.mem_range.mp hj
        omega
      simp [this]
    · simp

theorem resolveFieldType_eq (EqualFold : Bytes → Bytes → Bool) (name : Bytes)
    (fields : List Field) (cur : QType) :
    resolveFieldType EqualFold name fields cur = (fieldTypeOf EqualFold fields name).getD cur := by
  induction fields with
  | nil => simp [resolveFieldType, fieldTypeOf]
  | cons f rest ih =>
    by_cases h : EqualFold f.Name name = true
    · simp [resolveFieldType, fieldTypeOf, h]
    · simp only [resolveFieldType, h, if_false, ih]
      simp [fieldTypeOf, List.find?, h]

theorem renderValue_eq (sh : Bool) (vi : Option Nat) (ty : QType) (n : Nat) (record : Row)
    (j : Nat) :
    renderValue sh vi ty n record j =
      wrapValue (decide (sh = true ∧ some j = vi ∧ isNumericType ty = true)) (record.getD j []) ++
        (if j ≠ n - 1 then lit "," else []) := by
  have hcol : (if j ≥ record.length then [] else record.getD j []) = record.getD j [] := by
    split
    · rename_i h
      simp [List.getD_eq_getElem?_getD, List.getElem?_eq_none h]
    · rfl
  simp only [renderValue, hcol, wrapValue]
  by_cases h : sh = true ∧ some j = vi ∧ isNumericType ty = true
  · simp [h]
  · simp [h]

theorem rowLoop_eq (sh : Bool) (vi : Option Nat) (ty : QType) (n total : Nat) :
    ∀ (rows : List Row) (k : Nat), k + rows.length = total →
      rowLoop sh vi ty n total rows k =
        rowsText (fun j => decide (sh = true ∧ some j = vi ∧ isNumericType ty = true)) n
          rows := by
  intro rows
  induction rows with
  | nil => intro k _; simp [rowLoop, rowsText, intercalate_nil]
  | cons r rs ih =>
    intro k hk
    have hinner : ((List.range n).map (renderValue sh vi ty n r)).flatten =
        List.intercalate (lit ",") ((List.range n).map fun j =>
          wrapValue (decide (sh = true ∧ some j = vi ∧ isNumericType ty = true))
            (r.getD j [])) := by
      rw [← flatten_range_separated]
      congr 1
      apply List.map_congr_left
      intro j _
      exact renderValue_eq sh vi ty n r j
    simp only [rowLoop, hinner]
    cases rs with
    | nil =>
      have hk1 : k = total - 1 := by simp at hk; omega
      simp [hk1, rowLoop, rowsText, tupleText, intercalate_singleton]
    | cons r2 rs2 =>
      have hk1 : ¬ k = total - 1 := by simp at hk; omega
      rw [ih (k + 1) (by simp at hk ⊢; omega)]
      simp only [hk1, if_false, rowsText, List.map_cons, intercalate_cons_cons, tupleText]
      have : lit ")," = lit ")" ++ lit "," := by decide
      rw [this]
      simp only [List.append_assoc]

theorem columnLoop_unsharded (EqualFold : Bytes → Bytes → Bool) (tb : Table)
    (fields : List Field) (n : Nat) (hs : tb.Sharded = false) :
    ∀ (cols : List Bytes) (key : Nat) (vi : Option Nat) (ty : QType) (buf : Bytes),
      key + cols.length = n →
      columnLoop EqualFold tb fields n cols key (vi, ty, buf) =
        .ret (vi, ty, buf ++ List.intercalate (lit ",") cols) := by
  intro cols
  induction cols with
  | nil => intro key vi ty buf _; simp [columnLoop, intercalate_nil]
  | cons v rest ih =>
    intro key vi ty buf hk
    simp only [columnLoop, hs, Bool.false_eq_true, if_false, Run.ret_bind]
    rw [ih (key + 1) vi ty _ (by simp at hk ⊢; omega)]
    cases rest with
    | nil =>
      have hk1 : key = n - 1 := by simp at hk; omega
      simp [hk1, intercalate_nil, intercalate_singleton]
    | cons w ws =>
      have hk1 : ¬ key = n - 1 := by simp at hk; omega
      simp [hk1, intercalate_cons_cons]

theorem columnLoop_sharded (EqualFold : Bytes → Bytes → Bool) (tb : Table)
    (fields : List Field) (n : Nat) (sc : Bytes) (hs : tb.Sharded = true)
    (hsc : firstVindexColumn tb = .ret sc) :
    ∀ (cols : List Bytes) (key : Nat) (vi : Option Nat) (ty : QType) (buf : Bytes),
      key + cols.length = n →
      columnLoop EqualFold tb fields n cols key (vi, ty, buf) =
        .ret ((resolveVindex EqualFold sc fields cols key (vi, ty)).1,
          (resolveVindex EqualFold sc fields cols key (vi, ty)).2,
          buf ++ List.intercalate (lit ",") cols) := by
  intro cols
  induction cols with
  | nil => intro key vi ty buf _; simp [columnLoop, resolveVindex, intercalate_nil]
  | cons v rest ih =>
    intro key vi ty buf hk
    simp only [columnLoop, hs, if_true, hsc, Run.ret_bind]
    rw [ih (key + 1) _ _ _ (by simp at hk ⊢; omega)]
    have hbuf : buf ++ v ++ (if key ≠ n - 1 then lit "," else []) ++
        List.intercalate (lit ",") rest = buf ++ List.intercalate (lit ",") (v :: rest) := by
      cases rest with
      | nil =>
        have hk1 : key = n - 1 := by simp at hk; omega
        simp [hk1, intercalate_nil, intercalate_singleton]
      | cons w ws =>
        have hk1 : ¬ key = n - 1 := by simp at hk; omega
        simp [hk1, intercalate_cons_cons]
    rw [hbuf]
    by_cases hm : EqualFold v sc = true
    · simp [resolveVindex, hm]
    · simp [resolveVindex, hm]
section Shape
variable (EqualFold : Bytes → Bytes → Bool) (l : LoadDataInfo) (tb : Table)
  (fields : List Field)

/-- The statement `MakeInsert` returns for a non-empty row set. -/
theorem MakeInsert_shape (rows : List Row) (sc : Bytes) (hrows : rows ≠ [])
    (hsc : tb.Sharded = true → firstVindexColumn tb = .ret sc) :
    MakeInsert EqualFold l rows tb fields =
      .ret (statementHead l ++
        rowsText (fun j => decide (tb.Sharded = true ∧
          some j = (resolveVindex EqualFold sc fields l.Columns 0 (none, QType.NULL_TYPE)).1 ∧
          isNumericType (resolveVindex EqualFold sc fields l.Columns 0
            (none, QType.NULL_TYPE)).2 = true)) l.Columns.length rows, none) := by
  have h0 : ¬ rows.length = 0 := fun h => hrows (List.length_eq_zero.mp h)
  by_cases hc : l.Columns.length > 0
  · by_cases hs : tb.Sharded = true
    · have hloop := columnLoop_sharded EqualFold tb fields l.Columns.length sc hs (hsc hs)
        l.Columns 0 none QType.NULL_TYPE (lit "INSERT  IGNORE  INTO " ++ l.Table ++ lit "(")
        (by simp)
      simp only [MakeInsert, h0, if_false, hc, if_true, hloop, Run.ret_bind, statementHead]
      rw [rowLoop_eq _ _ _ _ _ rows 0 (by simp)]
      simp only [List.append_assoc]
    · have hs' : tb.Sharded = false := by simpa using hs
      have hloop := columnLoop_unsharded EqualFold tb fields l.Columns.length hs'
        l.Columns 0 none QType.NULL_TYPE (lit "INSERT  IGNORE  INTO " ++ l.Table ++ lit "(")
        (by simp)
      simp only [MakeInsert, h0, if_false, hc, if_true, hloop, Run.ret_bind, statementHead]
      rw [rowLoop_eq _ _ _ _ _ rows 0 (by simp)]
      simp only [hs', Bool.false_eq_true, false_and, List.append_assoc]
  · have hnil : l.Columns = [] := List.length_eq_zero.mp (by omega)
    simp only [MakeInsert, h0, if_false, hc, if_false, Run.ret_bind, statementHead]
    rw [rowLoop_eq _ _ _ _ _ rows 0 (by simp)]
    simp only [hnil, resolveVindex, List.append_nil, List.append_assoc]

end Shape

section Resolve
variable (EqualFold : Bytes → Bytes → Bool) (sc : Bytes) (fields : List Field)

theorem resolveVindex_no_match :
    ∀ (cols : List Bytes) (key : Nat) (st : Option Nat × QType),
      (∀ c ∈ cols, EqualFold c sc = false) →
      resolveVindex EqualFold sc fields cols key st = st := by
  intro cols
  induction cols with
  | nil => intro key st _; rfl
  | cons v rest ih =>
    intro key st h
    obtain ⟨vi, ty⟩ := st
    have hv : EqualFold v sc = false := h v (List.mem_cons_self _ _)
    simp only [resolveVindex, hv, Bool.false_eq_true, if_false]
    exact ih _ _ (fun c hc => h c (List.mem_cons_of_mem _ hc))

theorem resolveVindex_last_match :
    ∀ (cols : List Bytes) (key : Nat) (st : Option Nat × QType) (i : Nat) (c : Bytes),
      cols[i]? = some c → EqualFold c sc = true →
      (∀ (i1 : Nat) (c1 : Bytes), i < i1 → cols[i1]? = some c1 → EqualFold c1 sc = false) →
      (resolveVindex EqualFold sc fields cols key st).1 = some (key + i) := by
  intro cols
  induction cols with
  | nil => intro key st i c h; simp at h
  | cons v rest ih =>
    intro key st i c hi hc hlast
    obtain ⟨vi, ty⟩ := st
    cases i with
    | zero =>
      have hv : v = c := by simpa using hi
      subst hv
      have hrest : ∀ c1 ∈ rest, EqualFold c1 sc = false := by
        intro c1 hc1
        obtain ⟨i1, hi1, rfl⟩ := List.getElem_of_mem hc1
        exact hlast (i1 + 1) _ (by omega) (by simp [List.getElem?_eq_getElem hi1])
      simp only [resolveVindex, hc, if_true]
      rw [resolveVindex_no_match EqualFold sc fields _ _ _ hrest]
      rfl
    | succ i0 =>
      have hi' : rest[i0]? = some c := by simpa using hi
      have hlast' : ∀ i1 c1, i0 < i1 → rest[i1]? = some c1 → EqualFold c1 sc = false := by
        intro i1 c1 h1 h2
        exact hlast (i1 + 1) c1 (by omega) (by simpa using h2)
      have key_eq : key + (i0 + 1) = key + 1 + i0 := by omega
      rw [key_eq]
      simp only [resolveVindex]
      split
      · exact ih _ _ _ _ hi' hc hlast'
      · exact ih _ _ _ _ hi' hc hlast'

theorem exists_last_match :
    ∀ (cols : List Bytes), (∃ c ∈ cols, EqualFold c sc = true) →
      ∃ (i : Nat) (c : Bytes), cols[i]? = some c ∧ EqualFold c sc = true ∧
        ∀ (i1 : Nat) (c1 : Bytes), i < i1 → cols[i1]? = some c1 → EqualFold c1 sc = false := by
  intro cols
  induction cols with
  | nil => rintro ⟨c, hc, _⟩; simp at hc
  | cons v rest ih =>
    intro h
    by_cases hrest : ∃ c ∈ rest, EqualFold c sc = true
    · obtain ⟨i, c, h1, h2, h3⟩ := ih hrest
      refine ⟨i + 1, c, by simpa using h1, h2, ?_⟩
      intro i1 c1 hlt hget
      cases i1 with
      | zero => omega
      | succ i2 => exact h3 i2 c1 (by omega) (by simpa using hget)
    · have hv : EqualFold v sc = true := by
        obtain ⟨c, hc, hm⟩ := h
        rcases List.mem_cons.mp hc with rfl | hc'
        · exact hm
        · exact absurd ⟨c, hc', hm⟩ hrest
      refine ⟨0, v, by simp, hv, ?_⟩
      intro i1 c1 hlt hget
      cases i1 with
      | zero => omega
      | succ i2 =>
        have hmem : c1 ∈ rest := List.getElem?_mem (by simpa using hget)
        by_contra hne
        exact hrest ⟨c1, hmem, by simpa using hne⟩

theorem resolveVindex_type (ft : Option QType) :
    ∀ (cols : List Bytes) (key : Nat) (vi : Option Nat) (ty : QType),
      (∀ c ∈ cols, EqualFold c sc = true → fieldTypeOf EqualFold fields c = ft) →
      (∃ c ∈ cols, EqualFold c sc = true) →
      (resolveVindex EqualFold sc fields cols key (vi, ty)).2 = ft.getD ty := by
  intro cols
  induction cols with
  | nil => intro key vi ty _ h; obtain ⟨c, hc, _⟩ := h; simp at hc
  | cons v rest ih =>
    intro key vi ty hft hex
    have hft' : ∀ c ∈ rest, EqualFold c sc = true → fieldTypeOf EqualFold fields c = ft :=
      fun c hc => hft c (List.mem_cons_of_mem _ hc)
    by_cases hv : EqualFold v sc = true
    · have hty : resolveFieldType EqualFold v fields ty = ft.getD ty := by
        rw [resolveFieldType_eq, hft v (List.mem_cons_self _ _) hv]
      simp only [resolveVindex, hv, if_true, hty]
      by_cases hrest : ∃ c ∈ rest, EqualFold c sc = true
      · rw [ih _ _ _ hft' hrest]
        cases ft <;> rfl
      · rw [resolveVindex_no_match]
        intro c hc
        by_contra hne
        exact hrest ⟨c, hc, by simpa using hne⟩
    · have hrest : ∃ c ∈ rest, EqualFold c sc = true := by
        obtain ⟨c, hc, hm⟩ := hex
        rcases List.mem_cons.mp hc with rfl | hc'
        · exact absurd hm hv
        · exact ⟨c, hc', hm⟩
      simp only [resolveVindex, hv, if_false]
      exact ih _ _ _ hft' hrest

end Resolve
theorem fieldTypeOf_congr (EqualFold : Bytes → Bytes → Bool) (fields : List Field)
    (a b : Bytes) (h : ∀ x, EqualFold x a = EqualFold x b) :
    fieldTypeOf EqualFold fields a = fieldTypeOf EqualFold fields b := by
  unfold fieldTypeOf
  have : (fun f : Field => EqualFold f.Name a) = (fun f : Field => EqualFold f.Name b) := by
    funext f
    exact h f.Name
  rw [this]

theorem rowsText_congr (u v : Nat → Bool) (n : Nat) (rows : List Row)
    (h : ∀ j, j < n → u j = v j) : rowsText u n rows = rowsText v n rows := by
  have ht : ∀ r : Row, tupleText u n r = tupleText v n r := by
    intro r
    have hm : ((List.range n).map fun j => wrapValue (u j) (r.getD j [])) =
        (List.range n).map fun j => wrapValue (v j) (r.getD j []) := by
      apply List.map_congr_left
      intro j hj
      rw [h j (List.mem_range.mp hj)]
    simp only [tupleText, hm]
  have hm : rows.map (tupleText u n) = rows.map (tupleText v n) :=
    List.map_congr_left (fun r _ => ht r)
  simp only [rowsText, hm]

/-- C14 as stated fails: with the column `id` declared twice, the value at
position 0, whose column equals the sharding column `id` of type `INT32`, is
wrapped in single quotes; only the value at the last such position is not. -/
theorem repeated_sharding_column_is_quoted :
    MakeInsert sameName repeatedInfo [[lit "1", lit "2"]] shardedTable shardedFields =
        .ret (lit "INSERT  IGNORE  INTO t(id,id)  values ('1', 2 )", none) ∧
      repeatedInfo.Columns[0]? = some (lit "id") ∧
      firstVindexColumn shardedTable = .ret (lit "id") ∧
      sameName (lit "id") (lit "id") = true ∧
      fieldTypeOf sameName shardedFields (lit "id") = some QType.INT32 ∧
      isNumericType QType.INT32 = true := by
  decide

/-- C14, amended. For a non-empty row set, on a table whose first sharding column
`sc` can be read when it is sharded, `MakeInsert` returns the head of the
statement followed by the tuples of the rows, in which the value at position
`j < len(Columns)` stands between two spaces instead of two single quotes
exactly when the table is sharded, `j` is the last position of a declared load
column that folds to `sc`, and the first field whose name folds to that column
has a numeric type. -/
theorem MakeInsert_quoting_rule (EqualFold : Bytes → Bytes → Bool) (l : LoadDataInfo)
    (tb : Table) (fields : List Field) (rows : List Row) (sc : Bytes)
    (hrows : rows ≠ [])
    (hsc : tb.Sharded = true → firstVindexColumn tb = .ret sc)
    (hsymm : ∀ a b, EqualFold a b = EqualFold b a)
    (htrans : ∀ a b c, EqualFold a b = true → EqualFold b c = true → EqualFold a c = true) :
    ∃ unquoted : Nat → Bool,
      MakeInsert EqualFold l rows tb fields =
        .ret (statementHead l ++ rowsText unquoted l.Columns.length rows, none) ∧
      ∀ j, j < l.Columns.length →
        (unquoted j = true ↔
          tb.Sharded = true ∧
          ∃ c, l.Columns[j]? = some c ∧ EqualFold c sc = true ∧
            (∀ (j1 : Nat) (c1 : Bytes), j < j1 → l.Columns[j1]? = some c1 →
              EqualFold c1 sc = false) ∧
            ∃ t, fieldTypeOf EqualFold fields c = some t ∧ isNumericType t = true) := by
  refine ⟨_, MakeInsert_shape EqualFold l tb fields rows sc hrows hsc, ?_⟩
  intro j _
  -- columns that fold to the sharding column resolve the same field
  have hcongr : ∀ a b, EqualFold a sc = true → EqualFold b sc = true →
      fieldTypeOf EqualFold fields a = fieldTypeOf EqualFold fields b := by
    intro a b ha hb
    apply fieldTypeOf_congr
    intro x
    have hab : EqualFold a b = true := htrans a sc b ha (by rw [hsymm]; exact hb)
    have hba : EqualFold b a = true := by rw [hsymm]; exact hab
    cases hxa : EqualFold x a with
    | true => exact (htrans x a b hxa hab).symm
    | false =>
      cases hxb : EqualFold x b with
      | true => rw [htrans x b a hxb hba] at hxa; exact absurd hxa (by simp)
      | false => rfl
  simp only [decide_eq_true_eq]
  constructor
  · rintro ⟨hs, hvi, hnum⟩
    by_cases hex : ∃ c ∈ l.Columns, EqualFold c sc = true
    · obtain ⟨i, c, hic, hc, hlast⟩ := exists_last_match EqualFold sc l.Columns hex
      have hpos := resolveVindex_last_match EqualFold sc fields l.Columns 0
        (none, QType.NULL_TYPE) i c hic hc hlast
      rw [hpos] at hvi
      have hji : j = i := by simpa using hvi
      subst hji
      have hty := resolveVindex_type EqualFold sc fields (fieldTypeOf EqualFold fields c)
        l.Columns 0 none QType.NULL_TYPE (fun c1 _ hc1 => hcongr c1 c hc1 hc) hex
      rw [hty] at hnum
      refine ⟨hs, c, hic, hc, hlast, ?_⟩
      cases hft : fieldTypeOf EqualFold fields c with
      | none => rw [hft] at hnum; exact absurd hnum (by decide)
      | some t => rw [hft] at hnum; exact ⟨t, rfl, hnum⟩
    · have hno : ∀ c ∈ l.Columns, EqualFold c sc = false := by
        intro c hc
        by_contra hne
        exact hex ⟨c, hc, by simpa using hne⟩
      rw [resolveVindex_no_match EqualFold sc fields _ _ _ hno] at hvi
      exact absurd hvi (by simp)
  · rintro ⟨hs, c, hjc, hc, hlast, t, hft, hnum⟩
    have hpos := resolveVindex_last_match EqualFold sc fields l.Columns 0
      (none, QType.NULL_TYPE) j c hjc hc hlast
    have hex : ∃ c ∈ l.Columns, EqualFold c sc = true := ⟨c, List.getElem?_mem hjc, hc⟩
    have hty := resolveVindex_type EqualFold sc fields (fieldTypeOf EqualFold fields c)
      l.Columns 0 none QType.NULL_TYPE (fun c1 _ hc1 => hcongr c1 c hc1 hc) hex
    refine ⟨hs, by rw [hpos]; simp, ?_⟩
    rw [hty, hft]
    exact hnum

/-- C14, amended, on the sharded table `t` with the columns `id`, `name`. -/
theorem MakeInsert_quoting_rule_witness :
    ∃ unquoted : Nat → Bool,
      MakeInsert sameName shardedInfo [[lit "7", lit "x"]] shardedTable shardedFields =
        .ret (statementHead shardedInfo ++
          rowsText unquoted shardedInfo.Columns.length [[lit "7", lit "x"]], none) ∧
      ∀ j, j < shardedInfo.Columns.length →
        (unquoted j = true ↔
          shardedTable.Sharded = true ∧
          ∃ c, shardedInfo.Columns[j]? = some c ∧ sameName c (lit "id") = true ∧
            (∀ (j1 : Nat) (c1 : Bytes), j < j1 → shardedInfo.Columns[j1]? = some c1 →
              sameName c1 (lit "id") = false) ∧
            ∃ t, fieldTypeOf sameName shardedFields c = some t ∧ isNumericType t = true) :=
  MakeInsert_quoting_rule sameName shardedInfo shardedTable shardedFields [[lit "7", lit "x"]]
    (lit "id") (by decide) (fun _ => rfl)
    (fun a b => by
      by_cases h : a = b
      · subst h; rfl
      · have h1 : (a == b) = false := by simpa using h
        have h2 : (b == a) = false := by simpa using Ne.symm h
        simp only [sameName, h1, h2])
    (fun a b c hab hbc => by
      simp only [sameName, beq_iff_eq] at hab hbc ⊢
      exact hab.trans hbc)
/-- C15 as stated fails: on the sharded table `t` with the columns `id` (`INT32`,
the sharding column) and `name`, the rows `7`, `x` and `8`, `y` are rendered
with the values 7 and 8 between spaces, so the statement does not end in the
text `(7,'x'),(8,'y')`. -/
theorem numeric_example_has_spaces :
    MakeInsert sameName shardedInfo [[lit "7", lit "x"], [lit "8", lit "y"]] shardedTable
        shardedFields =
      .ret (lit "INSERT  IGNORE  INTO t(id,name)  values ( 7 ,'x'),( 8 ,'y')", none) ∧
    (lit "(7,'x'),(8,'y')").isSuffixOf
        (lit "INSERT  IGNORE  INTO t(id,name)  values ( 7 ,'x'),( 8 ,'y')") = false := by
  decide

/-- C15, amended. For a sharded table whose first sharding column `sc` is the
declared load column at position 0 of two, with the field type `INT32`,
`MakeInsert` on the rows `7`, `x` and `8`, `y` returns the head of the
statement followed by exactly `( 7 ,'x'),( 8 ,'y')`: 7 and 8 each between two
spaces and without quotes, `x` and `y` in single quotes, one comma between the
rows and none after the last. -/
theorem MakeInsert_numeric_example (EqualFold : Bytes → Bytes → Bool) (l : LoadDataInfo)
    (tb : Table) (fields : List Field) (c0 c1 sc : Bytes)
    (hcols : l.Columns = [c0, c1])
    (hs : tb.Sharded = true)
    (hsc : firstVindexColumn tb = .ret sc)
    (h0 : EqualFold c0 sc = true)
    (h1 : EqualFold c1 sc = false)
    (hty : fieldTypeOf EqualFold fields c0 = some QType.INT32) :
    MakeInsert EqualFold l [[lit "7", lit "x"], [lit "8", lit "y"]] tb fields =
      .ret (statementHead l ++ lit "( 7 ,'x'),( 8 ,'y')", none) := by
  rw [MakeInsert_shape EqualFold l tb fields _ sc (by simp) (fun _ => hsc)]
  have hst : resolveVindex EqualFold sc fields l.Columns 0 (none, QType.NULL_TYPE) =
      (some 0, QType.INT32) := by
    simp [hcols, resolveVindex, h0, h1, resolveFieldType_eq, hty]
  have hrows : rowsText (fun j => decide (tb.Sharded = true ∧
        some j = (resolveVindex EqualFold sc fields l.Columns 0 (none, QType.NULL_TYPE)).1 ∧
        isNumericType (resolveVindex EqualFold sc fields l.Columns 0
          (none, QType.NULL_TYPE)).2 = true)) l.Columns.length
        [[lit "7", lit "x"], [lit "8", lit "y"]] =
      rowsText (fun j => j == 0) 2 [[lit "7", lit "x"], [lit "8", lit "y"]] := by
    rw [hcols]
    apply rowsText_congr
    intro j _
    rw [← hcols, hst]
    by_cases hj : j = 0
    · subst hj; simp [hs]; decide
    · have : ¬ (0 = j) := fun h => hj h.symm
      simp [hj, this]
  rw [hrows]
  have hfinal : rowsText (fun j => j == 0) 2 [[lit "7", lit "x"], [lit "8", lit "y"]] =
      lit "( 7 ,'x'),( 8 ,'y')" := by decide
  rw [hfinal]

/-- C15, amended, on the table `t`. -/
theorem MakeInsert_numeric_example_witness :
    MakeInsert sameName shardedInfo [[lit "7", lit "x"], [lit "8", lit "y"]] shardedTable
        shardedFields =
      .ret (statementHead shardedInfo ++ lit "( 7 ,'x'),( 8 ,'y')", none) :=
  MakeInsert_numeric_example sameName shardedInfo shardedTable shardedFields (lit "id")
    (lit "name") (lit "id") rfl rfl rfl (by decide) (by decide) (by decide)

/-- C16 fails on the code: with the numeric sharding column `id` declared last
and a row that has one field only, the missing value is rendered as nothing
between two spaces, `('x',  )`, not as the empty literal `''`.  On the same
columns of an unsharded table, and at a position that is not the sharding
position, the missing value is rendered as `''`. -/
theorem missing_sharding_value_is_not_a_literal :
    MakeInsert sameName swappedInfo [[lit "x"]] shardedTable shardedFields =
        .ret (lit "INSERT  IGNORE  INTO t(name,id)  values ('x',  )", none) ∧
      MakeInsert sameName swappedInfo [[lit "x"]] plainTable shardedFields =
        .ret (lit "INSERT  IGNORE  INTO t(name,id)  values ('x','')", none) ∧
      MakeInsert sameName shardedInfo [[lit "7"]] shardedTable shardedFields =
        .ret (lit "INSERT  IGNORE  INTO t(id,name)  values ( 7 ,'')", none) := by
  refine ⟨?_, ?_, ?_⟩ <;> decide
/-! ## RecordSplitter -/

/-- C12 fails on the code: with the enclosure byte `"` configured, the empty
record and the record made of the one byte `"` are not answered with an error
or a row but with a run-time panic (`line[0]` and `line[1:0]`); the first is
reached from `InsertData` by an empty line. -/
theorem short_enclosed_record_panics :
    GetRowFromLine testInfo (some []) = .panic ∧
      GetRowFromLine testInfo none = .panic ∧
      GetRowFromLine testInfo (some (lit "\"")) = .panic ∧
      InsertData sameName quotedLines 1 none (some (lit "\n")) [] plainTable []
        (fun _ => none) = .panic := by
  decide

/-- C13 fails on the code: with the space as `Enclosed`, `GetRowFromLine` takes
the space for an enclosure byte and rejects the record `a,b`, which does not
begin and end with a space; `parseFieldString` in the same file takes the
space for no enclosure and gives the column back. -/
theorem space_is_taken_as_enclosure :
    GetRowFromLine spaceInfo (some (lit "a,b")) =
        .ret (.error (.malformed (lit "a,b") 32)) ∧
      parseFieldString (lit "a,b") 32 = .ret (lit "a,b", none) ∧
      GetRowFromLine { spaceInfo with FieldsInfo := ⟨lit ",", 0⟩ } (some (lit "a,b")) =
        .ret (.ok [lit "a", lit "b"]) := by
  decide

theorem escape_plain (s : Bytes) (h92 : 92 ∉ s) (h39 : 39 ∉ s) (h34 : 34 ∉ s) :
    escape s = s := by
  induction s with
  | nil => rfl
  | cons c t ih =>
    have hc : c ≠ 92 := fun e => h92 (by simp [e])
    have e1 : c ≠ 39 := fun e => h39 (by simp [e])
    have e2 : c ≠ 34 := fun e => h34 (by simp [e])
    rw [escape_cons_of_ne c t hc,
      ih (fun e => h92 (by simp [e])) (fun e => h39 (by simp [e])) (fun e => h34 (by simp [e]))]
    simp [e1, e2]

theorem Index_none_of_head_not_mem (e : Byte) (s v : Bytes) (hv : e ∉ v) :
    Index v (e :: s) = none := by
  induction v with
  | nil => simp [Index, List.isPrefixOf]
  | cons a v ih =>
    have ha : ¬ e = a := fun h => hv (by simp [h])
    have hv' : e ∉ v := fun h => hv (by simp [h])
    simp [Index, List.isPrefixOf, ha, ih hv']

theorem Index_after_plain (e : Byte) (s v y : Bytes) (hv : e ∉ v) :
    Index (v ++ (e :: s) ++ y) (e :: s) = some v.length := by
  induction v with
  | nil => simpa using Index_prefix (e :: s) y
  | cons a v ih =>
    have ha : ¬ e = a := fun h => hv (by simp [h])
    have hv' : e ∉ v := fun h => hv (by simp [h])
    have := ih hv'
    simp only [List.append_assoc, List.cons_append] at this ⊢
    simp [Index, List.isPrefixOf, ha, this]

theorem intercalate_length_ge (sep : Bytes) (hsep : sep ≠ []) :
    ∀ vs : List Bytes, vs.length ≤ (List.intercalate sep vs).length + 1 := by
  have hpos : 0 < sep.length := List.length_pos.mpr hsep
  intro vs
  induction vs with
  | nil => simp
  | cons v rest ih =>
    cases rest with
    | nil => simp
    | cons w ws =>
      rw [intercalate_cons_cons]
      simp only [List.length_append, List.length_cons] at ih ⊢
      omega

theorem splitLoop_intercalate (e : Byte) (s : Bytes) :
    ∀ (vs : List Bytes) (fuel : Nat), vs ≠ [] → (∀ v ∈ vs, e ∉ v) → vs.length ≤ fuel + 1 →
      splitLoop (e :: s) fuel (List.intercalate (e :: s) vs) = vs := by
  intro vs
  induction vs with
  | nil => intro fuel h; exact absurd rfl h
  | cons v rest ih =>
    intro fuel _ hv hfuel
    have hv0 : e ∉ v := hv v (List.mem_cons_self _ _)
    cases rest with
    | nil =>
      rw [intercalate_singleton]
      cases fuel with
      | zero => rfl
      | succ f => simp [splitLoop, Index_none_of_head_not_mem e s v hv0]
    | cons w ws =>
      obtain ⟨f, rfl⟩ : ∃ f, fuel = f + 1 := ⟨fuel - 1, by simp at hfuel; omega⟩
      rw [intercalate_cons_cons]
      have hI := Index_after_plain e s v (List.intercalate (e :: s) (w :: ws)) hv0
      simp only [splitLoop, hI]
      have htake : (v ++ (e :: s) ++ List.intercalate (e :: s) (w :: ws)).take v.length = v := by
        rw [List.append_assoc, List.take_left]
      have hdrop : (v ++ (e :: s) ++ List.intercalate (e :: s) (w :: ws)).drop
          (v.length + (e :: s).length) = List.intercalate (e :: s) (w :: ws) := by
        rw [List.drop_left' (by simp)]
      rw [htake, hdrop, ih f (by simp) (fun x hx => hv x (List.mem_cons_of_mem _ hx))
        (by simp at hfuel ⊢; omega)]

theorem encloseFields_eq (e : Byte) (t : Bytes) :
    ∀ vs : List Bytes, vs ≠ [] →
      encloseFields e t vs = [e] ++ List.intercalate ([e] ++ t ++ [e]) vs ++ [e] := by
  intro vs
  induction vs with
  | nil => intro h; exact absurd rfl h
  | cons v rest ih =>
    intro _
    cases rest with
    | nil => simp [encloseFields, intercalate_singleton]
    | cons w ws =>
      rw [intercalate_cons_cons]
      simp only [encloseFields]
      rw [ih (by simp)]
      simp

/-- C11. Enclosure round trip: with an enclosure byte `e` other than 0 and a
non-empty list of values none of which holds `e`, a backslash, an apostrophe
or a double quote (they may hold the field terminator), `GetRowFromLine` on the
record `e v1 e t e v2 e ... t e vn e` returns exactly the values, with no
error. -/
theorem enclosure_round_trip (l : LoadDataInfo) (vs : List Bytes)
    (hE : l.FieldsInfo.Enclosed ≠ 0)
    (hvs : vs ≠ [])
    (hv : ∀ v ∈ vs, l.FieldsInfo.Enclosed ∉ v ∧ 92 ∉ v ∧ 39 ∉ v ∧ 34 ∉ v) :
    GetRowFromLine l
        (some (encloseFields l.FieldsInfo.Enclosed l.FieldsInfo.Terminated vs)) =
      .ret (.ok vs) := by
  obtain ⟨m, L, ⟨t, e⟩, C, Tb⟩ := l
  simp only at hE hv ⊢
  rw [encloseFields_eq e t vs hvs]
  generalize hX : List.intercalate ([e] ++ t ++ [e]) vs = X
  have hsplit : bytesSplit X ([e] ++ t ++ [e]) = vs := by
    have hne : ([e] ++ t ++ [e]) ≠ [] := by simp
    have hlen := intercalate_length_ge ([e] ++ t ++ [e]) hne vs
    rw [hX] at hlen
    simp only [bytesSplit, hne, if_false]
    rw [← hX]
    have hsep : [e] ++ t ++ [e] = e :: (t ++ [e]) := by simp
    rw [hsep]
    apply splitLoop_intercalate e (t ++ [e]) vs _ hvs (fun v hv1 => (hv v hv1).1)
    rw [← hsep, hX]
    exact hlen
  have hesc : escapeCols vs = vs := by
    unfold escapeCols
    conv_rhs => rw [← List.map_id vs]
    apply List.map_congr_left
    intro v hv1
    exact escape_plain v (hv v hv1).2.1 (hv v hv1).2.2.1 (hv v hv1).2.2.2
  have hhead : ([e] ++ X ++ [e]).head? = some e := by simp
  have hlast : ([e] ++ X ++ [e]).getLast? = some e := List.getLast?_concat _
  have hslice : Slice.slice (some ([e] ++ X ++ [e])) 1
      (Slice.len (some ([e] ++ X ++ [e])) - 1) = .ret (some X) := by
    rw [Slice.slice_some (by simp) (by simp)]
    congr 2
    simp only [Slice.len_some, List.length_append, List.length_singleton]
    have h1 : 1 + X.length + 1 - 1 = ([e] ++ X).length := by simp; omega
    rw [h1, List.take_left]
    simp
  simp only [GetRowFromLine, ne_eq, hE, not_false_eq_true, if_true, Slice.bytes_some, hhead,
    hlast, not_true_eq_false, or_self, if_false, hslice, Run.ret_bind, hsplit, hesc]

/-- C11 on a record of `TestGetRowFromLine`, whose second value holds the field
terminator. -/
theorem enclosure_round_trip_witness :
    GetRowFromLine testInfo
        (some (encloseFields testInfo.FieldsInfo.Enclosed testInfo.FieldsInfo.Terminated
          [lit "2", lit "a string containing a , comma", lit "102.20"])) =
      .ret (.ok [lit "2", lit "a string containing a , comma", lit "102.20"]) :=
  enclosure_round_trip testInfo [lit "2", lit "a string containing a , comma", lit "102.20"]
    (by decide) (by decide) (by decide)
/-! ## Batcher: a failing callback -/

section FailedFlush
variable (EqualFold : Bytes → Bytes → Bool) (l : LoadDataInfo) (tb : Table)
  (fields : List Field) (callback : InsertFunc)

theorem InsertDataLoop_step_flush_fail (isEOF : Bool) (fuel : Nat) (p c rest : Slice)
    (body : Bytes) (rows : List Row) (row : Row) (stmt : Bytes) (e : LoadError)
    (hc : c.len ≠ 0)
    (hg : getLine l p c = .ret (some body, rest, true))
    (hr : GetRowFromLine l (some body) = .ret (.ok row))
    (hb : l.maxRowsInBatch ≠ 0 ∧ ((rows ++ [row]).length : Int) = l.maxRowsInBatch)
    (hm : MakeInsert EqualFold l (rows ++ [row]) tb fields = .ret (stmt, none))
    (hcb : callback stmt = some e) :
    InsertDataLoop EqualFold l tb fields callback isEOF (fuel + 1) p c rows =
      .ret { remainder := none, reachLimit := false, err := some e, rows := [],
             calls := [stmt] } := by
  rw [InsertDataLoop]
  simp only [hc, if_false, hg, Run.ret_bind]
  simp only [reduceCtorEq, false_and, if_false, not_true_eq_false, hr, Run.ret_bind,
    if_pos hb, hm, hcb]

theorem InsertDataLoop_records_flush_fail (hT : l.LinesInfo.Terminated ≠ [])
    (stmt : Bytes) (e : LoadError) (hcb : callback stmt = some e) :
    ∀ (pre : List (Bytes × Row)) (rows : List Row) (p : Slice) (fuel : Nat),
      pre ≠ [] → p.len = 0 → (∀ r ∈ pre, IsRecord l r) → pre.length ≤ fuel →
      ((rows.length + pre.length : Nat) : Int) = l.maxRowsInBatch →
      MakeInsert EqualFold l (rows ++ pre.map Prod.snd) tb fields = .ret (stmt, none) →
      InsertDataLoop EqualFold l tb fields callback false fuel p
          (some (recordsChunk l (pre.map Prod.fst))) rows =
        .ret { remainder := none, reachLimit := false, err := some e, rows := [],
               calls := [stmt] } := by
  intro pre
  induction pre with
  | nil => intro rows p fuel h; exact absurd rfl h
  | cons r rs ih =>
    intro rows p fuel _ hp hrec hfuel hmax hmk
    obtain ⟨f, rfl⟩ : ∃ f, fuel = f + 1 := ⟨fuel - 1, by simp at hfuel; omega⟩
    obtain ⟨hE, hr⟩ := hrec r (List.mem_cons_self _ _)
    simp only [List.map_cons, recordsChunk_cons]
    have hg := getLine_fresh_found l p r.1 (recordsChunk l (rs.map Prod.fst)) hp hE
    have hlen : Slice.len (some (l.LinesInfo.Starting ++ r.1 ++ l.LinesInfo.Terminated ++
        recordsChunk l (rs.map Prod.fst))) ≠ 0 := by
      have : 0 < l.LinesInfo.Terminated.length := List.length_pos.mpr hT
      simp only [Slice.len_some, List.length_append]
      omega
    by_cases hrs : rs = []
    · subst hrs
      simp only [List.map_nil] at hg hlen ⊢
      simp only [List.map_cons, List.map_nil] at hmk
      have hne : l.maxRowsInBatch ≠ 0 := by
        rw [← hmax]; simp only [List.length_cons, List.length_nil]; omega
      exact InsertDataLoop_step_flush_fail EqualFold l tb fields callback false f p _ _ r.1
        rows r.2 stmt e hlen hg hr ⟨hne, by simpa using hmax⟩ hmk hcb
    · have hrs0 : 0 < rs.length := List.length_pos.mpr hrs
      rw [InsertDataLoop_step_row EqualFold l tb fields callback false f p _ _ r.1 rows r.2
        hlen hg hr (by
          intro h
          have h2 := h.2
          rw [← hmax] at h2
          simp only [List.length_append, List.length_cons, List.length_nil] at h2
          omega)]
      exact ih (rows ++ [r.2]) none f hrs rfl (fun x hx => hrec x (List.mem_cons_of_mem _ hx))
        (by simpa using hfuel)
        (by rw [← hmax]; simp only [List.length_append, List.length_cons, List.length_nil]
            congr 1; omega)
        (by simpa using hmk)

end FailedFlush

/-- C17 as stated fails: with a batch of two rows and a callback that reports an
error, `InsertData` returns that error and the pending rows are empty: the two
rows of the batch are not kept. -/
theorem failed_flush_loses_rows :
    InsertData sameName batchInfo 2 none (some (lit "abc1,2\nabc3,4\n")) [] plainTable []
        (fun _ => some (.sink 1)) =
      .ret { remainder := none, reachLimit := false, err := some (.sink 1), rows := [],
             calls := [lit "INSERT  IGNORE  INTO t(a,b)  values ('1','2'),('3','4')"] } := by
  decide

/-- C17, amended. If the callback returns an error when the row-count threshold
is reached, `InsertData` returns that same error, with a nil remainder and
`reachLimit = false`; the statement rendered for the batch has been handed to
the callback, and the pending rows are empty: they are emptied once the batch
is rendered, before the callback is invoked, whether it succeeds or not. -/
theorem failed_flush_empties_rows (EqualFold : Bytes → Bytes → Bool) (l : LoadDataInfo)
    (tb : Table) (fields : List Field) (callback : InsertFunc) (recs : List (Bytes × Row))
    (r0 : List Row) (stmt : Bytes) (e : LoadError) (fuel : Nat)
    (hT : l.LinesInfo.Terminated ≠ [])
    (hn : 1 ≤ recs.length)
    (hmax : l.maxRowsInBatch = ((r0.length + recs.length : Nat) : Int))
    (hrec : ∀ r ∈ recs, IsRecord l r)
    (hmk : MakeInsert EqualFold l (r0 ++ recs.map Prod.snd) tb fields = .ret (stmt, none))
    (hcb : callback stmt = some e)
    (hfuel : recs.length ≤ fuel) :
    InsertData EqualFold l fuel none (some (recordsChunk l (recs.map Prod.fst))) r0 tb fields
        callback =
      .ret { remainder := none, reachLimit := false, err := some e, rows := [],
             calls := [stmt] } := by
  have hne : recs ≠ [] := fun h => by simp [h] at hn
  obtain ⟨r, rs, rfl⟩ := List.exists_cons_of_ne_nil hne
  have hlen : Slice.len (some (recordsChunk l ((r :: rs).map Prod.fst))) ≠ 0 := by
    simpa using recordsChunk_length_pos l r.1 (rs.map Prod.fst) hT
  rw [InsertData, if_neg (fun h => hlen h.2), if_neg (fun h => hlen h.2)]
  exact InsertDataLoop_records_flush_fail EqualFold l tb fields callback hT stmt e hcb (r :: rs)
    r0 none fuel hne rfl hrec hfuel hmax.symm hmk

/-- C17, amended, on one pending row and one record with a batch of two rows. -/
theorem failed_flush_empties_rows_witness :
    InsertData sameName batchInfo 1 none (some (lit "abc3,4\n")) [[lit "1", lit "2"]]
        plainTable [] (fun _ => some (.sink 7)) =
      .ret { remainder := none, reachLimit := false, err := some (.sink 7), rows := [],
             calls := [lit "INSERT  IGNORE  INTO t(a,b)  values ('1','2'),('3','4')"] } :=
  failed_flush_empties_rows sameName batchInfo plainTable [] (fun _ => some (.sink 7))
    [(lit "3,4", [lit "3", lit "4"])] [[lit "1", lit "2"]]
    (lit "INSERT  IGNORE  INTO t(a,b)  values ('1','2'),('3','4')") (.sink 7) 1
    (by decide) (by decide) rfl (by decide) rfl rfl (by decide)
/-! ## LineFramer on arbitrary buffers -/

theorem Run.bind_eq_ret {α β : Type} (x : Run α) (f : α → Run β) (b : β) :
    x.bind f = .ret b ↔ ∃ a, x = .ret a ∧ f a = .ret b := by
  cases x <;> simp [Run.bind]

theorem Run.bind_ne_timeout {α β : Type} (x : Run α) (f : α → Run β)
    (hx : x ≠ .timeout) (hf : ∀ a, f a ≠ .timeout) : x.bind f ≠ .timeout := by
  cases x with
  | ret a => exact hf a
  | panic => simp [Run.bind]
  | timeout => exact absurd rfl hx

theorem Slice.len_map_drop (s : Slice) (n : Nat) :
    Slice.len (s.map fun b => b.drop n) = s.len - n := by
  cases s <;> simp [Slice.len]

theorem Slice.bytes_map_drop (s : Slice) (n : Nat) :
    Slice.bytes (s.map fun b => b.drop n) = s.bytes.drop n := by
  cases s <;> simp [Slice.bytes]

theorem Slice.bytes_map_take (s : Slice) (n : Nat) :
    Slice.bytes (s.map fun b => b.take n) = s.bytes.take n := by
  cases s <;> simp [Slice.bytes]

theorem Slice.bytes_map_slice (s : Slice) (lo hi : Nat) :
    Slice.bytes (s.map fun b => (b.take hi).drop lo) = (s.bytes.take hi).drop lo := by
  cases s <;> simp [Slice.bytes]

theorem Slice.len_eq_bytes_length (s : Slice) : s.len = s.bytes.length := by
  cases s <;> rfl

theorem Slice.sliceFrom_eq_ret (s r : Slice) (n : Nat) :
    Slice.sliceFrom s n = .ret r ↔ n ≤ s.len ∧ r = s.map fun b => b.drop n := by
  unfold Slice.sliceFrom
  split <;> simp [*, eq_comm]

theorem Slice.sliceTo_eq_ret (s r : Slice) (n : Nat) :
    Slice.sliceTo s n = .ret r ↔ n ≤ s.len ∧ r = s.map fun b => b.take n := by
  unfold Slice.sliceTo
  split <;> simp [*, eq_comm]

theorem Slice.slice_eq_ret (s r : Slice) (lo hi : Nat) :
    Slice.slice s lo hi = .ret r ↔
      (lo ≤ hi ∧ hi ≤ s.len) ∧ r = s.map fun b => (b.take hi).drop lo := by
  unfold Slice.slice
  split <;> simp [*, eq_comm]

theorem Slice.sliceFrom_ne_timeout (s : Slice) (n : Nat) : Slice.sliceFrom s n ≠ .timeout := by
  unfold Slice.sliceFrom; split <;> simp

theorem Slice.sliceTo_ne_timeout (s : Slice) (n : Nat) : Slice.sliceTo s n ≠ .timeout := by
  unfold Slice.sliceTo; split <;> simp

theorem Slice.slice_ne_timeout (s : Slice) (lo hi : Nat) : Slice.slice s lo hi ≠ .timeout := by
  unfold Slice.slice; split <;> simp

theorem Slice.append_bytes (a b : Slice) : (a.append b).bytes = a.bytes ++ b.bytes := by
  cases a with
  | none =>
    by_cases h : b.len = 0
    · simp [Slice.append, h, Slice.bytes_eq_nil_of_len h]
    · simp [Slice.append, h]
  | some x => simp [Slice.append]

theorem Slice.append_len (a b : Slice) : (a.append b).len = a.len + b.len := by
  rw [Slice.len_eq_bytes_length, Slice.append_bytes, List.length_append,
    ← Slice.len_eq_bytes_length, ← Slice.len_eq_bytes_length]

section General
variable (l : LoadDataInfo)

theorem getValidDataCur_spec (c p1 c1 : Slice)
    (h : getValidDataCur l c = .ret (p1, c1)) :
    p1 = none ∧ c1.len ≤ c.len ∧
      (0 < l.LinesInfo.Starting.length →
        c1.len < l.LinesInfo.Starting.length ∨ l.LinesInfo.Starting <+: c1.bytes) := by
  simp only [getValidDataCur] at h
  split at h
  · rename_i idx hI
    rw [Run.bind_eq_ret] at h
    obtain ⟨a, ha, hret⟩ := h
    rw [Slice.sliceFrom_eq_ret] at ha
    obtain ⟨hle, rfl⟩ := ha
    simp only [Run.ret.injEq, Prod.mk.injEq] at hret
    obtain ⟨rfl, rfl⟩ := hret
    refine ⟨rfl, by rw [Slice.len_map_drop]; omega, fun _ => Or.inr ?_⟩
    rw [Slice.bytes_map_drop]
    exact ((Index_eq_some_iff _ _ _).mp hI).2.1
  · split at h
    · rw [Run.bind_eq_ret] at h
      obtain ⟨a, ha, hret⟩ := h
      rw [Slice.sliceFrom_eq_ret] at ha
      obtain ⟨hle, rfl⟩ := ha
      simp only [Run.ret.injEq, Prod.mk.injEq] at hret
      obtain ⟨rfl, rfl⟩ := hret
      refine ⟨rfl, by rw [Slice.len_map_drop]; omega, fun h0 => Or.inl ?_⟩
      rw [Slice.len_map_drop]
      omega
    · rename_i hlt
      simp only [Run.ret.injEq, Prod.mk.injEq] at h
      obtain ⟨rfl, rfl⟩ := h
      exact ⟨rfl, Nat.le_refl _, fun _ => Or.inl (by omega)⟩

theorem getValidDataCur_ne_timeout (c : Slice) : getValidDataCur l c ≠ .timeout := by
  simp only [getValidDataCur, ne_eq]
  split
  · exact Run.bind_ne_timeout _ _ (Slice.sliceFrom_ne_timeout _ _) (fun _ => by simp)
  · split
    · exact Run.bind_ne_timeout _ _ (Slice.sliceFrom_ne_timeout _ _) (fun _ => by simp)
    · simp

/-- What `getValidData` hands back, whatever the buffers: no more bytes than it
was given, and, for a non-empty starting symbol, either no kept prefix and too
little data to hold the symbol, or data that begins with the symbol. -/
theorem getValidData_spec (p c p1 c1 : Slice)
    (h : getValidData l p c = .ret (p1, c1)) :
    p1.len ≤ p.len ∧ c1.len ≤ c.len ∧
      (l.LinesInfo.Starting.length = 0 → p1 = p ∧ c1 = c) ∧
      (0 < l.LinesInfo.Starting.length →
        (p1 = none ∧ c1.len < l.LinesInfo.Starting.length) ∨
          l.LinesInfo.Starting <+: p1.bytes ++ c1.bytes) := by
  simp only [getValidData] at h
  by_cases h0 : l.LinesInfo.Starting.length = 0
  · simp only [h0, if_true, Run.ret.injEq, Prod.mk.injEq] at h
    obtain ⟨rfl, rfl⟩ := h
    exact ⟨Nat.le_refl _, Nat.le_refl _, fun _ => ⟨rfl, rfl⟩, fun h1 => by omega⟩
  · simp only [h0, if_false] at h
    have fromCur : getValidDataCur l c = .ret (p1, c1) →
        p1.len ≤ p.len ∧ c1.len ≤ c.len ∧
          (l.LinesInfo.Starting.length = 0 → p1 = p ∧ c1 = c) ∧
          (0 < l.LinesInfo.Starting.length →
            (p1 = none ∧ c1.len < l.LinesInfo.Starting.length) ∨
              l.LinesInfo.Starting <+: p1.bytes ++ c1.bytes) := by
      intro hc
      obtain ⟨rfl, hle, hs⟩ := getValidDataCur_spec l c p1 c1 hc
      refine ⟨Nat.zero_le _, hle, fun h1 => absurd h1 h0, fun h1 => ?_⟩
      rcases hs h1 with hlt | hpre
      · exact Or.inl ⟨rfl, hlt⟩
      · exact Or.inr (by simpa using hpre)
    split at h
    · rename_i hpos
      split at h
      · -- starting symbol in prevData
        rename_i idx hI
        rw [Run.bind_eq_ret] at h
        obtain ⟨a, ha, hret⟩ := h
        rw [Slice.sliceFrom_eq_ret] at ha
        obtain ⟨hle, rfl⟩ := ha
        simp only [Run.ret.injEq, Prod.mk.injEq] at hret
        obtain ⟨rfl, rfl⟩ := hret
        refine ⟨by rw [Slice.len_map_drop]; omega, Nat.le_refl _, fun h1 => absurd h1 h0,
          fun _ => Or.inr ?_⟩
        rw [Slice.bytes_map_drop]
        exact (((Index_eq_some_iff _ _ _).mp hI).2.1).trans (List.prefix_append _ _)
      · rw [Run.bind_eq_ret] at h
        obtain ⟨restStart, hrs, h⟩ := h
        have hrpre : restStart.bytes <+: c.bytes := by
          split at hrs
          · rw [Slice.sliceTo_eq_ret] at hrs
            obtain ⟨_, rfl⟩ := hrs
            rw [Slice.bytes_map_take]
            exact List.take_prefix _ _
          · simp only [Run.ret.injEq] at hrs
            subst hrs
            exact List.prefix_refl _
        split at h
        · -- starting symbol in the middle of prevData and curData
          rename_i idx hI
          rw [Run.bind_eq_ret] at h
          obtain ⟨a, ha, hret⟩ := h
          rw [Slice.slice_eq_ret] at ha
          obtain ⟨⟨hlo, hhi⟩, rfl⟩ := ha
          simp only [Run.ret.injEq, Prod.mk.injEq] at hret
          obtain ⟨rfl, rfl⟩ := hret
          have hsome := (Index_eq_some_iff _ _ _).mp hI
          rw [Slice.append_bytes] at hsome
          have hplen : p.len = p.bytes.length := Slice.len_eq_bytes_length p
          refine ⟨?_, Nat.le_refl _, fun h1 => absurd h1 h0, fun _ => Or.inr ?_⟩
          · rw [Slice.len_eq_bytes_length, Slice.bytes_map_slice]
            simp only [List.length_drop, List.length_take]
            omega
          · rw [Slice.bytes_map_slice, Slice.append_bytes, hplen, List.take_left,
              ]
            have h1 : (p.bytes ++ restStart.bytes).drop idx =
                p.bytes.drop idx ++ restStart.bytes := by
              rw [List.drop_append_of_le_length (by omega)]
            have h2 := hsome.2.1
            rw [h1] at h2
            exact h2.trans ((List.prefix_append_right_inj _).mpr hrpre)
        · exact fromCur h
    · exact fromCur h

theorem getValidData_ne_timeout (p c : Slice) : getValidData l p c ≠ .timeout := by
  simp only [getValidData, ne_eq]
  split
  · simp
  · split
    · split
      · exact Run.bind_ne_timeout _ _ (Slice.sliceFrom_ne_timeout _ _) (fun _ => by simp)
      · apply Run.bind_ne_timeout
        · split
          · exact Slice.sliceTo_ne_timeout _ _
          · simp
        · intro restStart
          split
          · exact Run.bind_ne_timeout _ _ (Slice.slice_ne_timeout _ _ _) (fun _ => by simp)
          · exact getValidDataCur_ne_timeout l c
    · exact getValidDataCur_ne_timeout l c

end General

section GeneralLine
variable (l : LoadDataInfo)

theorem Slice.map_ne_none_of_len {s : Slice} (f : Bytes → Bytes) (h : s.len ≠ 0) :
    s.map f ≠ none := by
  cases s with
  | none => exact absurd rfl h
  | some x => simp

theorem Slice.append_ne_none_of_len {a : Slice} (b : Slice) (h : a.len ≠ 0) :
    a.append b ≠ none := by
  cases a with
  | none => exact absurd rfl h
  | some x => simp [Slice.append]

theorem Index_nil_of_ne_nil {sep : Bytes} (h : sep ≠ []) : Index [] sep = none := by
  cases sep with
  | nil => exact absurd rfl h
  | cons a t => simp [Index]

theorem getLineNoEnd_spec (p c line rest : Slice) (hs : Bool)
    (hT : l.LinesInfo.Terminated ≠ [])
    (h : getLineNoEnd l p c = .ret (line, rest, hs)) :
    hs = true ∧
      (line = none → rest.bytes = p.bytes ++ c.bytes ∧
        (p.len ≠ 0 → Index (rest.bytes.drop l.LinesInfo.Starting.length)
          l.LinesInfo.Terminated = none)) ∧
      (line ≠ none → p.len ≠ 0 ∧ rest.len < p.len + c.len) := by
  simp only [getLineNoEnd] at h
  split at h
  · rename_i hp
    simp only [Run.ret.injEq, Prod.mk.injEq] at h
    obtain ⟨rfl, rfl, rfl⟩ := h
    refine ⟨rfl, fun _ => ⟨by rw [Slice.bytes_eq_nil_of_len hp]; rfl, fun h1 => absurd hp h1⟩,
      fun h1 => absurd rfl h1⟩
  · rename_i hp
    rw [Run.bind_eq_ret] at h
    obtain ⟨tail, htail, h⟩ := h
    rw [Slice.sliceFrom_eq_ret] at htail
    obtain ⟨hle, rfl⟩ := htail
    rw [Slice.bytes_map_drop, Slice.append_bytes] at h
    split at h
    · rename_i endIdx hI
      rw [Run.bind_eq_ret] at h
      obtain ⟨ln, hln, h⟩ := h
      rw [Run.bind_eq_ret] at h
      obtain ⟨rs, hrs, h⟩ := h
      rw [Slice.slice_eq_ret] at hln
      rw [Slice.sliceFrom_eq_ret] at hrs
      obtain ⟨hle2, rfl⟩ := hrs
      obtain ⟨_, rfl⟩ := hln
      simp only [Run.ret.injEq, Prod.mk.injEq] at h
      obtain ⟨rfl, rfl, rfl⟩ := h
      have hpos : 0 < l.LinesInfo.Terminated.length := List.length_pos.mpr hT
      rw [Slice.append_len] at hle2
      refine ⟨rfl, fun h1 => absurd h1 (Slice.map_ne_none_of_len _ ?_), fun _ => ⟨hp, ?_⟩⟩
      · rw [Slice.append_len]; omega
      · rw [Slice.len_map_drop, Slice.append_len]; omega
    · rename_i hI
      simp only [Run.ret.injEq, Prod.mk.injEq] at h
      obtain ⟨rfl, rfl, rfl⟩ := h
      refine ⟨rfl, fun _ => ⟨Slice.append_bytes _ _, fun _ => ?_⟩, fun h1 => absurd rfl h1⟩
      rw [Slice.append_bytes]
      exact hI

theorem getLineEnd_spec (p c line rest : Slice) (hs : Bool) (csi e : Nat)
    (hT : l.LinesInfo.Terminated ≠ []) (hc : c.len ≠ 0)
    (h : getLineEnd l p c csi e = .ret (line, rest, hs)) :
    hs = true ∧ line ≠ none ∧ rest.len < p.len + c.len ∧ (p.len = 0 → rest.len < c.len) := by
  have hpos : 0 < l.LinesInfo.Terminated.length := List.length_pos.mpr hT
  simp only [getLineEnd] at h
  split at h
  · rename_i hp
    rw [Run.bind_eq_ret] at h
    obtain ⟨ln, hln, h⟩ := h
    rw [Run.bind_eq_ret] at h
    obtain ⟨rs, hrs, h⟩ := h
    rw [Slice.slice_eq_ret] at hln
    rw [Slice.sliceFrom_eq_ret] at hrs
    obtain ⟨hle2, rfl⟩ := hrs
    obtain ⟨_, rfl⟩ := hln
    simp only [Run.ret.injEq, Prod.mk.injEq] at h
    obtain ⟨rfl, rfl, rfl⟩ := h
    have hlt : Slice.len (c.map fun b => b.drop (csi + e + l.LinesInfo.Terminated.length)) <
        c.len := by
      rw [Slice.len_map_drop]; omega
    exact ⟨rfl, Slice.map_ne_none_of_len _ hc, by omega, fun _ => hlt⟩
  · rename_i hp
    rw [Run.bind_eq_ret] at h
    obtain ⟨head, hhead, h⟩ := h
    rw [Run.bind_eq_ret] at h
    obtain ⟨tail, htail, h⟩ := h
    split at h
    · exact absurd h (by simp)
    · rename_i endIdx1 hI
      have hne : p.append head ≠ none := Slice.append_ne_none_of_len head hp
      have hlen : (p.append head).len ≠ 0 := by rw [Slice.append_len]; omega
      split at h
      · rw [Run.bind_eq_ret] at h
        obtain ⟨ln, hln, h⟩ := h
        rw [Run.bind_eq_ret] at h
        obtain ⟨rs, hrs, h⟩ := h
        rw [Slice.slice_eq_ret] at hln
        rw [Slice.sliceFrom_eq_ret] at hrs
        obtain ⟨hle2, rfl⟩ := hrs
        obtain ⟨_, rfl⟩ := hln
        simp only [Run.ret.injEq, Prod.mk.injEq] at h
        obtain ⟨rfl, rfl, rfl⟩ := h
        refine ⟨rfl, Slice.map_ne_none_of_len _ hlen, ?_, fun h0 => absurd h0 hp⟩
        rw [Slice.len_map_drop]; omega
      · rw [Run.bind_eq_ret] at h
        obtain ⟨ln, hln, h⟩ := h
        rw [Run.bind_eq_ret] at h
        obtain ⟨rs, hrs, h⟩ := h
        rw [Slice.slice_eq_ret] at hln
        obtain ⟨_, rfl⟩ := hln
        split at hrs
        · exact absurd hrs (by simp)
        · rw [Slice.sliceFrom_eq_ret] at hrs
          obtain ⟨hle2, rfl⟩ := hrs
          simp only [Run.ret.injEq, Prod.mk.injEq] at h
          obtain ⟨rfl, rfl, rfl⟩ := h
          refine ⟨rfl, Slice.map_ne_none_of_len _ hlen, ?_, fun h0 => absurd h0 hp⟩
          rw [Slice.len_map_drop]; omega

theorem getLineBody_spec (p c line rest : Slice) (hs : Bool)
    (hT : l.LinesInfo.Terminated ≠ [])
    (h : getLineBody l p c = .ret (line, rest, hs)) :
    (p = none ∧ c.len < l.LinesInfo.Starting.length → hs = false) ∧
      (hs = false → line = none ∧ rest = c ∧ c.len < l.LinesInfo.Starting.length) ∧
      (hs = true → line = none → rest.bytes = p.bytes ++ c.bytes ∧
        Index (rest.bytes.drop l.LinesInfo.Starting.length) l.LinesInfo.Terminated = none) ∧
      (line ≠ none → rest.len < p.len + c.len ∧ (p.len = 0 → rest.len < c.len)) := by
  simp only [getLineBody] at h
  split at h
  · rename_i hshort
    simp only [Run.ret.injEq, Prod.mk.injEq] at h
    obtain ⟨rfl, rfl, rfl⟩ := h
    exact ⟨fun _ => rfl, fun _ => ⟨rfl, rfl, hshort.2⟩, fun h1 => absurd h1 (by simp),
      fun h1 => absurd rfl h1⟩
  · rename_i hshort
    generalize hcs : (if p.len < l.LinesInfo.Starting.length
      then l.LinesInfo.Starting.length - p.len else 0) = csi at h
    have hcs0 : p.len = 0 → csi = l.LinesInfo.Starting.length := by
      intro h0
      rw [← hcs]
      split <;> omega
    rw [Run.bind_eq_ret] at h
    obtain ⟨endIdx, hend, h⟩ := h
    cases endIdx with
    | none =>
      simp only at h
      obtain ⟨rfl, hnone, hsome⟩ := getLineNoEnd_spec l p c line rest hs hT h
      refine ⟨fun h1 => absurd h1 hshort, fun h1 => absurd h1 (by simp), fun _ hl => ?_,
        fun hl => ⟨(hsome hl).2, fun h0 => absurd h0 (hsome hl).1⟩⟩
      obtain ⟨hb, hidx⟩ := hnone hl
      refine ⟨hb, ?_⟩
      by_cases hp : p.len = 0
      · rw [hb, Slice.bytes_eq_nil_of_len hp, List.nil_append]
        rw [hcs0 hp] at hend
        split at hend
        · rename_i hge
          rw [Run.bind_eq_ret] at hend
          obtain ⟨tail, htail, hend⟩ := hend
          rw [Slice.sliceFrom_eq_ret] at htail
          obtain ⟨_, rfl⟩ := htail
          simp only [Run.ret.injEq] at hend
          rw [Slice.bytes_map_drop] at hend
          exact hend
        · rename_i hlt
          rw [List.drop_of_length_le (by rw [← Slice.len_eq_bytes_length]; omega)]
          exact Index_nil_of_ne_nil hT
      · exact hidx hp
    | some e =>
      simp only at h
      have hc : c.len ≠ 0 := by
        split at hend
        · rw [Run.bind_eq_ret] at hend
          obtain ⟨tail, htail, hend⟩ := hend
          rw [Slice.sliceFrom_eq_ret] at htail
          obtain ⟨_, rfl⟩ := htail
          simp only [Run.ret.injEq] at hend
          rw [Slice.bytes_map_drop] at hend
          intro h0
          rw [Slice.bytes_eq_nil_of_len h0, List.drop_nil, Index_nil_of_ne_nil hT] at hend
          exact absurd hend (by simp)
        · exact absurd hend (by simp)
      obtain ⟨rfl, hl, hlt, hlt0⟩ := getLineEnd_spec l p c line rest hs _ e hT hc h
      exact ⟨fun h1 => absurd h1 hshort, fun h1 => absurd h1 (by simp),
        fun _ h1 => absurd h1 hl, fun _ => ⟨hlt, hlt0⟩⟩

/-- What `getLine` returns on arbitrary buffers when the terminator is not
empty: a record comes with a strictly shorter remainder; without a record the
remainder is either shorter than the starting symbol (no starting symbol found)
or an unfinished record. -/
theorem getLine_spec (p c line rest : Slice) (hs : Bool)
    (hT : l.LinesInfo.Terminated ≠ [])
    (h : getLine l p c = .ret (line, rest, hs)) :
    (hs = false → line = none ∧ rest.len ≤ l.LinesInfo.Starting.length - 1) ∧
      (hs = true → line = none → IsUnfinishedRecord l rest.bytes) ∧
      (line ≠ none → rest.len < p.len + c.len ∧ (p.len = 0 → rest.len < c.len)) := by
  simp only [getLine] at h
  rw [Run.bind_eq_ret] at h
  obtain ⟨⟨p1, c1⟩, hv, hb⟩ := h
  simp only at hb
  obtain ⟨hp1, hc1, _, hpre⟩ := getValidData_spec l p c p1 c1 hv
  obtain ⟨hshort, hfalse, hpend, hrec⟩ := getLineBody_spec l p1 c1 line rest hs hT hb
  refine ⟨fun h1 => ?_, fun h1 h2 => ?_, fun h1 => ?_⟩
  · obtain ⟨hl, rfl, hlt⟩ := hfalse h1
    exact ⟨hl, by omega⟩
  · obtain ⟨hb1, hidx⟩ := hpend h1 h2
    refine ⟨?_, hidx⟩
    rw [hb1]
    by_cases h0 : 0 < l.LinesInfo.Starting.length
    · rcases hpre h0 with hsh | hpf
      · have := hshort hsh
        rw [h1] at this
        exact absurd this (by simp)
      · exact hpf
    · have hnil : l.LinesInfo.Starting = [] := List.length_eq_zero.mp (by omega)
      rw [hnil]
      exact List.nil_prefix
  · obtain ⟨hlt, hlt0⟩ := hrec h1
    exact ⟨by omega, fun h0 => by have := hlt0 (by omega); omega⟩

theorem getLineNoEnd_ne_timeout (p c : Slice) : getLineNoEnd l p c ≠ .timeout := by
  simp only [getLineNoEnd, ne_eq]
  split
  · simp
  · apply Run.bind_ne_timeout _ _ (Slice.sliceFrom_ne_timeout _ _)
    intro tail
    split
    · apply Run.bind_ne_timeout _ _ (Slice.slice_ne_timeout _ _ _)
      intro ln
      exact Run.bind_ne_timeout _ _ (Slice.sliceFrom_ne_timeout _ _) (fun _ => by simp)
    · simp

theorem getLineEnd_ne_timeout (p c : Slice) (csi e : Nat) :
    getLineEnd l p c csi e ≠ .timeout := by
  simp only [getLineEnd, ne_eq]
  split
  · apply Run.bind_ne_timeout _ _ (Slice.slice_ne_timeout _ _ _)
    intro ln
    exact Run.bind_ne_timeout _ _ (Slice.sliceFrom_ne_timeout _ _) (fun _ => by simp)
  · apply Run.bind_ne_timeout _ _ (Slice.sliceTo_ne_timeout _ _)
    intro head
    apply Run.bind_ne_timeout _ _ (Slice.sliceFrom_ne_timeout _ _)
    intro tail
    split
    · simp
    · split
      · apply Run.bind_ne_timeout _ _ (Slice.slice_ne_timeout _ _ _)
        intro ln
        exact Run.bind_ne_timeout _ _ (Slice.sliceFrom_ne_timeout _ _) (fun _ => by simp)
      · apply Run.bind_ne_timeout _ _ (Slice.slice_ne_timeout _ _ _)
        intro ln
        apply Run.bind_ne_timeout
        · split
          · simp
          · exact Slice.sliceFrom_ne_timeout _ _
        · intro _; simp

theorem getLineBody_ne_timeout (p c : Slice) : getLineBody l p c ≠ .timeout := by
  simp only [getLineBody, ne_eq]
  split
  · simp
  · generalize (if p.len < l.LinesInfo.Starting.length
      then l.LinesInfo.Starting.length - p.len else 0) = csi
    apply Run.bind_ne_timeout
    · split
      · exact Run.bind_ne_timeout _ _ (Slice.sliceFrom_ne_timeout _ _) (fun _ => by simp)
      · simp
    · intro endIdx
      cases endIdx with
      | none => exact getLineNoEnd_ne_timeout l p c
      | some e => exact getLineEnd_ne_timeout l p c _ e

theorem getLine_ne_timeout (p c : Slice) : getLine l p c ≠ .timeout := by
  simp only [getLine, ne_eq]
  exact Run.bind_ne_timeout _ _ (getValidData_ne_timeout l p c)
    (fun a => getLineBody_ne_timeout l a.1 a.2)

theorem GetRowFromLine_ne_timeout (line : Slice) : GetRowFromLine l line ≠ .timeout := by
  simp only [GetRowFromLine, ne_eq]
  split
  · split
    · split
      · simp
      · exact Run.bind_ne_timeout _ _ (Slice.slice_ne_timeout _ _ _) (fun _ => by simp)
    · simp
  · simp

end GeneralLine

/-! ## The remainder is a suffix of the data -/

section Suffix
variable (l : LoadDataInfo)

theorem drop_append_suffix (a b : Bytes) (n : Nat) : a.drop n ++ b <:+ a ++ b :=
  ⟨a.take n, by rw [← List.append_assoc, List.take_append_drop]⟩

theorem suffix_append_left (a : Bytes) {x b : Bytes} (h : x <:+ b) : x <:+ a ++ b :=
  h.trans (List.suffix_append a b)

theorem getValidData_suffix (p c p1 c1 : Slice)
    (h : getValidData l p c = .ret (p1, c1)) :
    p1.bytes ++ c1.bytes <:+ p.bytes ++ c.bytes := by
  simp only [getValidData] at h
  by_cases h0 : l.LinesInfo.Starting.length = 0
  · simp only [h0, if_true, Run.ret.injEq, Prod.mk.injEq] at h
    obtain ⟨rfl, rfl⟩ := h
    exact List.suffix_refl _
  · simp only [h0, if_false] at h
    have fromCur : getValidDataCur l c = .ret (p1, c1) →
        p1.bytes ++ c1.bytes <:+ p.bytes ++ c.bytes := by
      intro hc
      simp only [getValidDataCur] at hc
      split at hc
      · rw [Run.bind_eq_ret] at hc
        obtain ⟨a, ha, hret⟩ := hc
        rw [Slice.sliceFrom_eq_ret] at ha
        obtain ⟨_, rfl⟩ := ha
        simp only [Run.ret.injEq, Prod.mk.injEq] at hret
        obtain ⟨rfl, rfl⟩ := hret
        rw [Slice.bytes_none, List.nil_append, Slice.bytes_map_drop]
        exact suffix_append_left _ (List.drop_suffix _ _)
      · split at hc
        · rw [Run.bind_eq_ret] at hc
          obtain ⟨a, ha, hret⟩ := hc
          rw [Slice.sliceFrom_eq_ret] at ha
          obtain ⟨_, rfl⟩ := ha
          simp only [Run.ret.injEq, Prod.mk.injEq] at hret
          obtain ⟨rfl, rfl⟩ := hret
          rw [Slice.bytes_none, List.nil_append, Slice.bytes_map_drop]
          exact suffix_append_left _ (List.drop_suffix _ _)
        · simp only [Run.ret.injEq, Prod.mk.injEq] at hc
          obtain ⟨rfl, rfl⟩ := hc
          rw [Slice.bytes_none, List.nil_append]
          exact List.suffix_append _ _
    split at h
    · split at h
      · rw [Run.bind_eq_ret] at h
        obtain ⟨a, ha, hret⟩ := h
        rw [Slice.sliceFrom_eq_ret] at ha
        obtain ⟨_, rfl⟩ := ha
        simp only [Run.ret.injEq, Prod.mk.injEq] at hret
        obtain ⟨rfl, rfl⟩ := hret
        rw [Slice.bytes_map_drop]
        exact drop_append_suffix _ _ _
      · rw [Run.bind_eq_ret] at h
        obtain ⟨rs, _, h⟩ := h
        split at h
        · rw [Run.bind_eq_ret] at h
          obtain ⟨a, ha, hret⟩ := h
          rw [Slice.slice_eq_ret] at ha
          obtain ⟨_, rfl⟩ := ha
          simp only [Run.ret.injEq, Prod.mk.injEq] at hret
          obtain ⟨rfl, rfl⟩ := hret
          rw [Slice.bytes_map_slice, Slice.append_bytes, Slice.len_eq_bytes_length,
            List.take_left]
          exact drop_append_suffix _ _ _
        · exact fromCur h
    · exact fromCur h

theorem getLineBody_suffix (p c line rest : Slice) (hs : Bool)
    (h : getLineBody l p c = .ret (line, rest, hs)) :
    rest.bytes <:+ p.bytes ++ c.bytes := by
  simp only [getLineBody] at h
  split at h
  · simp only [Run.ret.injEq, Prod.mk.injEq] at h
    obtain ⟨_, rfl, _⟩ := h
    exact List.suffix_append _ _
  · generalize (if p.len < l.LinesInfo.Starting.length
      then l.LinesInfo.Starting.length - p.len else 0) = csi at h
    rw [Run.bind_eq_ret] at h
    obtain ⟨endIdx, _, h⟩ := h
    cases endIdx with
    | none =>
      simp only [getLineNoEnd] at h
      split at h
      · simp only [Run.ret.injEq, Prod.mk.injEq] at h
        obtain ⟨_, rfl, _⟩ := h
        exact List.suffix_append _ _
      · rw [Run.bind_eq_ret] at h
        obtain ⟨tail, _, h⟩ := h
        split at h
        · rw [Run.bind_eq_ret] at h
          obtain ⟨ln, _, h⟩ := h
          rw [Run.bind_eq_ret] at h
          obtain ⟨rs, hrs, h⟩ := h
          rw [Slice.sliceFrom_eq_ret] at hrs
          obtain ⟨_, rfl⟩ := hrs
          simp only [Run.ret.injEq, Prod.mk.injEq] at h
          obtain ⟨_, rfl, _⟩ := h
          rw [Slice.bytes_map_drop, Slice.append_bytes]
          exact List.drop_suffix _ _
        · simp only [Run.ret.injEq, Prod.mk.injEq] at h
          obtain ⟨_, rfl, _⟩ := h
          rw [Slice.append_bytes]
    | some e =>
      simp only [getLineEnd] at h
      split at h
      · rw [Run.bind_eq_ret] at h
        obtain ⟨ln, _, h⟩ := h
        rw [Run.bind_eq_ret] at h
        obtain ⟨rs, hrs, h⟩ := h
        rw [Slice.sliceFrom_eq_ret] at hrs
        obtain ⟨_, rfl⟩ := hrs
        simp only [Run.ret.injEq, Prod.mk.injEq] at h
        obtain ⟨_, rfl, _⟩ := h
        rw [Slice.bytes_map_drop]
        exact suffix_append_left _ (List.drop_suffix _ _)
      · rw [Run.bind_eq_ret] at h
        obtain ⟨head, _, h⟩ := h
        rw [Run.bind_eq_ret] at h
        obtain ⟨tail, _, h⟩ := h
        split at h
        · exact absurd h (by simp)
        · split at h
          · rw [Run.bind_eq_ret] at h
            obtain ⟨ln, _, h⟩ := h
            rw [Run.bind_eq_ret] at h
            obtain ⟨rs, hrs, h⟩ := h
            rw [Slice.sliceFrom_eq_ret] at hrs
            obtain ⟨_, rfl⟩ := hrs
            simp only [Run.ret.injEq, Prod.mk.injEq] at h
            obtain ⟨_, rfl, _⟩ := h
            rw [Slice.bytes_map_drop]
            exact suffix_append_left _ (List.drop_suffix _ _)
          · rw [Run.bind_eq_ret] at h
            obtain ⟨ln, _, h⟩ := h
            rw [Run.bind_eq_ret] at h
            obtain ⟨rs, hrs, h⟩ := h
            split at hrs
            · exact absurd hrs (by simp)
            · rw [Slice.sliceFrom_eq_ret] at hrs
              obtain ⟨_, rfl⟩ := hrs
              simp only [Run.ret.injEq, Prod.mk.injEq] at h
              obtain ⟨_, rfl, _⟩ := h
              rw [Slice.bytes_map_drop]
              exact suffix_append_left _ (List.drop_suffix _ _)

/-- The remainder `getLine` returns is a suffix of `prevData` followed by
`curData`. -/
theorem getLine_suffix (p c line rest : Slice) (hs : Bool)
    (h : getLine l p c = .ret (line, rest, hs)) :
    rest.bytes <:+ p.bytes ++ c.bytes := by
  simp only [getLine] at h
  rw [Run.bind_eq_ret] at h
  obtain ⟨⟨p1, c1⟩, hv, hb⟩ := h
  simp only at hb
  exact (getLineBody_suffix l p1 c1 line rest hs hb).trans (getValidData_suffix l p c p1 c1 hv)

end Suffix

/-! ## Batcher on arbitrary buffers -/

section GeneralLoop
variable (EqualFold : Bytes → Bytes → Bool) (l : LoadDataInfo) (tb : Table)
  (fields : List Field) (callback : InsertFunc)

theorem columnLoop_ne_timeout (columnsSize : Nat) :
    ∀ (cols : List Bytes) (key : Nat) (st : Option Nat × QType × Bytes),
      columnLoop EqualFold tb fields columnsSize cols key st ≠ .timeout := by
  intro cols
  induction cols with
  | nil => intro key st; simp [columnLoop]
  | cons v rest ih =>
    intro key st
    obtain ⟨vi, ty, buf⟩ := st
    simp only [columnLoop, ne_eq]
    apply Run.bind_ne_timeout
    · split
      · apply Run.bind_ne_timeout
        · unfold firstVindexColumn
          split <;> simp
        · intro _; simp
      · simp
    · intro hit
      exact ih _ _

theorem MakeInsert_ne_timeout (rows : List Row) :
    MakeInsert EqualFold l rows tb fields ≠ .timeout := by
  simp only [MakeInsert, ne_eq]
  split
  · simp
  · apply Run.bind_ne_timeout
    · split
      · exact Run.bind_ne_timeout _ _ (columnLoop_ne_timeout EqualFold tb fields _ _ _ _)
          (fun _ => by simp)
      · simp
    · intro _; simp

/-- One round of the loop of `InsertData` on a non-empty `curData`, as a case
analysis: the round panics, or returns without a flush (with an error, or with
a remainder that is shorter than the starting symbol or an unfinished record,
and empty at end of input), or returns after a flush with a remainder shorter
than the data it was given, or goes round again on strictly less data; what is
returned or carried to the next round is a suffix of the data. -/
theorem InsertDataLoop_round (P : Run InsertResult → Prop) (isEOF : Bool) (fuel : Nat)
    (p c : Slice) (rows : List Row)
    (hT : l.LinesInfo.Terminated ≠ []) (hc : c.len ≠ 0)
    (hpanic : P .panic)
    (hstop : ∀ r : InsertResult, r.reachLimit = false →
      (r.err = none → r.remainder.len ≤ l.LinesInfo.Starting.length - 1 ∨
        IsUnfinishedRecord l r.remainder.bytes) →
      (isEOF = true → r.err = none → r.remainder.len = 0) →
      r.remainder.bytes <:+ p.bytes ++ c.bytes → P (.ret r))
    (hflush : ∀ r : InsertResult, r.reachLimit = true → r.err = none →
      r.remainder.len < p.len + c.len →
      r.remainder.bytes <:+ p.bytes ++ c.bytes → P (.ret r))
    (hrec : ∀ (cur : Slice) (rows1 : List Row), cur.len < p.len + c.len →
      cur.bytes <:+ p.bytes ++ c.bytes →
      P (InsertDataLoop EqualFold l tb fields callback isEOF fuel none cur rows1)) :
    P (InsertDataLoop EqualFold l tb fields callback isEOF (fuel + 1) p c rows) := by
  rw [InsertDataLoop]
  simp only [hc, if_false]
  cases hg : getLine l p c with
  | timeout => exact absurd hg (getLine_ne_timeout l p c)
  | panic => simp only [Run.panic_bind]; exact hpanic
  | ret a =>
    obtain ⟨line, rest, hs⟩ := a
    obtain ⟨hfalse, hpend, hrecd⟩ := getLine_spec l p c line rest hs hT hg
    simp only [Run.ret_bind]
    have hpos : 0 < p.len + c.len := by omega
    have hsuf := getLine_suffix l p c line rest hs hg
    have tail : ∀ (ln cur : Slice), cur.len < p.len + c.len →
        cur.bytes <:+ p.bytes ++ c.bytes →
        P ((GetRowFromLine l ln).bind fun r =>
          match r with
          | .error e =>
            .ret { remainder := none, reachLimit := false, err := some e, rows := rows,
                   calls := [] }
          | .ok cols =>
            let rows1 := rows ++ [cols]
            if l.maxRowsInBatch ≠ 0 ∧ (rows1.length : Int) = l.maxRowsInBatch then
              (MakeInsert EqualFold l rows1 tb fields).bind fun (inserts, err) =>
              match err with
              | some e =>
                .ret { remainder := none, reachLimit := false, err := some e, rows := rows1,
                       calls := [] }
              | none =>
                match callback inserts with
                | some e =>
                  .ret { remainder := none, reachLimit := false, err := some e, rows := [],
                         calls := [inserts] }
                | none =>
                  .ret { remainder := cur, reachLimit := true, err := none, rows := [],
                         calls := [inserts] }
            else
              InsertDataLoop EqualFold l tb fields callback isEOF fuel none cur rows1) := by
      intro ln cur hlt hcs
      cases hr : GetRowFromLine l ln with
      | timeout => exact absurd hr (GetRowFromLine_ne_timeout l ln)
      | panic => simp only [Run.panic_bind]; exact hpanic
      | ret r =>
        simp only [Run.ret_bind]
        cases r with
        | error e =>
          exact hstop _ rfl (fun h => absurd h (by simp)) (fun _ h => absurd h (by simp)) List.nil_suffix
        | ok cols =>
          simp only []
          split
          · cases hm : MakeInsert EqualFold l (rows ++ [cols]) tb fields with
            | timeout => exact absurd hm (MakeInsert_ne_timeout EqualFold l tb fields _)
            | panic => simp only [Run.panic_bind]; exact hpanic
            | ret a =>
              obtain ⟨inserts, err⟩ := a
              simp only [Run.ret_bind]
              cases err with
              | some e =>
                exact hstop _ rfl (fun h => absurd h (by simp)) (fun _ h => absurd h (by simp)) List.nil_suffix
              | none =>
                simp only []
                cases hcb : callback inserts with
                | some e =>
                  exact hstop _ rfl (fun h => absurd h (by simp))
                    (fun _ h => absurd h (by simp)) (List.nil_suffix)
                | none => exact hflush _ rfl rfl hlt hcs
          · exact hrec _ _ hlt hcs
    cases line with
    | some body =>
      have hlt := (hrecd (by simp)).1
      have hs1 : hs = true := by
        cases hs with
        | true => rfl
        | false => exact absurd (hfalse rfl).1 (by simp)
      subst hs1
      simp only [reduceCtorEq, false_and, if_false, not_true_eq_false, Run.ret_bind]
      exact tail (some body) rest hlt hsuf
    | none =>
      cases isEOF with
      | false =>
        simp only [Bool.false_eq_true, not_false_eq_true, and_self, if_true]
        refine hstop _ rfl (fun _ => ?_) (fun h => absurd h (by simp)) hsuf
        cases hs with
        | false => exact Or.inl (hfalse rfl).2
        | true => exact Or.inr (hpend rfl rfl)
      | true =>
        cases hs with
        | false =>
          simp only [not_true_eq_false, and_false, if_false, Bool.false_eq_true,
            not_false_eq_true, if_true]
          exact hstop _ rfl (fun _ => Or.inl (Nat.zero_le _)) (fun _ _ => rfl) (List.nil_suffix)
        | true =>
          simp only [not_true_eq_false, and_false, if_false, and_self, if_true]
          cases hsl : Slice.sliceFrom rest l.LinesInfo.Starting.length with
          | timeout => exact absurd hsl (Slice.sliceFrom_ne_timeout _ _)
          | panic => simp only [Run.panic_bind]; exact hpanic
          | ret ln =>
            simp only [Run.ret_bind]
            exact tail ln none hpos (List.nil_suffix)

end GeneralLoop

section GeneralBatcher
variable (EqualFold : Bytes → Bytes → Bool) (l : LoadDataInfo) (tb : Table)
  (fields : List Field) (callback : InsertFunc)

theorem InsertDataLoop_zero (isEOF : Bool) (p c : Slice) (rows : List Row) (hc : c.len ≠ 0) :
    InsertDataLoop EqualFold l tb fields callback isEOF 0 p c rows = .timeout := by
  rw [InsertDataLoop]
  simp [hc]

/-- The loop of `InsertData` ends within `len(prevData) + len(curData)` rounds. -/
theorem InsertDataLoop_ne_timeout (hT : l.LinesInfo.Terminated ≠ []) (isEOF : Bool) :
    ∀ (fuel : Nat) (p c : Slice) (rows : List Row), p.len + c.len ≤ fuel →
      InsertDataLoop EqualFold l tb fields callback isEOF fuel p c rows ≠ .timeout := by
  intro fuel
  induction fuel with
  | zero =>
    intro p c rows h
    rw [InsertDataLoop_done EqualFold l tb fields callback isEOF 0 p c rows (by omega)]
    simp
  | succ n ih =>
    intro p c rows h
    by_cases hc : c.len = 0
    · rw [InsertDataLoop_done EqualFold l tb fields callback isEOF (n + 1) p c rows hc]
      simp
    · exact InsertDataLoop_round EqualFold l tb fields callback (fun X => X ≠ .timeout) isEOF n
        p c rows hT hc (by simp) (fun r _ _ _ _ => by simp) (fun r _ _ _ _ => by simp)
        (fun cur rows1 hlt _ => ih none cur rows1 (by rw [Slice.len_none]; omega))

/-- What the loop of `InsertData` returns: after a flush a remainder shorter
than the data given; without flush and error a remainder that is shorter than
the starting symbol or an unfinished record, and empty at end of input. -/
theorem InsertDataLoop_ret_spec (hT : l.LinesInfo.Terminated ≠ []) (isEOF : Bool) :
    ∀ (fuel : Nat) (p c : Slice) (rows : List Row) (r : InsertResult),
      InsertDataLoop EqualFold l tb fields callback isEOF fuel p c rows = .ret r →
      (r.reachLimit = true → r.err = none ∧ r.remainder.len < p.len + c.len) ∧
      (r.reachLimit = false → r.err = none →
        r.remainder.len ≤ l.LinesInfo.Starting.length - 1 ∨
          IsUnfinishedRecord l r.remainder.bytes) ∧
      (isEOF = true → r.reachLimit = false → r.err = none → r.remainder.len = 0) ∧
      r.remainder.bytes <:+ p.bytes ++ c.bytes := by
  intro fuel
  induction fuel with
  | zero =>
    intro p c rows r h
    by_cases hc : c.len = 0
    · rw [InsertDataLoop_done EqualFold l tb fields callback isEOF 0 p c rows hc] at h
      simp only [Run.ret.injEq] at h
      subst h
      exact ⟨fun h1 => absurd h1 (by simp), fun _ _ => Or.inl (by simp only []; omega),
        fun _ _ _ => hc, List.suffix_append _ _⟩
    · rw [InsertDataLoop_zero EqualFold l tb fields callback isEOF p c rows hc] at h
      exact absurd h (by simp)
  | succ n ih =>
    intro p c rows r
    by_cases hc : c.len = 0
    · intro h
      rw [InsertDataLoop_done EqualFold l tb fields callback isEOF (n + 1) p c rows hc] at h
      simp only [Run.ret.injEq] at h
      subst h
      exact ⟨fun h1 => absurd h1 (by simp), fun _ _ => Or.inl (by simp only []; omega),
        fun _ _ _ => hc, List.suffix_append _ _⟩
    · refine InsertDataLoop_round EqualFold l tb fields callback
        (fun X => X = .ret r →
          (r.reachLimit = true → r.err = none ∧ r.remainder.len < p.len + c.len) ∧
          (r.reachLimit = false → r.err = none →
            r.remainder.len ≤ l.LinesInfo.Starting.length - 1 ∨
              IsUnfinishedRecord l r.remainder.bytes) ∧
          (isEOF = true → r.reachLimit = false → r.err = none → r.remainder.len = 0) ∧
          r.remainder.bytes <:+ p.bytes ++ c.bytes)
        isEOF n p c rows hT hc (fun h => absurd h (by simp)) ?_ ?_ ?_
      · intro r1 hrl hrem heof hsuf h
        simp only [Run.ret.injEq] at h
        subst h
        exact ⟨fun h1 => by rw [hrl] at h1; exact absurd h1 (by simp), fun _ he => hrem he,
          fun h1 _ he => heof h1 he, hsuf⟩
      · intro r1 hrl herr hlt hsuf h
        simp only [Run.ret.injEq] at h
        subst h
        exact ⟨fun _ => ⟨herr, hlt⟩, fun h1 => by rw [hrl] at h1; exact absurd h1 (by simp),
          fun _ h1 => by rw [hrl] at h1; exact absurd h1 (by simp), hsuf⟩
      · intro cur rows1 hlt hsuf h
        obtain ⟨h1, h2, h3, h4⟩ := ih none cur rows1 r h
        refine ⟨fun hr => ⟨(h1 hr).1, ?_⟩, h2, h3, ?_⟩
        · have := (h1 hr).2
          rw [Slice.len_none] at this
          omega
        · rw [Slice.bytes_none, List.nil_append] at h4
          exact h4.trans hsuf

/-- Source `InsertData` with `len(prevData) + len(curData)` rounds of fuel ends. -/
theorem InsertData_ne_timeout (hT : l.LinesInfo.Terminated ≠ []) (fuel : Nat) (p c : Slice)
    (rows : List Row) (hfuel : p.len + c.len ≤ fuel) :
    InsertData EqualFold l fuel p c rows tb fields callback ≠ .timeout := by
  unfold InsertData
  split
  · simp
  · split
    · exact InsertDataLoop_ne_timeout EqualFold l tb fields callback hT true fuel c p rows
        (by omega)
    · exact InsertDataLoop_ne_timeout EqualFold l tb fields callback hT false fuel p c rows
        hfuel

theorem InsertData_ret_spec (hT : l.LinesInfo.Terminated ≠ []) (fuel : Nat) (p c : Slice)
    (rows : List Row) (r : InsertResult)
    (h : InsertData EqualFold l fuel p c rows tb fields callback = .ret r) :
    (r.reachLimit = true → r.err = none ∧ r.remainder.len < p.len + c.len) ∧
      (r.reachLimit = false → r.err = none →
        r.remainder.len ≤ l.LinesInfo.Starting.length - 1 ∨
          IsUnfinishedRecord l r.remainder.bytes) ∧
      (c.len = 0 → r.reachLimit = false → r.err = none → r.remainder.len = 0) ∧
      r.remainder.bytes <:+ p.bytes ++ c.bytes := by
  unfold InsertData at h
  split at h
  · simp only [Run.ret.injEq] at h
    subst h
    exact ⟨fun h1 => absurd h1 (by simp), fun _ _ => Or.inl (Nat.zero_le _), fun _ _ _ => rfl,
      List.nil_suffix⟩
  · split at h
    · rename_i hn1 hn2
      obtain ⟨h1, h2, h3, h4⟩ :=
        InsertDataLoop_ret_spec EqualFold l tb fields callback hT true fuel c p rows r h
      refine ⟨fun hr => ⟨(h1 hr).1, by have := (h1 hr).2; omega⟩, h2, fun _ => h3 rfl, ?_⟩
      rw [Slice.bytes_eq_nil_of_len hn2.2, List.nil_append] at h4
      rw [Slice.bytes_eq_nil_of_len hn2.2, List.append_nil]
      exact h4
    · rename_i hn1 hn2
      obtain ⟨h1, h2, _, h4⟩ :=
        InsertDataLoop_ret_spec EqualFold l tb fields callback hT false fuel p c rows r h
      refine ⟨h1, h2, fun hc hrl he => ?_, h4⟩
      have hp : p.len = 0 := by
        by_cases hp : p.len = 0
        · exact hp
        · exact absurd ⟨Nat.pos_of_ne_zero hp, hc⟩ hn2
      exact absurd ⟨hp, hc⟩ hn1

/-- The loop of `insertDataWithCommit` ends within `len(prevData) + len(curData) + 1`
rounds when every call of `InsertData` is given enough fuel for its own loop. -/
theorem insertDataWithCommit_ne_timeout (hT : l.LinesInfo.Terminated ≠ []) (inner : Nat) :
    ∀ (outer : Nat) (p c : Slice) (rows : List Row), p.len + c.len ≤ inner →
      p.len + c.len < outer →
      insertDataWithCommit EqualFold l inner tb fields callback outer p c rows ≠ .timeout := by
  intro outer
  induction outer with
  | zero => intro p c rows _ h; omega
  | succ n ih =>
    intro p c rows hin hout
    rw [insertDataWithCommit]
    cases hI : InsertData EqualFold l inner p c rows tb fields callback with
    | timeout =>
      exact absurd hI (InsertData_ne_timeout EqualFold l tb fields callback hT inner p c rows hin)
    | panic => simp
    | ret r =>
      simp only [Run.ret_bind]
      obtain ⟨h1, _, _, _⟩ :=
        InsertData_ret_spec EqualFold l tb fields callback hT inner p c rows r hI
      cases he : r.err with
      | some e => simp
      | none =>
        simp only []
        split
        · simp
        · rename_i hrl
          have hrl1 : r.reachLimit = true := by simpa using hrl
          have hlt := (h1 hrl1).2
          exact Run.bind_ne_timeout _ _
            (ih none r.remainder r.rows (by rw [Slice.len_none]; omega)
              (by rw [Slice.len_none]; omega))
            (fun _ => by simp)

end GeneralBatcher

/-! ## Safety of the LineFramer -/

section Safety
variable (l : LoadDataInfo)

theorem Slice.sliceFrom_of_le (s : Slice) (n : Nat) (h : n ≤ s.len) :
    Slice.sliceFrom s n = .ret (s.map fun b => b.drop n) :=
  (Slice.sliceFrom_eq_ret s _ n).mpr ⟨h, rfl⟩

theorem Slice.sliceTo_of_le (s : Slice) (n : Nat) (h : n ≤ s.len) :
    Slice.sliceTo s n = .ret (s.map fun b => b.take n) :=
  (Slice.sliceTo_eq_ret s _ n).mpr ⟨h, rfl⟩

theorem Slice.slice_of_le (s : Slice) (lo hi : Nat) (h1 : lo ≤ hi) (h2 : hi ≤ s.len) :
    Slice.slice s lo hi = .ret (s.map fun b => (b.take hi).drop lo) :=
  (Slice.slice_eq_ret s _ lo hi).mpr ⟨⟨h1, h2⟩, rfl⟩

theorem Index_nil_sep (s : Bytes) : Index s [] = some 0 := by
  simpa using Index_prefix [] s

theorem Index_ne_none_of_suffix {s sep : Bytes} (h : sep <:+ s) : Index s sep ≠ none := by
  intro hn
  have := Index_none_of_infix hn h.isInfix
  rw [ Index_zero_of_prefix (List.prefix_refl sep)] at this
  exact absurd this (by simp)

/-- An occurrence found in `a ++ b` that ends inside `a` is an occurrence in `a`. -/
theorem Index_ne_none_of_append {a b sep : Bytes} {i : Nat}
    (h : Index (a ++ b) sep = some i) (hi : i + sep.length ≤ a.length) :
    Index a sep ≠ none := by
  intro hn
  obtain ⟨_, hpre, _⟩ := (Index_eq_some_iff sep _ i).mp h
  rw [prefix_drop_append hi] at hpre
  exact (Index_eq_none_iff sep a).mp hn i (by omega) hpre

/-- Source `getValidDataCur` evaluates no slice expression out of bounds. -/
theorem getValidDataCur_returns (c : Slice) :
    ∃ c1, getValidDataCur l c = .ret (none, c1) := by
  simp only [getValidDataCur]
  split
  · rename_i idx hI
    have hb := Index_length_bound hI
    rw [Slice.sliceFrom_of_le _ _ (by rw [Slice.len_eq_bytes_length]; omega)]
    exact ⟨_, rfl⟩
  · rename_i hI
    have hS : l.LinesInfo.Starting.length ≠ 0 := by
      intro h0
      rw [List.length_eq_zero.mp h0, Index_nil_sep] at hI
      exact absurd hI (by simp)
    split
    · rw [Slice.sliceFrom_of_le _ _ (by omega)]
      exact ⟨_, rfl⟩
    · exact ⟨_, rfl⟩

/-- Source `getValidData` evaluates no slice expression out of bounds, whatever
the two buffers are. -/
theorem getValidData_returns (p c : Slice) :
    ∃ p1 c1, getValidData l p c = .ret (p1, c1) := by
  simp only [getValidData]
  by_cases h0 : l.LinesInfo.Starting.length = 0
  · simp only [h0, if_true]
    exact ⟨_, _, rfl⟩
  · simp only [h0, if_false]
    have hcur : ∃ p1 c1, getValidDataCur l c = .ret (p1, c1) := by
      obtain ⟨c1, h⟩ := getValidDataCur_returns l c
      exact ⟨_, _, h⟩
    split
    · split
      · rename_i idx hI
        have hb := Index_length_bound hI
        rw [Slice.sliceFrom_of_le _ _ (by rw [Slice.len_eq_bytes_length]; omega)]
        exact ⟨_, _, rfl⟩
      · have hrs : ∃ rs : Slice, (if c.len ≥ l.LinesInfo.Starting.length
              then c.sliceTo (l.LinesInfo.Starting.length - 1) else Run.ret c) = .ret rs ∧
            rs.len < l.LinesInfo.Starting.length := by
          split
          · rw [Slice.sliceTo_of_le _ _ (by omega)]
            refine ⟨_, rfl, ?_⟩
            rw [Slice.len_eq_bytes_length, Slice.bytes_map_take, List.length_take]
            omega
          · exact ⟨c, rfl, by omega⟩
        obtain ⟨rs, hrs, hlen⟩ := hrs
        rw [hrs]
        simp only [Run.ret_bind]
        split
        · rename_i idx hI
          have hb := Index_length_bound hI
          rw [← Slice.len_eq_bytes_length, Slice.append_len] at hb
          rw [Slice.slice_of_le _ _ _ (by omega) (by rw [Slice.append_len]; omega)]
          exact ⟨_, _, rfl⟩
        · exact hcur
    · exact hcur

end Safety

section SafetyLine
variable (l : LoadDataInfo)

/-- What `getValidData` keeps of a `prevData` without a terminator after its
first starting symbol holds no terminator after the starting symbol. -/
theorem getValidData_no_terminator (p c p1 c1 : Slice)
    (hT : l.LinesInfo.Terminated ≠ [])
    (hp : NoTerminatorAfterStart l p.bytes)
    (h : getValidData l p c = .ret (p1, c1)) :
    Index (p1.bytes.drop l.LinesInfo.Starting.length) l.LinesInfo.Terminated = none := by
  simp only [getValidData] at h
  by_cases h0 : l.LinesInfo.Starting.length = 0
  · simp only [h0, if_true, Run.ret.injEq, Prod.mk.injEq] at h
    obtain ⟨rfl, rfl⟩ := h
    have := hp 0 (by rw [List.length_eq_zero.mp h0]; exact Index_nil_sep _)
    simpa [h0] using this
  · simp only [h0, if_false] at h
    have fromCur : getValidDataCur l c = .ret (p1, c1) →
        Index (p1.bytes.drop l.LinesInfo.Starting.length) l.LinesInfo.Terminated = none := by
      intro hc
      obtain ⟨rfl, _, _⟩ := getValidDataCur_spec l c p1 c1 hc
      rw [Slice.bytes_none, List.drop_nil]
      exact Index_nil_of_ne_nil hT
    split at h
    · split at h
      · rename_i idx hI
        rw [Run.bind_eq_ret] at h
        obtain ⟨a, ha, hret⟩ := h
        rw [Slice.sliceFrom_eq_ret] at ha
        obtain ⟨_, rfl⟩ := ha
        simp only [Run.ret.injEq, Prod.mk.injEq] at hret
        obtain ⟨rfl, rfl⟩ := hret
        rw [Slice.bytes_map_drop, List.drop_drop]
        exact hp idx hI
      · rename_i hI
        rw [Run.bind_eq_ret] at h
        obtain ⟨rs, _, h⟩ := h
        split at h
        · rename_i idx hI1
          rw [Run.bind_eq_ret] at h
          obtain ⟨a, ha, hret⟩ := h
          rw [Slice.slice_eq_ret] at ha
          obtain ⟨⟨hlo, hhi⟩, rfl⟩ := ha
          simp only [Run.ret.injEq, Prod.mk.injEq] at hret
          obtain ⟨rfl, rfl⟩ := hret
          rw [Slice.append_bytes] at hI1
          have hshort : p.bytes.length < idx + l.LinesInfo.Starting.length := by
            by_contra hge
            exact Index_ne_none_of_append hI1 (by omega) hI
          rw [Slice.bytes_map_slice, List.drop_drop,
            List.drop_of_length_le (by
              rw [List.length_take, Slice.append_bytes, List.length_append,
                Slice.len_eq_bytes_length]
              omega)]
          exact Index_nil_of_ne_nil hT
        · exact fromCur h
    · exact fromCur h

/-- The branch of `getLine` without a terminator in `curData` evaluates no
slice expression out of bounds when the stitched data can hold the starting
symbol. -/
theorem getLineNoEnd_returns (p c : Slice)
    (hlen : p.len ≠ 0 → l.LinesInfo.Starting.length ≤ p.len + c.len) :
    ∃ r, getLineNoEnd l p c = .ret r := by
  simp only [getLineNoEnd]
  split
  · exact ⟨_, rfl⟩
  · rename_i hp
    have hl := hlen hp
    rw [Slice.sliceFrom_of_le _ _ (by rw [Slice.append_len]; exact hl)]
    simp only [Run.ret_bind]
    split
    · rename_i e hI
      have hb := Index_length_bound hI
      rw [Slice.bytes_map_drop, List.length_drop, ← Slice.len_eq_bytes_length,
        Slice.append_len] at hb
      rw [Slice.slice_of_le _ _ _ (by omega) (by rw [Slice.append_len]; omega)]
      simp only [Run.ret_bind]
      rw [Slice.sliceFrom_of_le _ _ (by rw [Slice.append_len]; omega)]
      exact ⟨_, rfl⟩
    · exact ⟨_, rfl⟩

/-- The branch of `getLine` with a terminator in `curData` evaluates no slice
expression out of bounds, and `lineLen - prevLen` is not negative, when
`prevData` holds no terminator after the starting symbol. -/
theorem getLineEnd_returns (p c : Slice) (csi e : Nat)
    (hcs : csi ≤ c.len)
    (hpc : l.LinesInfo.Starting.length ≤ p.len + csi)
    (he : Index (c.bytes.drop csi) l.LinesInfo.Terminated = some e)
    (hH : Index (p.bytes.drop l.LinesInfo.Starting.length) l.LinesInfo.Terminated = none) :
    ∃ r, getLineEnd l p c csi e = .ret r := by
  have hb := Index_length_bound he
  rw [List.length_drop, ← Slice.len_eq_bytes_length] at hb
  simp only [getLineEnd]
  split
  · rw [Slice.slice_of_le _ _ _ (by omega) (by omega)]
    simp only [Run.ret_bind]
    rw [Slice.sliceFrom_of_le _ _ (by omega)]
    exact ⟨_, rfl⟩
  · rename_i hp
    rw [Slice.sliceTo_of_le _ _ (by omega)]
    simp only [Run.ret_bind]
    have hhead : Slice.len (c.map fun b => b.take (csi + e + l.LinesInfo.Terminated.length)) =
        csi + e + l.LinesInfo.Terminated.length := by
      rw [Slice.len_eq_bytes_length, Slice.bytes_map_take, List.length_take,
        ← Slice.len_eq_bytes_length]
      omega
    have hl1 : (p.append (c.map fun b =>
        b.take (csi + e + l.LinesInfo.Terminated.length))).len =
        p.len + (csi + e + l.LinesInfo.Terminated.length) := by
      rw [Slice.append_len, hhead]
    rw [Slice.sliceFrom_of_le _ _ (by rw [hl1]; omega)]
    simp only [Run.ret_bind]
    rw [Slice.bytes_map_drop, Slice.append_bytes, Slice.bytes_map_take]
    -- the terminator found in `curData` ends the stitched data
    have hsuf : l.LinesInfo.Terminated <:+
        (p.bytes ++ c.bytes.take (csi + e + l.LinesInfo.Terminated.length)).drop
          l.LinesInfo.Starting.length := by
      obtain ⟨_, hpre, _⟩ := (Index_eq_some_iff _ _ e).mp he
      rw [List.drop_drop] at hpre
      obtain ⟨t, ht⟩ := hpre
      have hc : c.bytes.take (csi + e + l.LinesInfo.Terminated.length) =
          c.bytes.take (csi + e) ++ l.LinesInfo.Terminated := by
        have h1 : c.bytes = c.bytes.take (csi + e) ++ (l.LinesInfo.Terminated ++ t) := by
          rw [ht]; exact (List.take_append_drop _ _).symm
        have hlt : (c.bytes.take (csi + e)).length = csi + e := by
          rw [List.length_take, ← Slice.len_eq_bytes_length]; omega
        conv_lhs => rw [h1]
        rw [List.take_append_eq_append_take, List.take_of_length_le (by omega), hlt,
          Nat.add_sub_cancel_left, List.take_left]
      rw [hc, ← List.append_assoc,
        List.drop_append_of_le_length (by
          rw [List.length_append, List.length_take, ← Slice.len_eq_bytes_length,
            ← Slice.len_eq_bytes_length]
          omega)]
      exact List.suffix_append _ _
    cases hI : Index ((p.bytes ++ c.bytes.take (csi + e + l.LinesInfo.Terminated.length)).drop
        l.LinesInfo.Starting.length) l.LinesInfo.Terminated with
    | none => exact absurd hI (Index_ne_none_of_suffix hsuf)
    | some e1 =>
      simp only []
      have hb1 := Index_length_bound hI
      rw [List.length_drop, List.length_append, List.length_take,
        ← Slice.len_eq_bytes_length, ← Slice.len_eq_bytes_length] at hb1
      have hmin : min (csi + e + l.LinesInfo.Terminated.length) c.len =
          csi + e + l.LinesInfo.Terminated.length := by omega
      rw [hmin] at hb1
      split
      · rw [Slice.slice_of_le _ _ _ (by omega) (by rw [hl1]; omega)]
        simp only [Run.ret_bind]
        rw [Slice.sliceFrom_of_le _ _ (by omega)]
        exact ⟨_, rfl⟩
      · rename_i hlt
        rw [Slice.slice_of_le _ _ _ (by omega) (by rw [hl1]; omega)]
        simp only [Run.ret_bind]
        have hge : ¬ (l.LinesInfo.Starting.length + e1 + l.LinesInfo.Terminated.length <
            p.len) := by
          intro hlt2
          have hI2 := hI
          rw [List.drop_append_of_le_length (by
            rw [← Slice.len_eq_bytes_length]; omega)] at hI2
          exact Index_ne_none_of_append hI2 (by
            rw [List.length_drop, ← Slice.len_eq_bytes_length]; omega) hH
        rw [if_neg hge, Slice.sliceFrom_of_le _ _ (by omega)]
        exact ⟨_, rfl⟩

end SafetyLine

section SafetyBody
variable (l : LoadDataInfo)

/-- The body of `getLine` evaluates no slice expression out of bounds on what
`getValidData` hands it, when the kept `prevData` holds no terminator after the
starting symbol. -/
theorem getLineBody_returns (p c : Slice)
    (hG : (p = none ∧ c.len < l.LinesInfo.Starting.length) ∨
      l.LinesInfo.Starting <+: p.bytes ++ c.bytes)
    (hH : Index (p.bytes.drop l.LinesInfo.Starting.length) l.LinesInfo.Terminated = none) :
    ∃ r, getLineBody l p c = .ret r := by
  simp only [getLineBody]
  split
  · exact ⟨_, rfl⟩
  · rename_i hshort
    have hpre : l.LinesInfo.Starting <+: p.bytes ++ c.bytes := by
      rcases hG with h | h
      · exact absurd h hshort
      · exact h
    have hlen : l.LinesInfo.Starting.length ≤ p.len + c.len := by
      have := hpre.length_le
      rw [List.length_append, ← Slice.len_eq_bytes_length, ← Slice.len_eq_bytes_length] at this
      exact this
    generalize hcs : (if p.len < l.LinesInfo.Starting.length
      then l.LinesInfo.Starting.length - p.len else 0) = csi
    have hpc : l.LinesInfo.Starting.length ≤ p.len + csi := by
      rw [← hcs]; split <;> omega
    have hcsle : csi ≤ c.len := by
      rw [← hcs]; split <;> omega
    rw [if_pos hcsle, Slice.sliceFrom_of_le _ _ hcsle]
    simp only [Run.ret_bind]
    rw [Slice.bytes_map_drop]
    cases he : Index (c.bytes.drop csi) l.LinesInfo.Terminated with
    | none => exact getLineNoEnd_returns l p c (fun _ => hlen)
    | some e => exact getLineEnd_returns l p c csi e hcsle hpc he hH

/-- Source `getLine` returns, that is, evaluates no index or slice expression
out of bounds, when `prevData` holds no terminator after its first starting
symbol. -/
theorem getLine_returns (p c : Slice)
    (hT : l.LinesInfo.Terminated ≠ [])
    (hp : NoTerminatorAfterStart l p.bytes) :
    ∃ r, getLine l p c = .ret r := by
  obtain ⟨p1, c1, hv⟩ := getValidData_returns l p c
  obtain ⟨_, _, _, hpre⟩ := getValidData_spec l p c p1 c1 hv
  have hH := getValidData_no_terminator l p c p1 c1 hT hp hv
  have hG : (p1 = none ∧ c1.len < l.LinesInfo.Starting.length) ∨
      l.LinesInfo.Starting <+: p1.bytes ++ c1.bytes := by
    by_cases h0 : 0 < l.LinesInfo.Starting.length
    · exact hpre h0
    · right
      have hnil : l.LinesInfo.Starting = [] := List.length_eq_zero.mp (by omega)
      rw [hnil]
      exact List.nil_prefix
  simp only [getLine, hv, Run.ret_bind]
  exact getLineBody_returns l p1 c1 hG hH

theorem NoTerminatorAfterStart_nil (hT : l.LinesInfo.Terminated ≠ []) :
    NoTerminatorAfterStart l [] := by
  intro i _
  rw [List.drop_nil]
  exact Index_nil_of_ne_nil hT

/-- A remainder shorter than the starting symbol, or an unfinished record,
holds no terminator after its first starting symbol. -/
theorem NoTerminatorAfterStart_of_remainder (rem : Slice)
    (hT : l.LinesInfo.Terminated ≠ [])
    (h : rem.len ≤ l.LinesInfo.Starting.length - 1 ∨ IsUnfinishedRecord l rem.bytes) :
    NoTerminatorAfterStart l rem.bytes := by
  intro i hi
  rcases h with h | ⟨hpre, hidx⟩
  · by_cases h0 : l.LinesInfo.Starting.length = 0
    · have hnil : rem.bytes = [] := Slice.bytes_eq_nil_of_len (by omega)
      rw [hnil, List.drop_nil]
      exact Index_nil_of_ne_nil hT
    · rw [Index_none_of_length_lt (by rw [← Slice.len_eq_bytes_length]; omega)] at hi
      exact absurd hi (by simp)
  · rw [ Index_zero_of_prefix hpre] at hi
    simp only [Option.some.injEq] at hi
    subst hi
    rw [Nat.zero_add]
    exact hidx

end SafetyBody

/-! ## Remainder, safety and termination on arbitrary buffers -/

/-- C18 as stated fails: `InsertData` returns without error a remainder longer
than `len(Starting) - 1`.  With an empty starting symbol the unfinished record
`abc` is returned whole (length 3, not 0); with the starting symbol `abc` the
unfinished record `abc1,2` is returned whole (length 6, not at most 2); and
after a flush the unread rest of the chunk is returned. -/
theorem remainder_exceeds_marker_bound :
    (InsertData sameName plainLines 1 none (some (lit "abc")) [] plainTable [] (fun _ => none) =
        .ret { remainder := some (lit "abc"), reachLimit := false, err := none, rows := [],
               calls := [] } ∧
      ¬ (lit "abc").length ≤ plainLines.LinesInfo.Starting.length - 1) ∧
    (InsertData sameName markerInfo 1 none (some (lit "zzabc1,2")) [] plainTable []
          (fun _ => none) =
        .ret { remainder := some (lit "abc1,2"), reachLimit := false, err := none, rows := [],
               calls := [] } ∧
      ¬ (lit "abc1,2").length ≤ markerInfo.LinesInfo.Starting.length - 1) ∧
    (InsertData sameName oneRowBatch 9 none (some (lit "a\nb\nccccc")) [] plainTable []
          (fun _ => none) =
        .ret { remainder := some (lit "b\nccccc"), reachLimit := true, err := none, rows := [],
               calls := [lit "INSERT  IGNORE  INTO t(a,b)  values ('a','')"] } ∧
      ¬ (lit "b\nccccc").length ≤ oneRowBatch.LinesInfo.Starting.length - 1) := by
  decide

/-- C18, amended. For every starting symbol, non-empty terminator, `prevData`
and `curData`, the loop of `InsertData` ends within `len(prevData) + len(curData)`
rounds, and whenever `InsertData` returns without error the remainder is a
suffix of `prevData` followed by `curData`.  If a flush is reported, the
remainder is shorter than `prevData` and `curData` together.  If no flush is
reported, the remainder either has length at most `len(Starting) - 1` (so
length 0 when the starting symbol is empty) or is an unfinished record, which
begins with the starting symbol and holds no terminator after it; and it has
length 0 when `curData` is empty (end of input). -/
theorem InsertData_remainder_shape (EqualFold : Bytes → Bytes → Bool) (l : LoadDataInfo)
    (tb : Table) (fields : List Field) (callback : InsertFunc) (fuel : Nat) (p c : Slice)
    (rows : List Row)
    (hT : l.LinesInfo.Terminated ≠ []) :
    (p.len + c.len ≤ fuel →
        InsertData EqualFold l fuel p c rows tb fields callback ≠ .timeout) ∧
      ∀ r : InsertResult, InsertData EqualFold l fuel p c rows tb fields callback = .ret r →
        r.err = none →
        r.remainder.bytes <:+ p.bytes ++ c.bytes ∧
        (r.reachLimit = true → r.remainder.len < p.len + c.len) ∧
        (r.reachLimit = false →
          r.remainder.len ≤ l.LinesInfo.Starting.length - 1 ∨
            IsUnfinishedRecord l r.remainder.bytes) ∧
        (r.reachLimit = false → c.len = 0 → r.remainder.len = 0) := by
  refine ⟨fun hf => InsertData_ne_timeout EqualFold l tb fields callback hT fuel p c rows hf,
    fun r h herr => ?_⟩
  obtain ⟨h1, h2, h3, h4⟩ :=
    InsertData_ret_spec EqualFold l tb fields callback hT fuel p c rows r h
  exact ⟨h4, fun hr => (h1 hr).2, fun hr => h2 hr herr, fun hr hc => h3 hc hr herr⟩

/-- C18, amended, on two calls.  On the chunk `zzabc1,2` with the starting
symbol `abc` the remainder `abc1,2` is an unfinished record; on the chunk
`a\nb\nccccc` with a batch of one row the remainder after the flush is
`b\nccccc`, a suffix of the chunk and shorter than it. -/
theorem InsertData_remainder_shape_witness :
    (InsertData sameName markerInfo 8 none (some (lit "zzabc1,2")) [] plainTable []
          (fun _ => none) =
        .ret { remainder := some (lit "abc1,2"), reachLimit := false, err := none, rows := [],
               calls := [] } ∧
      (Slice.len (some (lit "abc1,2")) ≤ markerInfo.LinesInfo.Starting.length - 1 ∨
        IsUnfinishedRecord markerInfo (Slice.bytes (some (lit "abc1,2"))))) ∧
    (InsertData sameName oneRowBatch 9 none (some (lit "a\nb\nccccc")) [] plainTable []
          (fun _ => none) =
        .ret { remainder := some (lit "b\nccccc"), reachLimit := true, err := none, rows := [],
               calls := [lit "INSERT  IGNORE  INTO t(a,b)  values ('a','')"] } ∧
      Slice.bytes (some (lit "b\nccccc")) <:+
        Slice.bytes none ++ Slice.bytes (some (lit "a\nb\nccccc")) ∧
      Slice.len (some (lit "b\nccccc")) <
        Slice.len none + Slice.len (some (lit "a\nb\nccccc"))) :=
  ⟨⟨by decide,
    ((InsertData_remainder_shape sameName markerInfo plainTable [] (fun _ => none) 8 none
      (some (lit "zzabc1,2")) [] (by decide)).2
      ⟨some (lit "abc1,2"), false, none, [], []⟩ (by decide) rfl).2.2.1 rfl⟩,
   ⟨by decide,
    ((InsertData_remainder_shape sameName oneRowBatch plainTable [] (fun _ => none) 9 none
      (some (lit "a\nb\nccccc")) [] (by decide)).2
      ⟨some (lit "b\nccccc"), true, none, [],
        [lit "INSERT  IGNORE  INTO t(a,b)  values ('a','')"]⟩ (by decide) rfl).1,
    ((InsertData_remainder_shape sameName oneRowBatch plainTable [] (fun _ => none) 9 none
      (some (lit "a\nb\nccccc")) [] (by decide)).2
      ⟨some (lit "b\nccccc"), true, none, [],
        [lit "INSERT  IGNORE  INTO t(a,b)  values ('a','')"]⟩ (by decide) rfl).2.1 rfl⟩⟩

/-- C19 as stated fails on a `prevData` that holds a complete record: with an
empty starting symbol and the terminator `\n`, `getLine` on
`prevData = a\nbbbbbb` and `curData = c\n` finds the terminator in `curData`,
then in the stitched data at offset 1, and slices `curData[lineLen-prevLen:]`
with `lineLen = 2` and `prevLen = 8`, out of bounds.  The same happens with the
starting symbol `abc`.  Both values of `prevData` hold a terminator after
their first starting symbol. -/
theorem getLine_panics_on_record_in_prevData :
    getLine plainLines (some (lit "a\nbbbbbb")) (some (lit "c\n")) = .panic ∧
    getLine markerInfo (some (lit "abc1,2\nabc3")) (some (lit ",4\n")) = .panic ∧
    ¬ NoTerminatorAfterStart plainLines (lit "a\nbbbbbb") ∧
    ¬ NoTerminatorAfterStart markerInfo (lit "abc1,2\nabc3") := by
  refine ⟨by decide, by decide, fun h => ?_, fun h => ?_⟩
  · exact absurd (h 0 (by decide)) (by decide)
  · exact absurd (h 0 (by decide)) (by decide)

/-- C19, amended. For every starting symbol and every non-empty terminator:
`getValidData` evaluates every slice expression within bounds on every pair
of buffers; `getLine` evaluates every index and slice expression within
bounds, `lineLen - prevLen` included, on every `curData` and every `prevData`
that holds no terminator after its first starting symbol; and such are the nil
`prevData` and every remainder `InsertData` returns without error and without
a flush. -/
theorem getLine_within_bounds (l : LoadDataInfo) (hT : l.LinesInfo.Terminated ≠ []) :
    (∀ p c : Slice, ∃ p1 c1, getValidData l p c = .ret (p1, c1)) ∧
      (∀ p c : Slice, NoTerminatorAfterStart l p.bytes →
        ∃ line rest hs, getLine l p c = .ret (line, rest, hs)) ∧
      NoTerminatorAfterStart l (Slice.bytes none) ∧
      (∀ (EqualFold : Bytes → Bytes → Bool) (fuel : Nat) (p c : Slice) (rows : List Row)
          (tb : Table) (fields : List Field) (callback : InsertFunc) (r : InsertResult),
        InsertData EqualFold l fuel p c rows tb fields callback = .ret r →
        r.err = none → r.reachLimit = false →
        NoTerminatorAfterStart l r.remainder.bytes) := by
  refine ⟨fun p c => getValidData_returns l p c, fun p c hp => ?_,
    NoTerminatorAfterStart_nil l hT, fun EqualFold fuel p c rows tb fields callback r h he hr => ?_⟩
  · obtain ⟨⟨line, rest, hs⟩, h⟩ := getLine_returns l p c hT hp
    exact ⟨line, rest, hs, h⟩
  · obtain ⟨_, h2, _, _⟩ :=
      InsertData_ret_spec EqualFold l tb fields callback hT fuel p c rows r h
    exact NoTerminatorAfterStart_of_remainder l r.remainder hT (h2 hr he)

/-- C19, amended, on the unfinished record `abc1` followed by the chunk
`,2\nabc3`: `getLine` returns the record `1,2` and the remainder `abc3`. -/
theorem getLine_within_bounds_witness :
    (∃ line rest hs,
        getLine markerInfo (some (lit "abc1")) (some (lit ",2\nabc3")) =
          .ret (line, rest, hs)) ∧
      getLine markerInfo (some (lit "abc1")) (some (lit ",2\nabc3")) =
        .ret (some (lit "1,2"), some (lit "abc3"), true) :=
  ⟨(getLine_within_bounds markerInfo (by decide)).2.1 (some (lit "abc1"))
      (some (lit ",2\nabc3"))
      (fun i hi => by
        have h0 : Index (lit "abc1") (lit "abc") = some 0 := by decide
        have hi2 : some 0 = some i := h0.symm.trans hi
        cases hi2
        decide),
   by decide⟩

/-- C20. With a non-empty terminator: a call of `getLine` that returns a record
returns a remainder shorter than `prevData` and `curData` together, and shorter
than `curData` when `prevData` is empty; the loop of `InsertData` ends within
`len(prevData) + len(curData)` rounds (the outcome is never `timeout`, the
outcome of a loop cut off before its end); a call of `InsertData` that reports
a flush returns a remainder shorter than the data it was given, so every
re-invocation by `insertDataWithCommit` receives fewer bytes than the one
before; and the loop of `insertDataWithCommit` ends within
`len(prevData) + len(curData) + 1` rounds, whatever `maxRowsInBatch` is. -/
theorem progress_and_termination (EqualFold : Bytes → Bytes → Bool) (l : LoadDataInfo)
    (tb : Table) (fields : List Field) (callback : InsertFunc) (p c : Slice) (rows : List Row)
    (hT : l.LinesInfo.Terminated ≠ []) :
    (∀ (line : Bytes) (rest : Slice) (hs : Bool),
        getLine l p c = .ret (some line, rest, hs) →
        rest.len < p.len + c.len ∧ (p.len = 0 → rest.len < c.len)) ∧
      (∀ fuel : Nat, p.len + c.len ≤ fuel →
        InsertData EqualFold l fuel p c rows tb fields callback ≠ .timeout) ∧
      (∀ (fuel : Nat) (r : InsertResult),
        InsertData EqualFold l fuel p c rows tb fields callback = .ret r →
        r.reachLimit = true → r.remainder.len < p.len + c.len) ∧
      (∀ inner outer : Nat, p.len + c.len ≤ inner → p.len + c.len < outer →
        insertDataWithCommit EqualFold l inner tb fields callback outer p c rows ≠
          .timeout) := by
  refine ⟨fun line rest hs h => ?_, fun fuel hf => ?_, fun fuel r h hr => ?_,
    fun inner outer hi ho => ?_⟩
  · exact (getLine_spec l p c (some line) rest hs hT h).2.2 (by simp)
  · exact InsertData_ne_timeout EqualFold l tb fields callback hT fuel p c rows hf
  · exact ((InsertData_ret_spec EqualFold l tb fields callback hT fuel p c rows r h).1 hr).2
  · exact insertDataWithCommit_ne_timeout EqualFold l tb fields callback hT inner outer p c rows
      hi ho

/-- C20 on three records with a batch of one row: `InsertData` ends within 9
rounds and `insertDataWithCommit` within 10. -/
theorem progress_and_termination_witness :
    InsertData sameName oneRowBatch 9 none (some (lit "a\nb\nccccc")) [] plainTable []
        (fun _ => none) ≠ .timeout ∧
      insertDataWithCommit sameName oneRowBatch 9 plainTable [] (fun _ => none) 10 none
        (some (lit "a\nb\nccccc")) [] ≠ .timeout :=
  ⟨(progress_and_termination sameName oneRowBatch plainTable [] (fun _ => none) none
      (some (lit "a\nb\nccccc")) [] (by decide)).2.1 9 (by decide),
   (progress_and_termination sameName oneRowBatch plainTable [] (fun _ => none) none
      (some (lit "a\nb\nccccc")) [] (by decide)).2.2.2 9 10 (by decide) (by decide)⟩

end LoadData
